import Mathlib

/-!
Verification of the core record structures of a run-length compressed
graph BWT library (the `gbwt` support layer): dynamic and compressed
per-node records, LF-mapping algorithms, record serialization, the
record-array merge, document-array samples, dictionaries and metadata.

All definitions are shallow embeddings of the C++ source in
`src/support.cpp`.  Machine integers (`size_type`, `node_type`) are
modelled by `Nat`; every claim proved below restricts attention to
queries where the source's `size_type` arithmetic cannot underflow, so
plain `Nat` subtraction coincides with the source's 64-bit subtraction
there.  The one place where a result is produced by a subtraction that
can genuinely wrap (the `- 1` on the upper bound of an LF range result)
is modelled with an explicit 64-bit wrapping subtraction `sub64`.

Library primitives that live in headers outside `src/` (the byte codec,
the run codec, the compressed-record iterators, the sparse bit vector)
are modelled from the specification's stated contracts; each such
definition carries a doc comment starting with `Modelled from the spec`.
-/

set_option linter.unusedSectionVars false

namespace Gbwt

/-- Node identifiers: 64-bit unsigned integers, modelled as `Nat`. -/
abbrev node_type := Nat

/-- Local rank into a record's outgoing edges. -/
abbrev rank_type := Nat

/-- Sizes and offsets (`size_type` in the source). -/
abbrev size_type := Nat

/-- An edge: (destination node, offset). -/
abbrev edge_type := Nat × Nat

/-- A run: (outgoing rank, length). -/
abbrev run_type := Nat × Nat

/-- A sample: (offset within the record, sequence id). -/
abbrev sample_type := Nat × Nat

/-- A BWT range. -/
abbrev range_type := Nat × Nat

/-- One byte of encoded data. -/
abbrev byte_type := Nat

/-- 2^64, the modulus of `size_type` arithmetic. -/
def U64 : Nat := 18446744073709551616

/-- The largest `size_type` value, used as a sentinel. -/
def U64MAX : Nat := U64 - 1

/-- The endmarker node (value 0). -/
def ENDMARKER : node_type := 0

/-- Sentinel edge `invalid_edge()`. -/
def invalid_edge : edge_type := (U64MAX, U64MAX)

/-- Sentinel offset `invalid_offset()`. -/
def invalid_offset : size_type := U64MAX

/-- Sentinel sequence id `invalid_sequence()`. -/
def invalid_sequence : size_type := U64MAX

/-- Sentinel sample `invalid_sample()`. -/
def invalid_sample : sample_type := (U64MAX, U64MAX)

/-- 64-bit wrapping subtraction: the source's `size_type` subtraction.
For `a b < 2^64` this is exact two's-complement wrap-around. -/
def sub64 (a b : Nat) : Nat := (a + (U64 - b % U64)) % U64

/-- `Node::reverse` flips the orientation bit (the low bit) of a node.
Modelled from the spec (§3): the identifier's low bit is the orientation. -/
def Node.reverse (n : node_type) : node_type :=
  if n % 2 = 0 then n + 1 else n - 1

/-- `Node::is_reverse` tests the orientation bit.
Modelled from the spec (§3). -/
def Node.is_reverse (n : node_type) : Bool := n % 2 = 1

namespace Range

/-- The canonical empty range.  Modelled from the spec (§7): an empty or
unreachable query returns the canonical empty range. -/
def empty_range : range_type := (1, 0)

/-- `Range::empty`: a range is empty when its lower bound exceeds its
upper bound.  Modelled from the spec (§4.2, §7). -/
def isEmpty (r : range_type) : Bool := decide (r.2 < r.1)

end Range

/-! ### Byte codec

Modelled from the spec (§6): a variable-length integer codec using the
industry-standard 7-bit-continuation scheme, little-endian groups.  The
implementation lives in a header outside `src/`. -/

namespace ByteCode

/-- Fuel-indexed body of `ByteCode::write`; the fuel only serves
structural termination and is always sufficient at `v + 1`. -/
def writeAux : Nat → Nat → List byte_type
  | 0, _ => []
  | fuel + 1, v => if v < 128 then [v] else (v % 128 + 128) :: writeAux fuel (v / 128)

/-- Modelled from the spec (§6): append the 7-bit-group encoding of `v`. -/
def write (v : Nat) : List byte_type := writeAux (v + 1) v

/-- Modelled from the spec (§6): consume one varint from the front of the
byte stream, returning the value and the remaining bytes. -/
def read : List byte_type → Option (Nat × List byte_type)
  | [] => none
  | b :: rest =>
    if b < 128 then some (b, rest)
    else
      match read rest with
      | none => none
      | some (v, rest') => some (b - 128 + 128 * v, rest')

theorem writeAux_congr (v : Nat) : ∀ fuel fuel', v < fuel → v < fuel' →
    writeAux fuel v = writeAux fuel' v := by
  induction v using Nat.strong_induction_on with
  | _ v ih =>
    intro fuel fuel' h h'
    obtain ⟨a, rfl⟩ : ∃ a, fuel = a + 1 := ⟨fuel - 1, by omega⟩
    obtain ⟨b, rfl⟩ : ∃ b, fuel' = b + 1 := ⟨fuel' - 1, by omega⟩
    by_cases hv : v < 128
    · simp [writeAux, hv]
    · have hlt : v / 128 < v := Nat.div_lt_self (by omega) (by omega)
      simp only [writeAux, if_neg hv]
      rw [ih _ hlt a b (by omega) (by omega)]

theorem writeAux_eq (fuel v : Nat) (h : v < fuel) :
    writeAux fuel v = write v := writeAux_congr v fuel (v + 1) h (by omega)

/-- The byte codec round-trips: reading after writing recovers the value
and leaves the trailing bytes untouched. -/
theorem read_write (v : Nat) (rest : List byte_type) :
    read (write v ++ rest) = some (v, rest) := by
  induction v using Nat.strong_induction_on with
  | _ v ih =>
    by_cases hv : v < 128
    · simp [write, writeAux, hv, read]
    · have hlt : v / 128 < v := Nat.div_lt_self (by omega) (by omega)
      rw [write, writeAux]
      simp only [if_neg hv]
      rw [writeAux_eq _ _ hlt]
      simp only [List.cons_append, read, if_neg (by omega : ¬ v % 128 + 128 < 128)]
      have hih := ih _ hlt
      simp only [List.append_eq] at hih ⊢
      rw [hih]
      dsimp only
      have : v % 128 + 128 - 128 + 128 * (v / 128) = v := by omega
      rw [this]

/-- Reading consumes at least one byte. -/
theorem read_length_lt {bytes rest : List byte_type} {v : Nat}
    (h : read bytes = some (v, rest)) : rest.length < bytes.length := by
  induction bytes generalizing v rest with
  | nil => simp [read] at h
  | cons b tl ih =>
    rw [read] at h
    by_cases hb : b < 128
    · simp [hb] at h
      simp [h.2.symm]
    · simp [hb] at h
      cases htl : read tl with
      | none => rw [htl] at h; simp at h
      | some p =>
        rw [htl] at h
        simp at h
        have := ih (show read tl = some (p.1, p.2) by rw [htl])
        have h2 : rest = p.2 := by
          cases p; simp at h; exact h.2.symm
        simp [h2]
        omega

end ByteCode

/-! ### Run codec

Modelled from the spec (§6, §4.3): over a rank space of size `sigma`,
a run `(r, l)` is encoded as a single codepoint; for `sigma = 1` the
codepoint is just the length, otherwise rank and length are combined.
The implementation lives in a header outside `src/`. -/

namespace Run

/-- Modelled from the spec (§6): encode one run as a single varint. -/
def write (sigma : Nat) (run : run_type) : List byte_type :=
  if sigma = 1 then ByteCode.write run.2
  else ByteCode.write (run.1 + sigma * (run.2 - 1))

/-- Decode one codepoint back into a run. -/
def decodeValue (sigma : Nat) (c : Nat) : run_type :=
  if sigma = 1 then (0, c) else (c % sigma, c / sigma + 1)

/-- Fuel-indexed run-stream decoder (fuel bounds the byte count). -/
def readAllAux (sigma : Nat) : Nat → List byte_type → List run_type
  | 0, _ => []
  | fuel + 1, bytes =>
    match ByteCode.read bytes with
    | none => []
    | some (c, rest) => decodeValue sigma c :: readAllAux sigma fuel rest

/-- Modelled from the spec (§6): the paired reader yields the encoded
runs in order until the byte stream is exhausted. -/
def readAll (sigma : Nat) (bytes : List byte_type) : List run_type :=
  readAllAux sigma bytes.length bytes

theorem readAllAux_succ (sigma fuel : Nat) (bytes : List byte_type) :
    readAllAux sigma (fuel + 1) bytes =
      match ByteCode.read bytes with
      | none => []
      | some (c, rest) => decodeValue sigma c :: readAllAux sigma fuel rest := rfl

theorem readAllAux_congr (sigma : Nat) : ∀ (n : Nat) (bytes : List byte_type),
    bytes.length = n → ∀ fuel fuel', n ≤ fuel → n ≤ fuel' →
    readAllAux sigma fuel bytes = readAllAux sigma fuel' bytes := by
  intro n
  induction n using Nat.strong_induction_on with
  | _ n ih =>
    intro bytes hn fuel fuel' h h'
    cases bytes with
    | nil =>
      cases fuel with
      | zero => cases fuel' with
        | zero => rfl
        | succ b => simp [readAllAux, readAllAux_succ, ByteCode.read]
      | succ a => cases fuel' with
        | zero => simp [readAllAux, readAllAux_succ, ByteCode.read]
        | succ b => simp [readAllAux_succ, ByteCode.read]
    | cons x tl =>
      obtain ⟨a, rfl⟩ : ∃ a, fuel = a + 1 := ⟨fuel - 1, by simp at hn; omega⟩
      obtain ⟨b, rfl⟩ : ∃ b, fuel' = b + 1 := ⟨fuel' - 1, by simp at hn; omega⟩
      rw [readAllAux_succ, readAllAux_succ]
      cases hr : ByteCode.read (x :: tl) with
      | none => rfl
      | some p =>
        obtain ⟨c, rest⟩ := p
        have hlen := ByteCode.read_length_lt hr
        dsimp only
        rw [ih rest.length (by omega) rest rfl a b (by omega) (by omega)]

theorem readAllAux_eq (sigma fuel : Nat) (bytes : List byte_type)
    (h : bytes.length ≤ fuel) : readAllAux sigma fuel bytes = readAll sigma bytes :=
  readAllAux_congr sigma bytes.length bytes rfl fuel bytes.length h le_rfl

/-- Unfolding `readAll` one run at a time. -/
theorem readAll_cons (sigma : Nat) {bytes rest : List byte_type} {c : Nat}
    (h : ByteCode.read bytes = some (c, rest)) :
    readAll sigma bytes = decodeValue sigma c :: readAll sigma rest := by
  have hlen := ByteCode.read_length_lt h
  obtain ⟨n, hn⟩ : ∃ n, bytes.length = n + 1 := ⟨bytes.length - 1, by omega⟩
  rw [readAll, hn, readAllAux_succ, h]
  dsimp only
  rw [readAllAux_eq sigma n rest (by omega)]

/-- Decoding a freshly written run recovers it, provided the rank is in
the rank space and the length is positive. -/
theorem decode_write (sigma : Nat) (run : run_type)
    (hr : run.1 < sigma) (hl : 0 < run.2) (rest : List byte_type) :
    ByteCode.read (write sigma run ++ rest) =
      some ((if sigma = 1 then run.2 else run.1 + sigma * (run.2 - 1)), rest) ∧
    decodeValue sigma (if sigma = 1 then run.2 else run.1 + sigma * (run.2 - 1)) = run := by
  constructor
  · by_cases h1 : sigma = 1 <;> simp [write, h1, ByteCode.read_write]
  · by_cases h1 : sigma = 1
    · subst h1
      obtain ⟨a, b⟩ := run
      simp at hr
      simp [decodeValue, hr]
    · obtain ⟨a, b⟩ := run
      simp at hr hl ⊢
      simp [decodeValue, h1]
      refine ⟨?_, ?_⟩
      · exact Nat.mod_eq_of_lt hr
      · rw [Nat.add_mul_div_left _ _ (by omega), Nat.div_eq_of_lt hr]
        omega

/-- Round trip for a whole run stream. -/
theorem readAll_writeAll (sigma : Nat) (runs : List run_type)
    (hr : ∀ r ∈ runs, r.1 < sigma ∧ 0 < r.2) :
    readAll sigma (runs.flatMap (write sigma)) = runs := by
  induction runs with
  | nil => simp [readAll, readAllAux]
  | cons r tl ih =>
    have hhd := hr r (by simp)
    obtain ⟨hread, hdec⟩ := decode_write sigma r hhd.1 hhd.2 (tl.flatMap (write sigma))
    rw [List.flatMap_cons, readAll_cons sigma hread, hdec,
      ih (fun x hx => hr x (by simp [hx]))]

end Run

/-! ### DynamicRecord -/

/-- The mutable per-node record (`DynamicRecord` in `src/support.cpp`). -/
structure DynamicRecord where
  incoming : List edge_type
  outgoing : List edge_type
  body : List run_type
  body_size : Nat
  ids : List sample_type
deriving DecidableEq, Repr

/-- Free function `edgeTo` (src/support.cpp:56-68): binary search over
`outgoing` by destination node; returns `outgoing.size()` on a miss.
The `while` loop is driven by a fuel argument that strictly exceeds the
initial width of the search interval, which is enough for termination. -/
def edgeToAux (toNode : node_type) (outgoing : List edge_type) :
    Nat → Nat → Nat → rank_type
  | 0, _, _ => outgoing.length
  | fuel + 1, low, high =>
    if low < high then
      let mid := low + (high - low) / 2
      let e := outgoing.getD mid (0, 0)
      if e.1 = toNode then mid
      else if e.1 > toNode then edgeToAux toNode outgoing fuel low mid
      else edgeToAux toNode outgoing fuel (mid + 1) high
    else outgoing.length

/-- `gbwt::edgeTo` (src/support.cpp:56-68). -/
def edgeTo (toNode : node_type) (outgoing : List edge_type) : rank_type :=
  edgeToAux toNode outgoing (outgoing.length + 1) 0 outgoing.length

/-- `sequentialSort` is `std::sort` with the default `std::pair`
lexicographic order; since that order is total, any correct sorting
algorithm produces the same list.  We use insertion sort. -/
def insertEdge (e : edge_type) : List edge_type → List edge_type
  | [] => [e]
  | x :: xs => if e.1 < x.1 ∨ (e.1 = x.1 ∧ e.2 ≤ x.2) then e :: x :: xs
               else x :: insertEdge e xs

/-- Sort a list of edges by the lexicographic pair order. -/
def sortEdges : List edge_type → List edge_type
  | [] => []
  | x :: xs => insertEdge x (sortEdges xs)

namespace DynamicRecord

/-- `outdegree()`. -/
def outdegree (r : DynamicRecord) : Nat := r.outgoing.length

/-- `size()` returns the cached `body_size`. -/
def size (r : DynamicRecord) : Nat := r.body_size

/-- `empty()`: the record has no body. -/
def emptyRec (r : DynamicRecord) : Bool := decide (r.size = 0)

/-- `successor(outrank)` = `outgoing[outrank].first`.  Out-of-range
access is undefined behaviour in the source; we default to `(0, 0)`. -/
def successor (r : DynamicRecord) (outrank : rank_type) : node_type :=
  (r.outgoing.getD outrank (0, 0)).1

/-- `offset(outrank)` = `outgoing[outrank].second`. -/
def offset (r : DynamicRecord) (outrank : rank_type) : size_type :=
  (r.outgoing.getD outrank (0, 0)).2

/-- Member `edgeTo` delegates to the free binary search. -/
def edgeToRec (r : DynamicRecord) (toNode : node_type) : rank_type :=
  edgeTo toNode r.outgoing

/-- `recode()` (src/support.cpp:97-112): if `outgoing` is not sorted by
successor, rewrite body ranks as node identifiers, sort `outgoing`, and
rewrite the ranks back via `edgeTo`. -/
def recode (r : DynamicRecord) : DynamicRecord :=
  if r.emptyRec then r
  else
    let sorted := (List.range r.outdegree).all fun outrank =>
      decide (outrank = 0) || ! decide (r.successor outrank < r.successor (outrank - 1))
    if sorted then r
    else
      let body' := r.body.map fun run => (r.successor run.1, run.2)
      let outgoing' := sortEdges r.outgoing
      let body'' := body'.map fun run => (edgeTo run.1 outgoing', run.2)
      { r with outgoing := outgoing', body := body'' }

/-- Whether outrank `i` occurs in the body (the `used` array of
`removeUnusedEdges`). -/
def usedIn (body : List run_type) (i : rank_type) : Bool :=
  body.any fun run => run.1 = i

/-- The compaction loop of `removeUnusedEdges`: keep `outgoing[i]`
exactly when `used[i]`. -/
def compact (outgoing : List edge_type) (used : Nat → Bool) : List edge_type :=
  (List.range outgoing.length).filterMap fun i =>
    if used i then some (outgoing.getD i (0, 0)) else none

/-- `removeUnusedEdges()` (src/support.cpp:114-136). -/
def removeUnusedEdges (r : DynamicRecord) : DynamicRecord :=
  let body' := r.body.map fun run => (r.successor run.1, run.2)
  let outgoing' := compact r.outgoing (usedIn r.body)
  let body'' := body'.map fun run => (edgeTo run.1 outgoing', run.2)
  { r with outgoing := outgoing', body := body'' }

/-- `writeBWT(data)` (src/support.cpp:139-157): varint outdegree, then
delta-coded outgoing edges, then the run-encoded body (only when the
outdegree is positive). -/
def writeEdges : Nat → List edge_type → List byte_type
  | _, [] => []
  | prev, e :: es => ByteCode.write (e.1 - prev) ++ ByteCode.write e.2 ++ writeEdges e.1 es

/-- The byte image of a record. -/
def writeBWT (r : DynamicRecord) : List byte_type :=
  ByteCode.write r.outdegree ++ writeEdges 0 r.outgoing ++
    (if 0 < r.outdegree then r.body.flatMap (Run.write r.outdegree) else [])

/-! The LF loop shared by `runLF`'s array and vector branches
(src/support.cpp:167-183).  The two branches differ only in how the
accumulator array is allocated, so both are modelled by one function.
The function returns the corrected edge together with the cumulative
offset at the end of the selected run (`run_end + 1`). -/

/-- One `result` accumulator bump: `result[rank].second += len`. -/
def bumpAt (result : List edge_type) (rank len : Nat) : List edge_type :=
  result.mapIdx fun i e => if i = rank then (e.1, e.2 + len) else e

/-- `LFLoop` (src/support.cpp:167-183), with explicit `last_edge` and
`offset` state.  On exit, `result[last_edge].second -= offset - i` and
`run_end = offset - 1`; we return the final cumulative offset instead of
`run_end` and let callers subtract one. -/
def LFLoopArr (i : Nat) : List edge_type → List run_type → Nat → Nat →
    edge_type × Nat
  | result, [], last_edge, off =>
    (((result.getD last_edge (0, 0)).1,
      (result.getD last_edge (0, 0)).2 - (off - i)), off)
  | result, run :: rest, _, off =>
    let result' := bumpAt result run.1 run.2
    let off' := off + run.2
    if off' > i then
      (((result'.getD run.1 (0, 0)).1,
        (result'.getD run.1 (0, 0)).2 - (off' - i)), off')
    else LFLoopArr i result' rest run.1 off'

/-- `runLF(i, run_end)` (src/support.cpp:185-201).  The in-out
`run_end` parameter is modelled explicitly: on the early return it is
left untouched. -/
def runLF (r : DynamicRecord) (i : Nat) (run_end : Nat) : edge_type × Nat :=
  if i ≥ r.size then (invalid_edge, run_end)
  else
    let res := LFLoopArr i r.outgoing r.body 0 0
    (res.1, res.2 - 1)

/-- `LF(i)` (src/support.cpp:160-165). -/
def LF (r : DynamicRecord) (i : Nat) : edge_type := (r.runLF i 0).1

/-- State of the rank-accumulating LF loop (src/support.cpp:203-215):
the unread runs, the latest run `*(--iter)`, and the `offset` and
`result` accumulators at the end of that run. -/
structure TState where
  rem : List run_type
  run : run_type
  off : Nat
  result : Nat
deriving DecidableEq, Repr

/-- `LFLoop(iter, end, i, outrank, run, offset, result)`
(src/support.cpp:203-215): consume runs while `offset < i`, counting
only occurrences of `outrank`; return the corrected rank together with
the final state (the reference parameters). -/
def lfLoopT (outrank i : Nat) : List run_type → run_type → Nat → Nat → Nat × TState
  | [], run, off, result =>
    (result - (if run.1 = outrank then off - i else 0), ⟨[], run, off, result⟩)
  | r :: rest, run, off, result =>
    if off < i then
      lfLoopT outrank i rest r (off + r.2)
        (result + (if r.1 = outrank then r.2 else 0))
    else
      (result - (if run.1 = outrank then off - i else 0), ⟨r :: rest, run, off, result⟩)

/-- `LF(i, to)` (src/support.cpp:217-228). -/
def LFNode (r : DynamicRecord) (i : Nat) (toNode : node_type) : size_type :=
  let outrank := r.edgeToRec toNode
  if outrank ≥ r.outdegree then invalid_offset
  else (lfLoopT outrank i r.body (0, 0) 0 (r.offset outrank)).1

/-- `LF(range, to)` (src/support.cpp:230-246): two rank computations
sharing one pass over the body. -/
def LFRange (r : DynamicRecord) (range : range_type) (toNode : node_type) : range_type :=
  if Range.isEmpty range then Range.empty_range
  else
    let outrank := r.edgeToRec toNode
    if outrank ≥ r.outdegree then Range.empty_range
    else
      let p1 := lfLoopT outrank range.1 r.body (0, 0) 0 (r.offset outrank)
      let st := p1.2
      let p2 := lfLoopT outrank (range.2 + 1) st.rem st.run st.off st.result
      (p1.1, sub64 p2.1 1)

/-- The middle loop of `bdLF` (src/support.cpp:284-290): walk runs while
`offset < b`, accumulating `equal` (occurrences of `outrank`) and
`reverse_offset` (occurrences of ranks `< reverse_rank`). -/
def bdMidLoop (outrank reverse_rank b : Nat) :
    List run_type → run_type → Nat → Nat → Nat →
    List run_type × run_type × Nat × Nat × Nat
  | [], run, off, equal, ro => ([], run, off, equal, ro)
  | r :: rest, run, off, equal, ro =>
    if off < b then
      bdMidLoop outrank reverse_rank b rest r (off + r.2)
        (equal + (if r.1 = outrank then r.2 else 0))
        (ro + (if r.1 < reverse_rank then r.2 else 0))
    else (r :: rest, run, off, equal, ro)

/-- `bdLF(range, to, reverse_offset)` (src/support.cpp:248-298).  The
in-out `reverse_offset` is returned alongside the range; on the early
returns it keeps its input value. -/
def bdLF (r : DynamicRecord) (range : range_type) (toNode : node_type)
    (reverse_offset : Nat) : range_type × Nat :=
  if Range.isEmpty range then (Range.empty_range, reverse_offset)
  else
    let outrank := r.edgeToRec toNode
    if outrank ≥ r.outdegree then (Range.empty_range, reverse_offset)
    else
      let p1 := lfLoopT outrank range.1 r.body (0, 0) 0 (r.offset outrank)
      let sp := p1.1
      let st := p1.2
      let rr0 := r.edgeToRec (Node.reverse toNode)
      let subtract_equal := decide (rr0 < r.outdegree ∧ ¬ Node.is_reverse toNode)
      let reverse_rank :=
        if rr0 ≥ r.outdegree then outrank
        else if ¬ Node.is_reverse toNode then rr0 + 1 else rr0
      let equal0 := if st.run.1 = outrank then st.off - range.1 else 0
      let ro0 := if st.run.1 < reverse_rank then st.off - range.1 else 0
      let b := range.2 + 1
      let fin := bdMidLoop outrank reverse_rank b st.rem st.run st.off equal0 ro0
      let run' := fin.2.1
      let off' := fin.2.2.1
      let equal1 := fin.2.2.2.1 - (if run'.1 = outrank then off' - b else 0)
      let ro1 := fin.2.2.2.2 - (if run'.1 < reverse_rank then off' - b else 0)
      let ro2 := if subtract_equal then ro1 - equal1 else ro1
      ((sp, sub64 (sp + equal1) 1), ro2)

/-- The body walk of `operator[]` (src/support.cpp:300-313), shared with
`CompressedRecord::operator[]` (src/support.cpp:549-559): the successor
of the run containing position `i`, or `ENDMARKER` past the end. -/
def bodyAt (outgoing : List edge_type) (i : Nat) : List run_type → Nat → node_type
  | [], _ => ENDMARKER
  | run :: rest, off =>
    if off + run.2 > i then (outgoing.getD run.1 (0, 0)).1
    else bodyAt outgoing i rest (off + run.2)

/-- `operator[]` (src/support.cpp:300-313). -/
def getAt (r : DynamicRecord) (i : Nat) : node_type :=
  if i ≥ r.size then ENDMARKER else bodyAt r.outgoing i r.body 0

/-- `samples()`: number of stored samples. -/
def samples (r : DynamicRecord) : Nat := r.ids.length

end DynamicRecord

/-! ### Record invariants (spec §3) -/

/-- Sum of the run lengths of a body. -/
def sumLen (body : List run_type) : Nat := (body.map Prod.snd).sum

/-- The flattened rank sequence of a body: position `j` holds the
outgoing rank of the run covering `j`. -/
def flatRanks (body : List run_type) : List Nat :=
  body.flatMap fun run => List.replicate run.2 run.1

/-- Record invariants from the spec (§3): `outgoing` strictly sorted by
successor (sorted with unique successors), every body rank within the
outdegree, positive run lengths, cached size consistent, and strictly
increasing in-range sample offsets. -/
def DynamicRecord.wf (r : DynamicRecord) : Prop :=
  r.outgoing.Pairwise (fun a b => a.1 < b.1) ∧
  (∀ run ∈ r.body, run.1 < r.outdegree ∧ 0 < run.2) ∧
  r.body_size = sumLen r.body ∧
  r.ids.Pairwise (fun a b => a.1 < b.1) ∧
  (∀ s ∈ r.ids, s.1 < r.body_size)

instance (r : DynamicRecord) : Decidable r.wf := by
  unfold DynamicRecord.wf
  infer_instance

/-! ### Counting infrastructure for the LF loops -/

/-- Number of positions among the runs `L` whose rank satisfies `p`. -/
def cntP (p : Nat → Bool) (L : List run_type) : Nat := (flatRanks L).countP p

theorem flatRanks_append (a b : List run_type) :
    flatRanks (a ++ b) = flatRanks a ++ flatRanks b := by
  simp [flatRanks]

theorem flatRanks_cons (r : run_type) (b : List run_type) :
    flatRanks (r :: b) = List.replicate r.2 r.1 ++ flatRanks b := by
  simp [flatRanks]

theorem length_flatRanks (L : List run_type) : (flatRanks L).length = sumLen L := by
  induction L with
  | nil => simp [flatRanks, sumLen]
  | cons r tl ih => simp [flatRanks, sumLen] at ih ⊢; omega

theorem sumLen_append (a b : List run_type) :
    sumLen (a ++ b) = sumLen a + sumLen b := by
  simp [sumLen]

theorem sumLen_cons (r : run_type) (b : List run_type) :
    sumLen (r :: b) = r.2 + sumLen b := by
  simp [sumLen]

theorem sumLen_nil : sumLen [] = 0 := rfl

theorem countP_replicate (p : Nat → Bool) (n a : Nat) :
    (List.replicate n a).countP p = if p a then n else 0 := by
  induction n with
  | zero => simp
  | succ m ih =>
    rw [List.replicate_succ, List.countP_cons]
    rw [ih]
    by_cases h : p a <;> simp [h]

theorem cntP_append (p : Nat → Bool) (a b : List run_type) :
    cntP p (a ++ b) = cntP p a + cntP p b := by
  simp [cntP, flatRanks_append, List.countP_append]

theorem cntP_single (p : Nat → Bool) (r : run_type) :
    cntP p [r] = if p r.1 then r.2 else 0 := by
  simp [cntP, flatRanks, countP_replicate]

theorem cntP_nil (p : Nat → Bool) : cntP p [] = 0 := rfl

/-- Window count: positions `j < i` of the flattened rank sequence whose
rank satisfies `p`. -/
def wcnt (p : Nat → Bool) (L : List run_type) (i : Nat) : Nat :=
  ((flatRanks L).take i).countP p

theorem wcnt_append_left (p : Nat → Bool) (a b : List run_type) (i : Nat)
    (h : sumLen a ≤ i) :
    wcnt p (a ++ b) i = cntP p a + wcnt p b (i - sumLen a) := by
  rw [wcnt, flatRanks_append, List.take_append_eq_append_take,
    List.take_of_length_le (by rw [length_flatRanks]; omega),
    List.countP_append, length_flatRanks]
  rfl

theorem wcnt_singleton (p : Nat → Bool) (r : run_type) (i : Nat) :
    wcnt p [r] i = if p r.1 then min i r.2 else 0 := by
  rw [wcnt]
  have : flatRanks [r] = List.replicate r.2 r.1 := by simp [flatRanks]
  rw [this, List.take_replicate, countP_replicate]

theorem wcnt_all (p : Nat → Bool) (L : List run_type) (i : Nat)
    (h : sumLen L ≤ i) : wcnt p L i = cntP p L := by
  rw [wcnt, List.take_of_length_le (by rw [length_flatRanks]; omega)]
  rfl

theorem wcnt_cons (p : Nat → Bool) (r : run_type) (b : List run_type) (i : Nat)
    (h : r.2 ≤ i) :
    wcnt p (r :: b) i = (if p r.1 then r.2 else 0) + wcnt p b (i - r.2) := by
  have := wcnt_append_left p [r] b i (by simp [sumLen]; omega)
  simp only [List.singleton_append] at this
  rw [this, cntP_single]
  simp [sumLen]

/-! ### Binary search correctness -/

theorem sorted_fst_lt {outgoing : List edge_type}
    (hs : outgoing.Pairwise (fun a b => a.1 < b.1)) :
    ∀ i j, i < j → j < outgoing.length →
      (outgoing.getD i (0, 0)).1 < (outgoing.getD j (0, 0)).1 := by
  intro i j hij hj
  have hi : i < outgoing.length := by omega
  rw [List.getD_eq_getElem _ _ hi, List.getD_eq_getElem _ _ hj]
  exact List.pairwise_iff_get.mp hs ⟨i, hi⟩ ⟨j, hj⟩ hij

theorem edgeToAux_miss (toNode : node_type) (outgoing : List edge_type)
    (hmiss : ∀ e ∈ outgoing, e.1 ≠ toNode) :
    ∀ fuel low high, high ≤ outgoing.length →
      edgeToAux toNode outgoing fuel low high = outgoing.length := by
  intro fuel
  induction fuel with
  | zero => intro low high _; rfl
  | succ n ih =>
    intro low high hh
    rw [edgeToAux]
    dsimp only
    by_cases hlh : low < high
    · rw [if_pos hlh]
      have hmid : low + (high - low) / 2 < outgoing.length := by omega
      have hmem : outgoing.getD (low + (high - low) / 2) (0, 0) ∈ outgoing := by
        rw [List.getD_eq_getElem _ _ hmid]
        exact List.getElem_mem hmid
      have hne := hmiss _ hmem
      rw [if_neg hne]
      by_cases hgt : (outgoing.getD (low + (high - low) / 2) (0, 0)).1 > toNode
      · rw [if_pos hgt]
        exact ih low (low + (high - low) / 2) (by omega)
      · rw [if_neg hgt]
        exact ih (low + (high - low) / 2 + 1) high hh
    · rw [if_neg hlh]

theorem edgeToAux_hit (toNode : node_type) (outgoing : List edge_type)
    (hs : outgoing.Pairwise (fun a b => a.1 < b.1))
    (k : Nat) (hk : k < outgoing.length)
    (hkv : (outgoing.getD k (0, 0)).1 = toNode) :
    ∀ fuel low high, low ≤ k → k < high → high ≤ outgoing.length →
      high - low < fuel → edgeToAux toNode outgoing fuel low high = k := by
  intro fuel
  induction fuel with
  | zero => intro low high _ _ _ h; omega
  | succ n ih =>
    intro low high hlk hkh hh hfuel
    have hlh : low < high := by omega
    rw [edgeToAux]
    dsimp only
    rw [if_pos hlh]
    have hmid : low + (high - low) / 2 < outgoing.length := by omega
    by_cases heq : (outgoing.getD (low + (high - low) / 2) (0, 0)).1 = toNode
    · rw [if_pos heq]
      by_contra hne
      rcases Nat.lt_or_ge (low + (high - low) / 2) k with h1 | h1
      · have := sorted_fst_lt hs (low + (high - low) / 2) k h1 hk
        omega
      · have h2 : k < low + (high - low) / 2 :=
          Nat.lt_of_le_of_ne h1 (fun hcc => hne hcc.symm)
        have := sorted_fst_lt hs k (low + (high - low) / 2) h2 hmid
        omega
    · rw [if_neg heq]
      by_cases hgt : (outgoing.getD (low + (high - low) / 2) (0, 0)).1 > toNode
      · rw [if_pos hgt]
        have hkm : k < low + (high - low) / 2 := by
          by_contra hc
          rcases Nat.eq_or_lt_of_le (by omega : low + (high - low) / 2 ≤ k) with h2 | h2
          · rw [h2] at heq; exact heq hkv
          · have := sorted_fst_lt hs (low + (high - low) / 2) k h2 hk
            omega
        exact ih low (low + (high - low) / 2) hlk hkm (by omega) (by omega)
      · rw [if_neg hgt]
        have hmk : low + (high - low) / 2 < k := by
          by_contra hc
          rcases Nat.eq_or_lt_of_le (by omega : k ≤ low + (high - low) / 2) with h2 | h2
          · rw [← h2] at heq; exact heq hkv
          · have := sorted_fst_lt hs k (low + (high - low) / 2) h2 hmid
            omega
        exact ih (low + (high - low) / 2 + 1) high (by omega) hkh hh (by omega)

/-- `edgeTo` on a miss returns the outdegree (regardless of sortedness:
the loop returns early only on an exact match). -/
theorem edgeTo_miss (toNode : node_type) (outgoing : List edge_type)
    (hmiss : ∀ e ∈ outgoing, e.1 ≠ toNode) :
    edgeTo toNode outgoing = outgoing.length :=
  edgeToAux_miss toNode outgoing hmiss _ 0 outgoing.length le_rfl

/-- `edgeTo` on a sorted list finds the unique matching rank. -/
theorem edgeTo_hit (toNode : node_type) (outgoing : List edge_type)
    (hs : outgoing.Pairwise (fun a b => a.1 < b.1))
    (k : Nat) (hk : k < outgoing.length)
    (hkv : (outgoing.getD k (0, 0)).1 = toNode) :
    edgeTo toNode outgoing = k :=
  edgeToAux_hit toNode outgoing hs k hk hkv _ 0 outgoing.length
    (by omega) hk le_rfl (by omega)

/-! ### Specification of the rank-accumulating LF loop -/

theorem wcnt_prefix (p : Nat → Bool) (A B : List run_type) (i : Nat)
    (h : i ≤ sumLen A) : wcnt p (A ++ B) i = wcnt p A i := by
  rw [wcnt, wcnt, flatRanks_append, List.take_append_of_le_length]
  rw [length_flatRanks]; omega

/-- Value of the loop's exit computation: subtracting the overshoot of
the current run from the accumulated count yields the count below `i`. -/
theorem lfLoop_exit_val (outrank base i : Nat) (H : List run_type)
    (run : run_type) (hle : sumLen H ≤ i) :
    base + cntP (fun x => x == outrank) (H ++ [run]) -
        (if run.1 = outrank then sumLen H + run.2 - i else 0) =
      base + wcnt (fun x => x == outrank) (H ++ [run]) i := by
  rw [cntP_append, cntP_single, wcnt_append_left _ _ _ _ hle, wcnt_singleton]
  by_cases hb : run.1 = outrank
  · simp only [hb, beq_self_eq_true, if_true]
    omega
  · have hb' : (run.1 == outrank) = false := by simp [hb]
    simp only [hb, hb', if_false, Bool.false_eq_true]
    omega

/-- Master specification of `lfLoopT`.  The state is presented through a
history `H` of fully consumed runs followed by the current run: the
`offset` is the cumulative length through the current run, the `result`
is `base` plus the occurrences of `outrank` so far, and the start of the
current run lies at or before `i`.  The returned value is `base` plus
the number of occurrences of `outrank` among the first `i` positions,
and the final state satisfies the same invariant with history extended. -/
theorem lfLoopT_spec (outrank i base : Nat) :
    ∀ (rem H : List run_type) (run : run_type),
    sumLen H ≤ i →
    (DynamicRecord.lfLoopT outrank i rem run (sumLen H + run.2)
        (base + cntP (fun x => x == outrank) (H ++ [run]))).1
      = base + wcnt (fun x => x == outrank) (H ++ run :: rem) i
    ∧ ∃ H' run' rem',
        (DynamicRecord.lfLoopT outrank i rem run (sumLen H + run.2)
            (base + cntP (fun x => x == outrank) (H ++ [run]))).2
          = ⟨rem', run', sumLen H' + run'.2,
             base + cntP (fun x => x == outrank) (H' ++ [run'])⟩
        ∧ H' ++ run' :: rem' = H ++ run :: rem
        ∧ sumLen H' ≤ i
        ∧ (i ≤ sumLen H' + run'.2 ∨ rem' = []) := by
  intro rem
  induction rem with
  | nil =>
    intro H run hle
    rw [DynamicRecord.lfLoopT]
    constructor
    · have : H ++ run :: ([] : List run_type) = H ++ [run] := by simp
      rw [this]
      exact lfLoop_exit_val outrank base i H run hle
    · exact ⟨H, run, [], rfl, rfl, hle, Or.inr rfl⟩
  | cons r rest ih =>
    intro H run hle
    rw [DynamicRecord.lfLoopT]
    by_cases hoff : sumLen H + run.2 < i
    · rw [if_pos hoff]
      have hpre : sumLen (H ++ [run]) ≤ i := by
        rw [sumLen_append, sumLen_cons, sumLen_nil]; omega
      have heq1 : sumLen H + run.2 + r.2 = sumLen (H ++ [run]) + r.2 := by
        rw [sumLen_append, sumLen_cons, sumLen_nil]; omega
      have heq2 : base + cntP (fun x => x == outrank) (H ++ [run]) +
          (if r.1 = outrank then r.2 else 0)
          = base + cntP (fun x => x == outrank) ((H ++ [run]) ++ [r]) := by
        rw [cntP_append (fun x => x == outrank) (H ++ [run]) [r], cntP_single]
        by_cases hb : r.1 = outrank
        · simp [hb]; omega
        · have hb' : (r.1 == outrank) = false := by simp [hb]
          simp [hb, hb']
      rw [heq1, heq2]
      obtain ⟨hval, H', run', rem', hstate, hlist, hle', hexit⟩ := ih (H ++ [run]) r hpre
      refine ⟨?_, H', run', rem', hstate, ?_, hle', hexit⟩
      · rw [hval]
        have : (H ++ [run]) ++ r :: rest = H ++ run :: r :: rest := by simp
        rw [this]
      · rw [hlist]; simp
    · rw [if_neg hoff]
      constructor
      · have hwp : wcnt (fun x => x == outrank) (H ++ run :: r :: rest) i
            = wcnt (fun x => x == outrank) (H ++ [run]) i := by
          have hsplit : H ++ run :: r :: rest = (H ++ [run]) ++ (r :: rest) := by simp
          rw [hsplit, wcnt_prefix]
          rw [sumLen_append, sumLen_cons, sumLen_nil]; omega
        rw [hwp]
        exact lfLoop_exit_val outrank base i H run hle
      · exact ⟨H, run, r :: rest, rfl, rfl, hle, Or.inl (by omega)⟩


/-! ### Position indexing via the flattened rank sequence -/

theorem getD_replicate_lt (n a i d : Nat) (h : i < n) :
    (List.replicate n a).getD i d = a := by
  rw [List.getD_eq_getElem _ _ (by simp; omega)]
  simp

theorem flatRanks_getD_mem (body : List run_type) (j : Nat)
    (h : j < sumLen body) : (flatRanks body).getD j 0 ∈ flatRanks body := by
  rw [List.getD_eq_getElem _ _ (by rw [length_flatRanks]; omega)]
  exact List.getElem_mem _

theorem mem_flatRanks (body : List run_type) (x : Nat)
    (h : x ∈ flatRanks body) : ∃ run ∈ body, run.1 = x := by
  rw [flatRanks, List.mem_flatMap] at h
  obtain ⟨run, hrun, hx⟩ := h
  exact ⟨run, hrun, (List.eq_of_mem_replicate hx).symm⟩

/-- The body walk of `operator[]` returns the successor of the rank at
the flattened position. -/
theorem bodyAt_spec (outgoing : List edge_type) :
    ∀ (body : List run_type) (off j : Nat), off ≤ j → j < off + sumLen body →
    DynamicRecord.bodyAt outgoing j body off =
      (outgoing.getD ((flatRanks body).getD (j - off) 0) (0, 0)).1 := by
  intro body
  induction body with
  | nil => intro off j h1 h2; rw [sumLen_nil] at h2; omega
  | cons run rest ih =>
    intro off j h1 h2
    rw [DynamicRecord.bodyAt, flatRanks_cons]
    by_cases hc : off + run.2 > j
    · rw [if_pos hc]
      rw [List.getD_append _ _ _ _ (by simp; omega)]
      rw [getD_replicate_lt _ _ _ _ (by omega)]
    · rw [if_neg hc]
      rw [ih (off + run.2) j (by omega) (by rw [sumLen_cons] at h2; omega)]
      rw [List.getD_append_right _ _ _ _ (by simp; omega)]
      have : j - off - (List.replicate run.2 run.1).length = j - (off + run.2) := by
        simp; omega
      rw [this]

/-- `operator[]` at an in-range position. -/
theorem getAt_spec (r : DynamicRecord) (hsz : r.body_size = sumLen r.body)
    (j : Nat) (hj : j < r.size) :
    r.getAt j = (r.outgoing.getD ((flatRanks r.body).getD j 0) (0, 0)).1 := by
  rw [DynamicRecord.getAt, if_neg (by omega)]
  have := bodyAt_spec r.outgoing r.body 0 j (by omega)
    (by rw [DynamicRecord.size] at hj; omega)
  simpa using this

theorem countP_range_getD (q : Nat → Bool) (l : List Nat) :
    ∀ i, i ≤ l.length →
    (List.range i).countP (fun j => q (l.getD j 0)) = (l.take i).countP q := by
  intro i
  induction i with
  | zero => intro _; simp
  | succ n ih =>
    intro h
    have hn : n < l.length := by omega
    rw [List.range_succ, List.countP_append]
    have htake : l.take (n + 1) = l.take n ++ [l.getD n 0] := by
      rw [List.take_succ, List.getElem?_eq_getElem hn]
      rw [List.getD_eq_getElem _ _ hn]
      rfl
    rw [htake, List.countP_append, ih (by omega)]
    simp [List.countP_cons]

/-- Strictly sorted `outgoing` lists have injective successor values. -/
theorem successor_inj {outgoing : List edge_type}
    (hs : outgoing.Pairwise (fun a b => a.1 < b.1))
    (x y : Nat) (hx : x < outgoing.length) (hy : y < outgoing.length)
    (hxy : (outgoing.getD x (0, 0)).1 = (outgoing.getD y (0, 0)).1) : x = y := by
  by_contra hne
  rcases Nat.lt_or_ge x y with h | h
  · have := sorted_fst_lt hs x y h hy; omega
  · have h2 : y < x := by omega
    have := sorted_fst_lt hs y x h2 hx; omega

/-! ### CompressedRecord -/

/-- The read-only record view (`CompressedRecord` in `src/support.cpp`):
the decoded outgoing edges and the remaining body bytes. -/
structure CompressedRecord where
  outgoing : List edge_type
  bodyBytes : List byte_type
deriving DecidableEq, Repr

/-- The edge-reading loop of the `CompressedRecord` constructor
(src/support.cpp:412-425): `outdegree` delta-decoded (destination,
offset) pairs. -/
def readEdges : Nat → Nat → List byte_type → Option (List edge_type × List byte_type)
  | 0, _, bytes => some ([], bytes)
  | n + 1, prev, bytes =>
    match ByteCode.read bytes with
    | none => none
    | some (delta, rest) =>
      match ByteCode.read rest with
      | none => none
      | some (off, rest2) =>
        match readEdges n (prev + delta) rest2 with
        | none => none
        | some (edges, rest3) => some ((prev + delta, off) :: edges, rest3)

namespace CompressedRecord

/-- The `CompressedRecord` constructor (src/support.cpp:412-425) applied
to the byte slice `data[start..limit)`. -/
def parse (bytes : List byte_type) : Option CompressedRecord :=
  match ByteCode.read bytes with
  | none => none
  | some (n, rest) =>
    match readEdges n 0 rest with
    | none => none
    | some (edges, rest2) => some ⟨edges, rest2⟩

/-- `outdegree()`. -/
def outdegree (c : CompressedRecord) : Nat := c.outgoing.length

/-- `successor(outrank)`. -/
def successor (c : CompressedRecord) (outrank : rank_type) : node_type :=
  (c.outgoing.getD outrank (0, 0)).1

/-- `offset(outrank)`. -/
def offset (c : CompressedRecord) (outrank : rank_type) : size_type :=
  (c.outgoing.getD outrank (0, 0)).2

/-- The run stream decoded by the iterators.
Modelled from the spec (§4.3, §6): the run codec's paired reader yields
the encoded runs in order. -/
def runsList (c : CompressedRecord) : List run_type :=
  Run.readAll c.outdegree c.bodyBytes

/-- `size()` (src/support.cpp:433-442): total length of all runs, zero
when the outdegree is zero. -/
def size (c : CompressedRecord) : Nat :=
  if 0 < c.outdegree then sumLen c.runsList else 0

/-- `runs()` (src/support.cpp:444-453). -/
def runsCount (c : CompressedRecord) : Nat :=
  if 0 < c.outdegree then c.runsList.length else 0

/-- `CompressedRecordIterator::edgeAt(i)`.  Modelled from the spec
(§4.3): the array/full iterators maintain per-rank accumulators exactly
as `LFLoop` (src/support.cpp:167-183) does; past the end the result is
`invalid_edge()`.  The second component is the iterator's cumulative
offset after the call. -/
def edgeAt (c : CompressedRecord) (i : Nat) : edge_type × Nat :=
  if i ≥ sumLen c.runsList then (invalid_edge, 0)
  else DynamicRecord.LFLoopArr i c.outgoing c.runsList 0 0

/-- `runLF(i, run_end)` (src/support.cpp:462-481). -/
def runLF (c : CompressedRecord) (i : Nat) (run_end : Nat) : edge_type × Nat :=
  if c.outdegree = 0 then (invalid_edge, run_end)
  else
    let p := c.edgeAt i
    if p.1 ≠ invalid_edge then (p.1, p.2 - 1) else (p.1, run_end)

/-- `LF(i)` (src/support.cpp:455-460). -/
def LF (c : CompressedRecord) (i : Nat) : edge_type := (c.runLF i 0).1

/-- `operator[]` (src/support.cpp:549-559): same body walk as the
dynamic record, returning `ENDMARKER` for an empty record or past the
end. -/
def getAt (c : CompressedRecord) (i : Nat) : node_type :=
  if c.outdegree = 0 then ENDMARKER
  else DynamicRecord.bodyAt c.outgoing i c.runsList 0

end CompressedRecord

/-- `CompressedRecordRankIterator` state.  Modelled from the spec
(§4.3): the rank iterator is positioned at a current run (`run`), with
`off` the cumulative offset through it and `result` equal to
`offset(outrank)` plus the occurrences of `outrank` read so far;
`isEnd` records whether the iterator has moved past the final run. -/
structure RIter where
  rem : List run_type
  run : run_type
  off : Nat
  result : Nat
  isEnd : Bool
deriving DecidableEq, Repr

namespace RIter

/-- Iterator construction: the constructor reads the first run. -/
def init (runs : List run_type) (base outrank : Nat) : RIter :=
  match runs with
  | [] => ⟨[], (0, 0), 0, base, true⟩
  | r :: rest => ⟨rest, r, r.2, base + (if r.1 = outrank then r.2 else 0), false⟩

/-- `operator++`: advance past the current run and read the next one,
accumulating the target rank's count. -/
def next (outrank : Nat) (st : RIter) : RIter :=
  match st.rem with
  | [] => { st with isEnd := true }
  | r :: rest => ⟨rest, r, st.off + r.2,
      st.result + (if r.1 = outrank then r.2 else 0), false⟩

/-- The advance loop of `rankAt`: run forward while the iterator is
valid and its offset is below `i`.  The fuel `rem.length + 1` bounds the
number of iterations. -/
def rankAtLoop (outrank i : Nat) : Nat → RIter → RIter
  | 0, st => st
  | fuel + 1, st =>
    if ¬ st.isEnd ∧ st.off < i then rankAtLoop outrank i fuel (next outrank st)
    else st

/-- `rankAt(i)`.  Modelled from the spec (§4.3): returns
`offset(outrank)` plus the accumulated count up to position `i`,
following the dynamic loop (src/support.cpp:203-215) bit for bit.  The
iterator state after the call is returned alongside. -/
def rankAt (outrank i : Nat) (st : RIter) : Nat × RIter :=
  let fin := rankAtLoop outrank i (st.rem.length + 1) st
  (fin.result - (if fin.run.1 = outrank then fin.off - i else 0), fin)

end RIter

namespace CompressedRecord

/-- `LF(i, to)` (src/support.cpp:483-490). -/
def LFNode (c : CompressedRecord) (i : Nat) (toNode : node_type) : size_type :=
  let outrank := edgeTo toNode c.outgoing
  if outrank ≥ c.outdegree then invalid_offset
  else (RIter.rankAt outrank i (RIter.init c.runsList (c.offset outrank) outrank)).1

/-- `LF(range, to)` (src/support.cpp:492-504): two `rankAt` calls on one
shared iterator. -/
def LFRange (c : CompressedRecord) (range : range_type) (toNode : node_type) :
    range_type :=
  if Range.isEmpty range then Range.empty_range
  else
    let outrank := edgeTo toNode c.outgoing
    if outrank ≥ c.outdegree then Range.empty_range
    else
      let p1 := RIter.rankAt outrank range.1
        (RIter.init c.runsList (c.offset outrank) outrank)
      let p2 := RIter.rankAt outrank (range.2 + 1) p1.2
      (p1.1, sub64 p2.1 1)

/-- The middle loop of the compressed `bdLF` (src/support.cpp:537-541):
advance the rank iterator while its offset is below `b`, adding the
lengths of runs whose rank is below `reverse_rank` and different from
`outrank`. -/
def bdLoop (outrank reverse_rank b : Nat) : Nat → RIter → Nat → RIter × Nat
  | 0, st, ro => (st, ro)
  | fuel + 1, st, ro =>
    if ¬ st.isEnd ∧ st.off < b then
      let st2 := RIter.next outrank st
      bdLoop outrank reverse_rank b fuel st2
        (ro + (if st2.run.1 < reverse_rank ∧ st2.run.1 ≠ outrank then st2.run.2 else 0))
    else (st, ro)

/-- `bdLF(range, to, reverse_offset)` (src/support.cpp:506-547). -/
def bdLF (c : CompressedRecord) (range : range_type) (toNode : node_type)
    (reverse_offset : Nat) : range_type × Nat :=
  if Range.isEmpty range then (Range.empty_range, reverse_offset)
  else
    let outrank := edgeTo toNode c.outgoing
    if outrank ≥ c.outdegree then (Range.empty_range, reverse_offset)
    else
      let p1 := RIter.rankAt outrank range.1
        (RIter.init c.runsList (c.offset outrank) outrank)
      let sp := p1.1
      let st1 := p1.2
      let rr0 := edgeTo (Node.reverse toNode) c.outgoing
      let reverse_rank :=
        if rr0 ≥ c.outdegree then outrank
        else if ¬ Node.is_reverse toNode then rr0 + 1 else rr0
      let ro0 := if st1.run.1 < reverse_rank ∧ st1.run.1 ≠ outrank
                 then st1.off - range.1 else 0
      let b := range.2 + 1
      let q := bdLoop outrank reverse_rank b (st1.rem.length + 1) st1 ro0
      let st2 := q.1
      let ro1 := q.2 - (if st2.run.1 < reverse_rank ∧ st2.run.1 ≠ outrank
                        then st2.off - b else 0)
      let p2 := RIter.rankAt outrank b st2
      ((sp, sub64 p2.1 1), ro1)

end CompressedRecord

/-! ### Simulation: the compressed rank iterator follows the dynamic loop -/

theorem wcnt_cons_zero (p : Nat → Bool) (x : Nat) (runs : List run_type) (i : Nat) :
    wcnt p (((x, 0) : run_type) :: runs) i = wcnt p runs i := by
  rw [wcnt, wcnt, flatRanks_cons]
  simp

/-- The value returned by `lfLoopT` is determined by its final state. -/
theorem lfLoopT_val_state (outrank i : Nat) :
    ∀ (rem : List run_type) (run : run_type) (off result : Nat),
    (DynamicRecord.lfLoopT outrank i rem run off result).1 =
      (DynamicRecord.lfLoopT outrank i rem run off result).2.result -
        (if (DynamicRecord.lfLoopT outrank i rem run off result).2.run.1 = outrank
         then (DynamicRecord.lfLoopT outrank i rem run off result).2.off - i else 0) := by
  intro rem
  induction rem with
  | nil => intro run off result; rw [DynamicRecord.lfLoopT]
  | cons r rest ih =>
    intro run off result
    rw [DynamicRecord.lfLoopT]
    by_cases hc : off < i
    · rw [if_pos hc]; exact ih r (off + r.2) _
    · rw [if_neg hc]

/-- The rank iterator's advance loop computes exactly the state of the
dynamic loop `lfLoopT`, as long as the fuel covers the remaining runs
and `isEnd` implies exhaustion. -/
theorem rankAtLoop_end (outrank i fuel : Nat) (st : RIter)
    (h : st.isEnd = true) : RIter.rankAtLoop outrank i fuel st = st := by
  cases fuel with
  | zero => rfl
  | succ n => rw [RIter.rankAtLoop, if_neg (by simp [h])]

theorem rankAtLoop_sim (outrank i : Nat) :
    ∀ (fuel : Nat) (st : RIter), st.rem.length < fuel →
    (st.isEnd = true → st.rem = []) →
    (RIter.rankAtLoop outrank i fuel st).rem =
        (DynamicRecord.lfLoopT outrank i st.rem st.run st.off st.result).2.rem
    ∧ (RIter.rankAtLoop outrank i fuel st).run =
        (DynamicRecord.lfLoopT outrank i st.rem st.run st.off st.result).2.run
    ∧ (RIter.rankAtLoop outrank i fuel st).off =
        (DynamicRecord.lfLoopT outrank i st.rem st.run st.off st.result).2.off
    ∧ (RIter.rankAtLoop outrank i fuel st).result =
        (DynamicRecord.lfLoopT outrank i st.rem st.run st.off st.result).2.result
    ∧ ((RIter.rankAtLoop outrank i fuel st).isEnd = true →
        (RIter.rankAtLoop outrank i fuel st).rem = []) := by
  intro fuel
  induction fuel with
  | zero => intro st h _; omega
  | succ n ih =>
    intro st hfuel hinv
    rw [RIter.rankAtLoop]
    by_cases hg : ¬ st.isEnd ∧ st.off < i
    · rw [if_pos hg]
      obtain ⟨hend, hoff⟩ := hg
      cases hrem : st.rem with
      | nil =>
        have hnext : RIter.next outrank st = { st with isEnd := true } := by
          rw [RIter.next, hrem]
        rw [hnext, rankAtLoop_end outrank i n _ rfl, DynamicRecord.lfLoopT]
        exact ⟨hrem, rfl, rfl, rfl, fun _ => hrem⟩
      | cons r rest =>
        have hnext : RIter.next outrank st =
            ⟨rest, r, st.off + r.2,
             st.result + (if r.1 = outrank then r.2 else 0), false⟩ := by
          rw [RIter.next, hrem]
        rw [hnext]
        have hlen : rest.length < n := by
          have : st.rem.length = rest.length + 1 := by rw [hrem]; simp
          omega
        have := ih ⟨rest, r, st.off + r.2,
            st.result + (if r.1 = outrank then r.2 else 0), false⟩
          hlen (by simp)
        rw [DynamicRecord.lfLoopT, if_pos hoff]
        exact this
    · rw [if_neg hg]
      push_neg at hg
      by_cases hend : st.isEnd
      · have hrem := hinv hend
        rw [hrem, DynamicRecord.lfLoopT]
        exact ⟨rfl, rfl, rfl, rfl, fun _ => rfl⟩
      · have hoff : ¬ st.off < i := by
          intro hc
          exact absurd hc (by simpa [hend] using hg)
        cases hrem : st.rem with
        | nil =>
          rw [DynamicRecord.lfLoopT]
          exact ⟨rfl, rfl, rfl, rfl, fun _ => rfl⟩
        | cons r rest =>
          rw [DynamicRecord.lfLoopT, if_neg hoff]
          refine ⟨rfl, rfl, rfl, rfl, fun hc => absurd hc (by simp [hend])⟩

/-- `rankAt` returns the same value as the dynamic loop started from the
projected state. -/
theorem rankAt_sim (outrank i : Nat) (st : RIter)
    (hinv : st.isEnd = true → st.rem = []) :
    (RIter.rankAt outrank i st).1 =
      (DynamicRecord.lfLoopT outrank i st.rem st.run st.off st.result).1
    ∧ (RIter.rankAt outrank i st).2.rem =
        (DynamicRecord.lfLoopT outrank i st.rem st.run st.off st.result).2.rem
    ∧ (RIter.rankAt outrank i st).2.run =
        (DynamicRecord.lfLoopT outrank i st.rem st.run st.off st.result).2.run
    ∧ (RIter.rankAt outrank i st).2.off =
        (DynamicRecord.lfLoopT outrank i st.rem st.run st.off st.result).2.off
    ∧ (RIter.rankAt outrank i st).2.result =
        (DynamicRecord.lfLoopT outrank i st.rem st.run st.off st.result).2.result
    ∧ ((RIter.rankAt outrank i st).2.isEnd = true →
        (RIter.rankAt outrank i st).2.rem = []) := by
  obtain ⟨h1, h2, h3, h4, h5⟩ :=
    rankAtLoop_sim outrank i (st.rem.length + 1) st (by omega) hinv
  rw [RIter.rankAt]
  refine ⟨?_, h1, h2, h3, h4, h5⟩
  rw [lfLoopT_val_state, h2, h3, h4]

/-! ### Value lemmas for the target-LF operations -/

/-- Invariant presentation of a dynamic loop state: a history `H` of
consumed runs, the current run, and accumulators matching them. -/
def TStateInv (outrank base i : Nat) (G : List run_type)
    (st : DynamicRecord.TState) : Prop :=
  ∃ H, st.off = sumLen H + st.run.2 ∧
    st.result = base + cntP (fun x => x == outrank) (H ++ [st.run]) ∧
    H ++ st.run :: st.rem = G ∧ sumLen H ≤ i

theorem TStateInv_mono (outrank base i j : Nat) (G : List run_type)
    (st : DynamicRecord.TState) (h : TStateInv outrank base i G st)
    (hij : i ≤ j) : TStateInv outrank base j G st := by
  obtain ⟨H, h1, h2, h3, h4⟩ := h
  exact ⟨H, h1, h2, h3, by omega⟩

/-- Running `lfLoopT` from a state in invariant form yields the window
count and re-establishes the invariant. -/
theorem lfLoopT_run (outrank i base : Nat) (G : List run_type)
    (st : DynamicRecord.TState) (h : TStateInv outrank base i G st) :
    (DynamicRecord.lfLoopT outrank i st.rem st.run st.off st.result).1 =
      base + wcnt (fun x => x == outrank) G i
    ∧ TStateInv outrank base i G
        (DynamicRecord.lfLoopT outrank i st.rem st.run st.off st.result).2
    ∧ (i ≤ (DynamicRecord.lfLoopT outrank i st.rem st.run st.off st.result).2.off
        ∨ (DynamicRecord.lfLoopT outrank i st.rem st.run st.off st.result).2.rem = []) := by
  obtain ⟨H, hoff, hres, hlist, hle⟩ := h
  rw [hoff, hres]
  obtain ⟨hval, H', run', rem', hstate, hlist', hle', hexit⟩ :=
    lfLoopT_spec outrank i base st.rem H st.run hle
  refine ⟨by rw [hval, hlist], ?_, ?_⟩
  · rw [hstate]
    exact ⟨H', rfl, rfl, by dsimp only; rw [hlist']; exact hlist, hle'⟩
  · rw [hstate]
    exact hexit

/-- The scratch state of the dynamic loops. -/
theorem TStateInv_start (outrank base i : Nat) (body : List run_type) :
    TStateInv outrank base i (((0, 0) : run_type) :: body) ⟨body, (0, 0), 0, base⟩ := by
  refine ⟨[], by simp [sumLen_nil], ?_, by simp, by simp [sumLen_nil]⟩
  rw [List.nil_append, cntP_single]
  simp

/-- Invariant for the compressed rank iterator. -/
def RInv (outrank base i : Nat) (G : List run_type) (st : RIter) : Prop :=
  (st.isEnd = true → st.rem = []) ∧
  TStateInv outrank base i G ⟨st.rem, st.run, st.off, st.result⟩

theorem RInv_mono (outrank base i j : Nat) (G : List run_type) (st : RIter)
    (h : RInv outrank base i G st) (hij : i ≤ j) : RInv outrank base j G st :=
  ⟨h.1, TStateInv_mono outrank base i j G _ h.2 hij⟩

/-- The freshly constructed rank iterator is in invariant form. -/
theorem RInv_init (outrank base i : Nat) (runs : List run_type) :
    RInv outrank base i (((0, 0) : run_type) :: runs)
      (RIter.init runs base outrank) := by
  cases runs with
  | nil =>
    refine ⟨fun _ => rfl, [], by simp [RIter.init, sumLen_nil], ?_, by simp [RIter.init], by simp [sumLen_nil]⟩
    rw [RIter.init]
    dsimp only
    rw [List.nil_append, cntP_single]
    simp
  | cons r rest =>
    refine ⟨by simp [RIter.init], [((0, 0) : run_type)], ?_, ?_, by simp [RIter.init], ?_⟩
    · simp [RIter.init, sumLen_cons, sumLen_nil]
    · rw [RIter.init]
      dsimp only
      rw [cntP_append, cntP_single, cntP_single]
      by_cases hb : r.1 = outrank
      · simp [hb]
      · have hb' : (r.1 == outrank) = false := by simp [hb]
        simp [hb, hb']
    · simp [sumLen_cons, sumLen_nil]

/-- Running `rankAt` from an invariant state yields the window count and
re-establishes the invariant. -/
theorem rankAt_run (outrank i base : Nat) (G : List run_type) (st : RIter)
    (h : RInv outrank base i G st) :
    (RIter.rankAt outrank i st).1 = base + wcnt (fun x => x == outrank) G i
    ∧ RInv outrank base i G (RIter.rankAt outrank i st).2
    ∧ (i ≤ (RIter.rankAt outrank i st).2.off ∨ (RIter.rankAt outrank i st).2.rem = []) := by
  obtain ⟨hend, hstinv⟩ := h
  obtain ⟨hv, h1, h2, h3, h4, h5⟩ := rankAt_sim outrank i st hend
  obtain ⟨hval, hinv', hexit⟩ :=
    lfLoopT_run outrank i base G ⟨st.rem, st.run, st.off, st.result⟩ hstinv
  refine ⟨by rw [hv]; exact hval, ⟨h5, ?_⟩, ?_⟩
  · obtain ⟨H, q1, q2, q3, q4⟩ := hinv'
    exact ⟨H, by rw [h3, h2]; exact q1, by rw [h4, h2]; exact q2,
      by rw [h1, h2]; exact q3, q4⟩
  · rcases hexit with hx | hx
    · exact Or.inl (by rw [h3]; exact hx)
    · exact Or.inr (by rw [h1]; exact hx)

/-- `LF(i, to)` on a dynamic record whose target rank is valid. -/
theorem DynamicRecord.LFNode_val (r : DynamicRecord) (i : Nat) (toNode : node_type)
    (h : edgeTo toNode r.outgoing < r.outdegree) :
    r.LFNode i toNode = r.offset (edgeTo toNode r.outgoing) +
      wcnt (fun x => x == edgeTo toNode r.outgoing) r.body i := by
  rw [DynamicRecord.LFNode]
  simp only [DynamicRecord.edgeToRec]
  rw [if_neg (Nat.not_le.mpr h)]
  have hv := (lfLoopT_run (edgeTo toNode r.outgoing) i (r.offset (edgeTo toNode r.outgoing))
    (((0, 0) : run_type) :: r.body) ⟨r.body, (0, 0), 0, r.offset (edgeTo toNode r.outgoing)⟩
    (TStateInv_start _ _ _ _)).1
  dsimp only at hv
  rw [hv, wcnt_cons_zero]

/-- `LF(range, to)` on a dynamic record: the shared pass computes the
two window counts. -/
theorem DynamicRecord.LFRange_val (r : DynamicRecord) (a b : Nat) (toNode : node_type)
    (hne : Range.isEmpty (a, b) = false)
    (h : edgeTo toNode r.outgoing < r.outdegree) :
    r.LFRange (a, b) toNode =
      (r.offset (edgeTo toNode r.outgoing) +
         wcnt (fun x => x == edgeTo toNode r.outgoing) r.body a,
       sub64 (r.offset (edgeTo toNode r.outgoing) +
         wcnt (fun x => x == edgeTo toNode r.outgoing) r.body (b + 1)) 1) := by
  have hab : a ≤ b := by
    rw [Range.isEmpty] at hne
    simpa using hne
  rw [DynamicRecord.LFRange, if_neg (by simp [hne])]
  simp only [DynamicRecord.edgeToRec]
  rw [if_neg (Nat.not_le.mpr h)]
  obtain ⟨hv1, hinv1, _⟩ := lfLoopT_run (edgeTo toNode r.outgoing) a
    (r.offset (edgeTo toNode r.outgoing)) (((0, 0) : run_type) :: r.body)
    ⟨r.body, (0, 0), 0, r.offset (edgeTo toNode r.outgoing)⟩ (TStateInv_start _ _ _ _)
  have hinv2 := TStateInv_mono _ _ a (b + 1) _ _ hinv1 (by omega)
  obtain ⟨hv2, _, _⟩ := lfLoopT_run (edgeTo toNode r.outgoing) (b + 1)
    (r.offset (edgeTo toNode r.outgoing)) (((0, 0) : run_type) :: r.body) _ hinv2
  dsimp only at hv1 hv2
  try dsimp only
  rw [hv1, hv2, wcnt_cons_zero, wcnt_cons_zero]

/-- `LF(i, to)` on a compressed record whose target rank is valid. -/
theorem CompressedRecord.LFNode_val_c (c : CompressedRecord) (i : Nat)
    (toNode : node_type) (h : edgeTo toNode c.outgoing < c.outdegree) :
    c.LFNode i toNode = c.offset (edgeTo toNode c.outgoing) +
      wcnt (fun x => x == edgeTo toNode c.outgoing) c.runsList i := by
  rw [CompressedRecord.LFNode]
  rw [if_neg (Nat.not_le.mpr h)]
  have hv := (rankAt_run (edgeTo toNode c.outgoing) i (c.offset (edgeTo toNode c.outgoing))
    (((0, 0) : run_type) :: c.runsList) _
    (RInv_init (edgeTo toNode c.outgoing) (c.offset (edgeTo toNode c.outgoing)) i c.runsList)).1
  rw [hv, wcnt_cons_zero]

/-- `LF(range, to)` on a compressed record: the shared iterator computes
the two window counts. -/
theorem CompressedRecord.LFRange_val_c (c : CompressedRecord) (a b : Nat)
    (toNode : node_type) (hne : Range.isEmpty (a, b) = false)
    (h : edgeTo toNode c.outgoing < c.outdegree) :
    c.LFRange (a, b) toNode =
      (c.offset (edgeTo toNode c.outgoing) +
         wcnt (fun x => x == edgeTo toNode c.outgoing) c.runsList a,
       sub64 (c.offset (edgeTo toNode c.outgoing) +
         wcnt (fun x => x == edgeTo toNode c.outgoing) c.runsList (b + 1)) 1) := by
  have hab : a ≤ b := by
    rw [Range.isEmpty] at hne
    simpa using hne
  rw [CompressedRecord.LFRange, if_neg (by simp [hne])]
  rw [if_neg (Nat.not_le.mpr h)]
  obtain ⟨hv1, hinv1, _⟩ := rankAt_run (edgeTo toNode c.outgoing) a
    (c.offset (edgeTo toNode c.outgoing)) (((0, 0) : run_type) :: c.runsList)
    (RIter.init c.runsList (c.offset (edgeTo toNode c.outgoing)) (edgeTo toNode c.outgoing))
    (RInv_init _ _ a c.runsList)
  have hinv2 := RInv_mono _ _ a (b + 1) _ _ hinv1 (by omega)
  obtain ⟨hv2, _, _⟩ := rankAt_run (edgeTo toNode c.outgoing) (b + 1)
    (c.offset (edgeTo toNode c.outgoing)) (((0, 0) : run_type) :: c.runsList) _ hinv2
  dsimp only
  rw [hv1, hv2, wcnt_cons_zero, wcnt_cons_zero]

/-! ### Membership bridges and the position-count translation -/

/-- Compressed-record invariants, mirroring the dynamic ones (spec §3):
`outgoing` sorted with unique destinations, decoded ranks within the
outdegree, positive run lengths. -/
def CompressedRecord.wf (c : CompressedRecord) : Prop :=
  c.outgoing.Pairwise (fun a b => a.1 < b.1) ∧
  (∀ run ∈ c.runsList, run.1 < c.outdegree ∧ 0 < run.2)

instance (c : CompressedRecord) : Decidable c.wf := by
  unfold CompressedRecord.wf
  infer_instance

theorem not_mem_fst {outgoing : List edge_type} {toNode : node_type}
    (h : toNode ∉ outgoing.map Prod.fst) : ∀ e ∈ outgoing, e.1 ≠ toNode := by
  intro e he hcon
  exact h (List.mem_map.mpr ⟨e, he, hcon⟩)

theorem mem_fst_index {outgoing : List edge_type} {toNode : node_type}
    (h : toNode ∈ outgoing.map Prod.fst) :
    ∃ k, k < outgoing.length ∧ (outgoing.getD k (0, 0)).1 = toNode := by
  obtain ⟨e, he, hv⟩ := List.mem_map.mp h
  obtain ⟨k, hk, hek⟩ := List.getElem_of_mem he
  exact ⟨k, hk, by rw [List.getD_eq_getElem _ _ hk, hek, hv]⟩

/-- Translation between the claim-side count (positions whose successor
is the target node) and the loop-side window count of the target rank. -/
theorem count_translate (outgoing : List edge_type) (body : List run_type)
    (hs : outgoing.Pairwise (fun a b => a.1 < b.1))
    (hranks : ∀ run ∈ body, run.1 < outgoing.length)
    (toNode : node_type) (k : Nat) (hk : k < outgoing.length)
    (hkv : (outgoing.getD k (0, 0)).1 = toNode)
    (i : Nat) (hi : i ≤ sumLen body) (g : Nat → node_type)
    (hg : ∀ j, j < i → g j = (outgoing.getD ((flatRanks body).getD j 0) (0, 0)).1) :
    (List.range i).countP (fun j => decide (g j = toNode)) =
      wcnt (fun x => x == k) body i := by
  rw [wcnt, ← countP_range_getD (fun x => x == k) (flatRanks body) i
    (by rw [length_flatRanks]; omega)]
  apply List.countP_congr
  intro j hj
  have hji : j < i := List.mem_range.mp hj
  rw [hg j hji]
  have hjs : j < sumLen body := by omega
  have hmem := flatRanks_getD_mem body j hjs
  obtain ⟨run, hrun, hrx⟩ := mem_flatRanks body _ hmem
  have hxlt : (flatRanks body).getD j 0 < outgoing.length := by
    rw [← hrx]; exact hranks run hrun
  by_cases hxk : (flatRanks body).getD j 0 = k
  · rw [hxk, hkv]
    simp
  · have hne : (outgoing.getD ((flatRanks body).getD j 0) (0, 0)).1 ≠ toNode := by
      intro hcon
      exact hxk (successor_inj hs _ k hxlt hk (by rw [hcon, hkv]))
    simp only [decide_eq_true_eq, beq_iff_eq]
    exact iff_of_false hne hxk

/-- Compressed `operator[]` through the flattened rank sequence. -/
theorem CompressedRecord.getAt_spec_c (c : CompressedRecord)
    (hdeg : 0 < c.outdegree) (j : Nat) (hj : j < sumLen c.runsList) :
    c.getAt j = (c.outgoing.getD ((flatRanks c.runsList).getD j 0) (0, 0)).1 := by
  rw [CompressedRecord.getAt, if_neg (by omega)]
  have := bodyAt_spec c.outgoing c.runsList 0 j (by omega) (by omega)
  simpa using this

/-- C2: for a well-formed record and `i ≤ size`, `LF(i, to)` returns
`invalid_offset()` when `to` has no outgoing edge, and otherwise equals
`offset(edge_to(to))` plus the number of positions `j < i` whose
successor `r[j]` is `to`; likewise for a well-formed compressed record. -/
theorem claim_C2 :
    (∀ (r : DynamicRecord) (i : Nat) (toNode : node_type), r.wf → i ≤ r.size →
      (toNode ∉ r.outgoing.map Prod.fst → r.LFNode i toNode = invalid_offset) ∧
      (toNode ∈ r.outgoing.map Prod.fst →
        r.LFNode i toNode = r.offset (r.edgeToRec toNode) +
          (List.range i).countP (fun j => decide (r.getAt j = toNode))))
  ∧ (∀ (c : CompressedRecord) (i : Nat) (toNode : node_type), c.wf → i ≤ c.size →
      (toNode ∉ c.outgoing.map Prod.fst → c.LFNode i toNode = invalid_offset) ∧
      (toNode ∈ c.outgoing.map Prod.fst →
        c.LFNode i toNode = c.offset (edgeTo toNode c.outgoing) +
          (List.range i).countP (fun j => decide (c.getAt j = toNode)))) := by
  constructor
  · intro r i toNode hwf hi
    obtain ⟨hs, hrk, hsize, _, _⟩ := hwf
    constructor
    · intro hnm
      rw [DynamicRecord.LFNode]
      simp only [DynamicRecord.edgeToRec]
      rw [edgeTo_miss toNode r.outgoing (not_mem_fst hnm)]
      simp [DynamicRecord.outdegree]
    · intro hm
      obtain ⟨k, hk, hkv⟩ := mem_fst_index hm
      have hedge : edgeTo toNode r.outgoing = k := edgeTo_hit toNode r.outgoing hs k hk hkv
      rw [DynamicRecord.LFNode_val r i toNode (by rw [hedge]; exact hk)]
      rw [DynamicRecord.edgeToRec, hedge]
      rw [count_translate r.outgoing r.body hs (fun run hr => (hrk run hr).1)
        toNode k hk hkv i (by rw [DynamicRecord.size] at hi; omega) r.getAt ?hg]
      case hg =>
        intro j hj
        exact getAt_spec r hsize j
          (by rw [DynamicRecord.size, hsize]; rw [DynamicRecord.size, hsize] at hi; omega)
  · intro c i toNode hwf hi
    obtain ⟨hs, hrk⟩ := hwf
    constructor
    · intro hnm
      rw [CompressedRecord.LFNode]
      rw [edgeTo_miss toNode c.outgoing (not_mem_fst hnm)]
      simp [CompressedRecord.outdegree]
    · intro hm
      obtain ⟨k, hk, hkv⟩ := mem_fst_index hm
      have hedge : edgeTo toNode c.outgoing = k := edgeTo_hit toNode c.outgoing hs k hk hkv
      have hdeg : 0 < c.outdegree := by
        rw [CompressedRecord.outdegree]; omega
      have hsz : c.size = sumLen c.runsList := by
        rw [CompressedRecord.size, if_pos hdeg]
      rw [CompressedRecord.LFNode_val_c c i toNode (by rw [hedge]; exact hk)]
      rw [hedge]
      rw [count_translate c.outgoing c.runsList hs (fun run hr => (hrk run hr).1)
        toNode k hk hkv i (by omega) c.getAt ?hg]
      case hg =>
        intro j hj
        exact CompressedRecord.getAt_spec_c c hdeg j (by omega)

/-- C3: range LF is empty for an empty range or an unreachable target,
and otherwise decomposes into the two single-position LF values, for
both record representations. -/
theorem claim_C3 :
    (∀ (r : DynamicRecord) (a b : Nat) (toNode : node_type), r.wf →
      ((Range.isEmpty (a, b) = true ∨ toNode ∉ r.outgoing.map Prod.fst) →
          r.LFRange (a, b) toNode = Range.empty_range) ∧
      (Range.isEmpty (a, b) = false → toNode ∈ r.outgoing.map Prod.fst →
          r.LFRange (a, b) toNode =
            (r.LFNode a toNode, sub64 (r.LFNode (b + 1) toNode) 1)))
  ∧ (∀ (c : CompressedRecord) (a b : Nat) (toNode : node_type), c.wf →
      ((Range.isEmpty (a, b) = true ∨ toNode ∉ c.outgoing.map Prod.fst) →
          c.LFRange (a, b) toNode = Range.empty_range) ∧
      (Range.isEmpty (a, b) = false → toNode ∈ c.outgoing.map Prod.fst →
          c.LFRange (a, b) toNode =
            (c.LFNode a toNode, sub64 (c.LFNode (b + 1) toNode) 1))) := by
  constructor
  · intro r a b toNode hwf
    obtain ⟨hs, _, _, _, _⟩ := hwf
    constructor
    · intro hcase
      rcases hcase with hemp | hnm
      · rw [DynamicRecord.LFRange, if_pos hemp]
      · by_cases hemp : Range.isEmpty (a, b)
        · rw [DynamicRecord.LFRange, if_pos hemp]
        · rw [DynamicRecord.LFRange, if_neg hemp]
          simp only [DynamicRecord.edgeToRec]
          rw [edgeTo_miss toNode r.outgoing (not_mem_fst hnm)]
          simp [DynamicRecord.outdegree]
    · intro hne hm
      obtain ⟨k, hk, hkv⟩ := mem_fst_index hm
      have hedge : edgeTo toNode r.outgoing = k := edgeTo_hit toNode r.outgoing hs k hk hkv
      have hlt : edgeTo toNode r.outgoing < r.outdegree := by rw [hedge]; exact hk
      rw [DynamicRecord.LFRange_val r a b toNode hne hlt,
        DynamicRecord.LFNode_val r a toNode hlt,
        DynamicRecord.LFNode_val r (b + 1) toNode hlt]
  · intro c a b toNode hwf
    obtain ⟨hs, _⟩ := hwf
    constructor
    · intro hcase
      rcases hcase with hemp | hnm
      · rw [CompressedRecord.LFRange, if_pos hemp]
      · by_cases hemp : Range.isEmpty (a, b)
        · rw [CompressedRecord.LFRange, if_pos hemp]
        · rw [CompressedRecord.LFRange, if_neg hemp]
          rw [edgeTo_miss toNode c.outgoing (not_mem_fst hnm)]
          simp [CompressedRecord.outdegree]
    · intro hne hm
      obtain ⟨k, hk, hkv⟩ := mem_fst_index hm
      have hedge : edgeTo toNode c.outgoing = k := edgeTo_hit toNode c.outgoing hs k hk hkv
      have hlt : edgeTo toNode c.outgoing < c.outdegree := by rw [hedge]; exact hk
      rw [CompressedRecord.LFRange_val_c c a b toNode hne hlt,
        CompressedRecord.LFNode_val_c c a toNode hlt,
        CompressedRecord.LFNode_val_c c (b + 1) toNode hlt]

/-! ### Round trip: writeBWT then parse -/

theorem readEdges_writeEdges :
    ∀ (edges : List edge_type) (prev : Nat) (rest : List byte_type),
    (∀ e ∈ edges, prev ≤ e.1) → edges.Pairwise (fun a b => a.1 ≤ b.1) →
    readEdges edges.length prev (DynamicRecord.writeEdges prev edges ++ rest) =
      some (edges, rest) := by
  intro edges
  induction edges with
  | nil => intro prev rest _ _; rfl
  | cons e es ih =>
    intro prev rest hprev hpw
    rw [DynamicRecord.writeEdges]
    have hle : prev ≤ e.1 := hprev e (by simp)
    have hassoc : (ByteCode.write (e.1 - prev) ++ ByteCode.write e.2 ++
        DynamicRecord.writeEdges e.1 es) ++ rest =
        ByteCode.write (e.1 - prev) ++ (ByteCode.write e.2 ++
          (DynamicRecord.writeEdges e.1 es ++ rest)) := by
      simp
    rw [hassoc]
    show readEdges (es.length + 1) prev _ = _
    rw [readEdges, ByteCode.read_write]
    dsimp only
    rw [ByteCode.read_write]
    dsimp only
    have hpe : prev + (e.1 - prev) = e.1 := by omega
    have hprev' : ∀ a ∈ es, e.1 ≤ a.1 := by
      intro a ha
      exact (List.pairwise_cons.mp hpw).1 a ha
    have hpw' := (List.pairwise_cons.mp hpw).2
    rw [hpe, ih e.1 rest hprev' hpw']

/-- Parsing the byte image of a record recovers its outgoing edges and
leaves exactly the encoded body bytes. -/
theorem parse_writeBWT (r : DynamicRecord)
    (hs : r.outgoing.Pairwise (fun a b => a.1 < b.1)) :
    CompressedRecord.parse r.writeBWT =
      some ⟨r.outgoing,
        if 0 < r.outdegree then r.body.flatMap (Run.write r.outdegree) else []⟩ := by
  rw [DynamicRecord.writeBWT, CompressedRecord.parse]
  have hassoc : ByteCode.write r.outdegree ++ DynamicRecord.writeEdges 0 r.outgoing ++
      (if 0 < r.outdegree then r.body.flatMap (Run.write r.outdegree) else []) =
      ByteCode.write r.outdegree ++ (DynamicRecord.writeEdges 0 r.outgoing ++
        (if 0 < r.outdegree then r.body.flatMap (Run.write r.outdegree) else [])) := by
    simp
  rw [hassoc, ByteCode.read_write]
  dsimp only
  have hprev : ∀ e ∈ r.outgoing, 0 ≤ e.1 := fun e _ => Nat.zero_le _
  have hpw : r.outgoing.Pairwise (fun a b => a.1 ≤ b.1) :=
    hs.imp (fun h => Nat.le_of_lt h)
  have := readEdges_writeEdges r.outgoing 0
    (if 0 < r.outdegree then r.body.flatMap (Run.write r.outdegree) else [])
    hprev hpw
  rw [DynamicRecord.outdegree] at this ⊢
  rw [this]

/-- The decoded run stream of a parsed well-formed record equals the
original body. -/
theorem runsList_writeBWT (r : DynamicRecord)
    (hrk : ∀ run ∈ r.body, run.1 < r.outdegree ∧ 0 < run.2) :
    Run.readAll r.outdegree
      (if 0 < r.outdegree then r.body.flatMap (Run.write r.outdegree) else []) =
      r.body := by
  by_cases hdeg : 0 < r.outdegree
  · rw [if_pos hdeg]
    exact Run.readAll_writeAll r.outdegree r.body hrk
  · rw [if_neg hdeg]
    have : r.body = [] := by
      cases hb : r.body with
      | nil => rfl
      | cons x tl =>
        have := hrk x (by rw [hb]; simp)
        omega
    rw [this]
    rfl

/-! ### First components survive the `LFLoop` accumulator updates -/

theorem bumpAt_length (result : List edge_type) (rank len : Nat) :
    (DynamicRecord.bumpAt result rank len).length = result.length := by
  rw [DynamicRecord.bumpAt]
  simp

theorem bumpAt_fst (result : List edge_type) (rank len j : Nat) :
    ((DynamicRecord.bumpAt result rank len).getD j (0, 0)).1 =
      (result.getD j (0, 0)).1 := by
  rw [DynamicRecord.bumpAt]
  by_cases hj : j < result.length
  · rw [List.getD_eq_getElem _ _ (by simpa using hj), List.getD_eq_getElem _ _ hj]
    rw [List.getElem_mapIdx]
    by_cases hjr : j = rank <;> simp [hjr]
  · rw [List.getD_eq_default _ _ (by simpa using Nat.le_of_not_lt hj),
      List.getD_eq_default _ _ (Nat.le_of_not_lt hj)]

/-- Within range, the edge produced by `LFLoop` carries the destination
of some rank that occurs in the body. -/
theorem LFLoopArr_fst (i : Nat) :
    ∀ (body : List run_type) (result : List edge_type) (last off : Nat),
    off ≤ i → i < off + sumLen body →
    ∃ rank, (∃ run ∈ body, run.1 = rank) ∧
      (DynamicRecord.LFLoopArr i result body last off).1.1 =
        (result.getD rank (0, 0)).1 := by
  intro body
  induction body with
  | nil => intro result last off h1 h2; rw [sumLen_nil] at h2; omega
  | cons run rest ih =>
    intro result last off h1 h2
    rw [DynamicRecord.LFLoopArr]
    by_cases hc : off + run.2 > i
    · rw [if_pos hc]
      refine ⟨run.1, ⟨run, by simp, rfl⟩, ?_⟩
      dsimp only
      exact bumpAt_fst result run.1 run.2 run.1
    · rw [if_neg hc]
      obtain ⟨rank, ⟨run', hrun', hrank⟩, hfst⟩ :=
        ih (DynamicRecord.bumpAt result run.1 run.2) run.1 (off + run.2)
          (by omega) (by rw [sumLen_cons] at h2; omega)
      refine ⟨rank, ⟨run', by simp [hrun'], hrank⟩, ?_⟩
      rw [hfst, bumpAt_fst]

/-- C1: for every well-formed dynamic record (whose destination nodes
are genuine, i.e. below the `invalid` sentinel), parsing the output of
`writeBWT` yields a compressed record that agrees with it on `LF(i)`,
`operator[]` and the `run_end` out-parameter of `runLF` at every
position `i < size`. -/
theorem claim_C1 (r : DynamicRecord) (hwf : r.wf)
    (hnodes : ∀ e ∈ r.outgoing, e.1 < U64MAX) :
    ∃ c, CompressedRecord.parse r.writeBWT = some c ∧
      ∀ i, i < r.size → ∀ re : Nat,
        r.LF i = c.LF i ∧ r.getAt i = c.getAt i ∧
        (r.runLF i re).2 = (c.runLF i re).2 := by
  obtain ⟨hs, hrk, hsize, _, _⟩ := hwf
  refine ⟨⟨r.outgoing,
    if 0 < r.outdegree then r.body.flatMap (Run.write r.outdegree) else []⟩,
    parse_writeBWT r hs, ?_⟩
  set c : CompressedRecord := ⟨r.outgoing,
    if 0 < r.outdegree then r.body.flatMap (Run.write r.outdegree) else []⟩ with hc
  have hco : c.outgoing = r.outgoing := rfl
  have hcd : c.outdegree = r.outdegree := rfl
  have hrl : c.runsList = r.body := by
    rw [CompressedRecord.runsList, hcd]
    exact runsList_writeBWT r hrk
  intro i hi re
  have hszsum : r.size = sumLen r.body := by
    rw [DynamicRecord.size, hsize]
  have hbody : r.body ≠ [] := by
    intro hcon
    rw [hszsum, hcon, sumLen_nil] at hi
    omega
  have hdeg : 0 < r.outdegree := by
    cases hb : r.body with
    | nil => exact absurd hb hbody
    | cons x tl =>
      have := hrk x (by rw [hb]; simp)
      omega
  have hruncmp : ∀ re2 : Nat, DynamicRecord.runLF r i re2 = c.runLF i re2 := by
    intro re2
    rw [DynamicRecord.runLF, if_neg (by omega)]
    rw [CompressedRecord.runLF, if_neg (by rw [hcd]; omega)]
    have hedge : c.edgeAt i = DynamicRecord.LFLoopArr i r.outgoing r.body 0 0 := by
      rw [CompressedRecord.edgeAt, hrl, hco,
        if_neg (by rw [← hszsum]; omega)]
    rw [hedge]
    obtain ⟨rank, ⟨run, hrun, hrank⟩, hfst⟩ :=
      LFLoopArr_fst i r.body r.outgoing 0 0 (by omega) (by rw [← hszsum]; omega)
    have hranklt : rank < r.outgoing.length := by
      rw [← hrank]
      exact ((hrk run hrun).1 : run.1 < r.outdegree)
    have hmem : r.outgoing.getD rank (0, 0) ∈ r.outgoing := by
      rw [List.getD_eq_getElem _ _ hranklt]
      exact List.getElem_mem hranklt
    have hlt := hnodes _ hmem
    have hne : (DynamicRecord.LFLoopArr i r.outgoing r.body 0 0).1 ≠ invalid_edge := by
      intro hcon
      rw [hcon] at hfst
      rw [invalid_edge] at hfst
      dsimp only at hfst
      omega
    rw [if_pos hne]
  refine ⟨?_, ?_, ?_⟩
  · rw [DynamicRecord.LF, CompressedRecord.LF, hruncmp 0]
  · rw [DynamicRecord.getAt, if_neg (by omega),
      CompressedRecord.getAt, if_neg (by rw [hcd]; omega), hrl, hco]
  · rw [hruncmp re]

/-! ### Concrete example records (spec §8, scenario 2) -/

/-- A two-successor record: outgoing `[(4,0),(6,3)]`, body
`[(0,2),(1,3),(0,1)]`. -/
def exR : DynamicRecord := ⟨[], [(4, 0), (6, 3)], [(0, 2), (1, 3), (0, 1)], 6, []⟩

/-- Its byte-level counterpart: run codepoints for rank space 2. -/
def exC : CompressedRecord := ⟨[(4, 0), (6, 3)], [2, 5, 0]⟩

theorem claim_C1_witness :
    exR.wf ∧ (∀ e ∈ exR.outgoing, e.1 < U64MAX) ∧
    (∃ c, CompressedRecord.parse exR.writeBWT = some c ∧
      ∀ i, i < exR.size → ∀ re : Nat,
        exR.LF i = c.LF i ∧ exR.getAt i = c.getAt i ∧
        (exR.runLF i re).2 = (c.runLF i re).2) :=
  ⟨by decide, by decide, claim_C1 exR (by decide) (by decide)⟩

theorem claim_C2_witness :
    (exR.wf ∧ 3 ≤ exR.size ∧ (6 : Nat) ∈ exR.outgoing.map Prod.fst ∧
      exR.LFNode 3 6 = exR.offset (exR.edgeToRec 6) +
        (List.range 3).countP (fun j => decide (exR.getAt j = 6))) ∧
    (exC.wf ∧ 3 ≤ exC.size ∧ (6 : Nat) ∈ exC.outgoing.map Prod.fst ∧
      exC.LFNode 3 6 = exC.offset (edgeTo 6 exC.outgoing) +
        (List.range 3).countP (fun j => decide (exC.getAt j = 6))) :=
  ⟨⟨by decide, by decide, by decide,
    (claim_C2.1 exR 3 6 (by decide) (by decide)).2 (by decide)⟩,
   ⟨by decide, by decide, by decide,
    (claim_C2.2 exC 3 6 (by decide) (by decide)).2 (by decide)⟩⟩

theorem claim_C3_witness :
    (exR.wf ∧ Range.isEmpty (1, 3) = false ∧
      (4 : Nat) ∈ exR.outgoing.map Prod.fst ∧
      exR.LFRange (1, 3) 4 = (exR.LFNode 1 4, sub64 (exR.LFNode 4 4) 1)) ∧
    (exC.wf ∧
      exC.LFRange (1, 3) 4 = (exC.LFNode 1 4, sub64 (exC.LFNode 4 4) 1)) :=
  ⟨⟨by decide, by decide, by decide,
    (claim_C3.1 exR 1 3 4 (by decide)).2 (by decide) (by decide)⟩,
   ⟨by decide,
    (claim_C3.2 exC 1 3 4 (by decide)).2 (by decide) (by decide)⟩⟩

/-! ### Window slices of the flattened rank sequence -/

/-- Number of positions `j` with `a ≤ j < b` whose rank satisfies `p`. -/
def wslice (p : Nat → Bool) (L : List run_type) (a b : Nat) : Nat :=
  (((flatRanks L).drop a).take (b - a)).countP p

theorem wcnt_split (p : Nat → Bool) (L : List run_type) (a b : Nat)
    (h : a ≤ b) : wcnt p L b = wcnt p L a + wslice p L a b := by
  rw [wcnt, wcnt, wslice]
  have : b = a + (b - a) := by omega
  rw [this, List.take_add, List.countP_append]
  have h2 : a + (b - a) - a = b - a := by omega
  rw [h2]

theorem flatRanks_cons_zero (x : Nat) (body : List run_type) :
    flatRanks (((x, 0) : run_type) :: body) = flatRanks body := by
  rw [flatRanks_cons]
  simp

/-- Dropping past a list of runs lands inside the replicate block of the
current run: dropping `a ≥ sumLen H` positions leaves a tail of the
current run's replicate block. -/
theorem drop_flat_append (H : List run_type) (run : run_type) (a : Nat)
    (h : sumLen H ≤ a) :
    (flatRanks (H ++ [run])).drop a =
      List.replicate (run.2 - (a - sumLen H)) run.1 := by
  rw [flatRanks_append]
  have h1 : a = (flatRanks H).length + (a - sumLen H) := by
    rw [length_flatRanks]; omega
  rw [h1, ← List.drop_drop, List.drop_left]
  have hfr : flatRanks [run] = List.replicate run.2 run.1 := by
    rw [flatRanks]; simp
  rw [hfr, List.drop_replicate]
  congr 1
  rw [length_flatRanks]
  omega

/-- The straddle initialization of the `bdLF` accumulators. -/
theorem straddle_eq (p : Nat → Bool) (H : List run_type) (run : run_type)
    (a : Nat) (h : sumLen H ≤ a) :
    ((flatRanks (H ++ [run])).drop a).countP p =
      if p run.1 then sumLen H + run.2 - a else 0 := by
  rw [drop_flat_append H run a h, countP_replicate]
  by_cases hp : p run.1 <;> simp [hp] <;> omega

/-- Appending one whole run to the consumed history adds its full length
to a slice starting at or before the previous end. -/
theorem consume_step (p : Nat → Bool) (A : List run_type) (r : run_type)
    (a : Nat) (h : a ≤ sumLen A) :
    ((flatRanks (A ++ [r])).drop a).countP p =
      ((flatRanks A).drop a).countP p + (if p r.1 then r.2 else 0) := by
  rw [flatRanks_append, List.drop_append_of_le_length (by rw [length_flatRanks]; omega),
    List.countP_append]
  have hfr : flatRanks [r] = List.replicate r.2 r.1 := by
    rw [flatRanks]; simp
  rw [hfr, countP_replicate]

/-- Subtracting the overshoot of the final run from a drop-slice yields
the bounded window count. -/
theorem slice_correct (p : Nat → Bool) (G H : List run_type) (run : run_type)
    (rem : List run_type) (a b : Nat)
    (hG : H ++ run :: rem = G) (hstart : sumLen H ≤ b) (hab : a ≤ b)
    (hexit : b ≤ sumLen H + run.2 ∨ rem = []) :
    ((flatRanks (H ++ [run])).drop a).countP p -
      (if p run.1 then sumLen H + run.2 - b else 0) = wslice p G a b := by
  have hlenX : (flatRanks (H ++ [run])).length = sumLen H + run.2 := by
    rw [length_flatRanks, sumLen_append, sumLen_cons, sumLen_nil]
    omega
  by_cases hbo : b ≤ sumLen H + run.2
  · have hdb : ((flatRanks (H ++ [run])).drop a).drop (b - a) =
        (flatRanks (H ++ [run])).drop b := by
      rw [List.drop_drop]
      congr 1
      omega
    have htail : (flatRanks (H ++ [run])).drop b =
        List.replicate (sumLen H + run.2 - b) run.1 := by
      rw [drop_flat_append H run b hstart]
      congr 1
      omega
    have hcount : ((flatRanks (H ++ [run])).drop a).countP p =
        (((flatRanks (H ++ [run])).drop a).take (b - a)).countP p +
          (if p run.1 then sumLen H + run.2 - b else 0) := by
      conv_lhs => rw [← List.take_append_drop (b - a) ((flatRanks (H ++ [run])).drop a)]
      rw [List.countP_append, hdb, htail, countP_replicate]
    rw [hcount, Nat.add_sub_cancel, wslice, ← hG]
    have hGsplit : flatRanks (H ++ run :: rem) =
        flatRanks (H ++ [run]) ++ flatRanks rem := by
      rw [← flatRanks_append]
      congr 1
      simp
    rw [hGsplit, List.drop_append_of_le_length (by omega),
      List.take_append_of_le_length (by rw [List.length_drop]; omega)]
  · have hrem : rem = [] := by
      rcases hexit with hx | hx
      · omega
      · exact hx
    have hGeq : G = H ++ [run] := by
      rw [← hG, hrem]
    have hcorr : (if p run.1 then sumLen H + run.2 - b else 0) = 0 := by
      by_cases hp : p run.1 <;> simp [hp] <;> omega
    rw [hcorr, Nat.sub_zero, wslice, hGeq]
    rw [List.take_of_length_le]
    rw [List.length_drop, hlenX]
    omega

/-! ### Node reversal arithmetic and rank order -/

theorem rev_even (t : Nat) (h : t % 2 = 0) : Node.reverse t = t + 1 := by
  rw [Node.reverse, if_pos h]

theorem rev_odd (t : Nat) (h : t % 2 = 1) : Node.reverse t = t - 1 := by
  rw [Node.reverse, if_neg (show ¬ t % 2 = 0 by omega)]

theorem rev_lt_rev_iff (x t : Nat) (h1 : x ≠ t) (h2 : x ≠ Node.reverse t) :
    (Node.reverse x < Node.reverse t ↔ x < t) := by
  by_cases hx : x % 2 = 0
  · by_cases ht : t % 2 = 0
    · rw [rev_even x hx, rev_even t ht]
      show x + 1 < t + 1 ↔ x < t
      omega
    · have ht1 : t % 2 = 1 := by omega
      rw [rev_even x hx, rev_odd t ht1]
      rw [rev_odd t ht1] at h2
      have h2n : ¬ x = t - 1 := h2
      show x + 1 < t - 1 ↔ x < t
      omega
  · have hx1 : x % 2 = 1 := by omega
    by_cases ht : t % 2 = 0
    · rw [rev_odd x hx1, rev_even t ht]
      rw [rev_even t ht] at h2
      have h2n : ¬ x = t + 1 := h2
      show x - 1 < t + 1 ↔ x < t
      omega
    · have ht1 : t % 2 = 1 := by omega
      rw [rev_odd x hx1, rev_odd t ht1]
      show x - 1 < t - 1 ↔ x < t
      omega

theorem rank_lt_iff {outgoing : List edge_type}
    (hs : outgoing.Pairwise (fun a b => a.1 < b.1))
    (x y : Nat) (hx : x < outgoing.length) (hy : y < outgoing.length) :
    x < y ↔ (outgoing.getD x (0, 0)).1 < (outgoing.getD y (0, 0)).1 := by
  constructor
  · intro h
    exact sorted_fst_lt hs x y h hy
  · intro h
    by_contra hc
    rcases Nat.eq_or_lt_of_le (Nat.le_of_not_lt hc) with h2 | h2
    · rw [h2] at h; omega
    · have := sorted_fst_lt hs y x h2 hx
      omega

/-- When the binary search returns an in-range rank, that rank carries
the searched destination. -/
theorem edgeTo_lt_imp (toNode : node_type) (outgoing : List edge_type) :
    ∀ fuel low high, high ≤ outgoing.length →
    edgeToAux toNode outgoing fuel low high < outgoing.length →
    (outgoing.getD (edgeToAux toNode outgoing fuel low high) (0, 0)).1 = toNode := by
  intro fuel
  induction fuel with
  | zero =>
    intro low high _ h
    rw [edgeToAux] at h
    exact absurd h (lt_irrefl _)
  | succ n ih =>
    intro low high hh hlt
    rw [edgeToAux] at hlt ⊢
    dsimp only at hlt ⊢
    by_cases hlh : low < high
    · rw [if_pos hlh] at hlt ⊢
      by_cases heq : (outgoing.getD (low + (high - low) / 2) (0, 0)).1 = toNode
      · rw [if_pos heq] at hlt ⊢
        exact heq
      · rw [if_neg heq] at hlt ⊢
        by_cases hgt : (outgoing.getD (low + (high - low) / 2) (0, 0)).1 > toNode
        · rw [if_pos hgt] at hlt ⊢
          exact ih low _ (by omega) hlt
        · rw [if_neg hgt] at hlt ⊢
          exact ih _ high hh hlt
    · rw [if_neg hlh] at hlt
      exact absurd hlt (lt_irrefl _)

theorem edgeTo_lt_getD (toNode : node_type) (outgoing : List edge_type)
    (h : edgeTo toNode outgoing < outgoing.length) :
    (outgoing.getD (edgeTo toNode outgoing) (0, 0)).1 = toNode :=
  edgeTo_lt_imp toNode outgoing _ 0 outgoing.length le_rfl h

/-- Counting a conjunction by subtraction. -/
theorem countP_sub (l : List Nat) (p q : Nat → Bool)
    (himp : ∀ x ∈ l, q x = true → p x = true) :
    l.countP q ≤ l.countP p ∧
    l.countP p - l.countP q = l.countP (fun x => p x && ! q x) := by
  induction l with
  | nil => simp
  | cons x tl ih =>
    have hx := himp x (by simp)
    obtain ⟨ih1, ih2⟩ := ih (fun y hy => himp y (by simp [hy]))
    rw [List.countP_cons, List.countP_cons, List.countP_cons]
    by_cases hq : q x = true
    · have hp := hx hq
      simp [hq, hp]
      omega
    · by_cases hp : p x = true <;> simp [hq, hp] <;> omega

/-! ### Bridging boolean and propositional run conditions -/

theorem if_cond_beq (x k z : Nat) :
    (if (x == k) = true then z else 0) = if x = k then z else 0 := by
  by_cases h : x = k <;> simp [h]

theorem if_cond_declt (x k z : Nat) :
    (if (decide (x < k)) = true then z else 0) = if x < k then z else 0 := by
  by_cases h : x < k <;> simp [h]

theorem if_cond_ltne (x k t z : Nat) :
    (if (decide (x < k) && ! (x == t)) = true then z else 0) =
      if x < k ∧ x ≠ t then z else 0 := by
  by_cases h1 : x < k <;> by_cases h2 : x = t <;> simp [h1, h2]

/-- Counting a predicate of the ranks over a window of positions equals
counting it over the corresponding slice of the flattened rank
sequence. -/
theorem count_slice_translate (a n : Nat) (flat : List Nat)
    (h : a + n ≤ flat.length) (g : Nat → Bool) :
    (List.range' a n).countP (fun j => g (flat.getD j 0)) =
      ((flat.drop a).take n).countP g := by
  rw [List.range'_eq_map_range, List.countP_map]
  rw [← countP_range_getD g (flat.drop a) n (by rw [List.length_drop]; omega)]
  apply List.countP_congr
  intro i hi
  have hin : i < n := List.mem_range.mp hi
  simp only [Function.comp]
  have hd : (flat.drop a).getD i 0 = flat.getD (a + i) 0 := by
    rw [List.getD_eq_getElem _ _ (by rw [List.length_drop]; omega),
      List.getD_eq_getElem _ _ (by omega), List.getElem_drop]
  rw [hd]

/-- A rank past the binary search's range means the searched node is not
a successor. -/
theorem edgeTo_ge_not_mem (t : node_type) (outgoing : List edge_type)
    (hs : outgoing.Pairwise (fun a b => a.1 < b.1))
    (h : outgoing.length ≤ edgeTo t outgoing) : ∀ e ∈ outgoing, e.1 ≠ t := by
  intro e he hc
  have hmem : t ∈ outgoing.map Prod.fst := List.mem_map.mpr ⟨e, he, hc⟩
  obtain ⟨k, hk, hkv⟩ := mem_fst_index hmem
  have heq := edgeTo_hit t outgoing hs k hk hkv
  rw [heq] at h
  exact Nat.lt_irrefl _ (Nat.lt_of_lt_of_le hk h)

theorem is_reverse_iff (n : Nat) : Node.is_reverse n = true ↔ n % 2 = 1 := by
  simp [Node.is_reverse]

/-- A finished rank iterator reports the corrected count without moving. -/
theorem rankAt_stall (outrank b : Nat) (st : RIter)
    (h : b ≤ st.off ∨ st.rem = []) :
    (RIter.rankAt outrank b st).1 =
      st.result - (if st.run.1 = outrank then st.off - b else 0) := by
  rw [RIter.rankAt]
  rcases h with hb | hrem
  · have hfix : RIter.rankAtLoop outrank b (st.rem.length + 1) st = st := by
      rw [RIter.rankAtLoop, if_neg (by intro hc; omega)]
    dsimp only
    rw [hfix]
  · dsimp only
    rw [hrem]
    dsimp only [List.length_nil]
    rw [RIter.rankAtLoop]
    by_cases hc : ¬ st.isEnd = true ∧ st.off < b
    · rw [if_pos hc]
      have hnext : RIter.next outrank st = { st with isEnd := true } := by
        rw [RIter.next, hrem]
      rw [hnext]
      rw [RIter.rankAtLoop]
    · rw [if_neg hc]

/-- The iterator component of the compressed `bdLF` loop is the plain
rank-advance loop. -/
theorem bdLoop_fst (outrank rr b : Nat) :
    ∀ (fuel : Nat) (st : RIter) (ro : Nat),
    (CompressedRecord.bdLoop outrank rr b fuel st ro).1 =
      RIter.rankAtLoop outrank b fuel st := by
  intro fuel
  induction fuel with
  | zero => intro st ro; rfl
  | succ n ih =>
    intro st ro
    rw [CompressedRecord.bdLoop, RIter.rankAtLoop]
    by_cases h : ¬ st.isEnd = true ∧ st.off < b
    · rw [if_pos h, if_pos h]
      exact ih _ _
    · rw [if_neg h, if_neg h]


/-- Running the `bdLF` middle loop from a straddle state keeps both
accumulators equal to the drop-slice counts of the consumed history. -/
theorem bdMidLoop_run (outrank rr b a : Nat) (rem : List run_type) :
    ∀ (H : List run_type) (run : run_type),
    (a ≤ sumLen H + run.2 ∨ rem = []) → sumLen H ≤ b →
    ∃ H' run' rem',
      DynamicRecord.bdMidLoop outrank rr b rem run (sumLen H + run.2)
          (((flatRanks (H ++ [run])).drop a).countP (fun x => x == outrank))
          (((flatRanks (H ++ [run])).drop a).countP (fun x => decide (x < rr)))
        = (rem', run', sumLen H' + run'.2,
            ((flatRanks (H' ++ [run'])).drop a).countP (fun x => x == outrank),
            ((flatRanks (H' ++ [run'])).drop a).countP (fun x => decide (x < rr)))
      ∧ H' ++ run' :: rem' = H ++ run :: rem
      ∧ sumLen H' ≤ b
      ∧ (b ≤ sumLen H' + run'.2 ∨ rem' = []) := by
  induction rem with
  | nil =>
    intro H run hpre hHb
    exact ⟨H, run, [], by rw [DynamicRecord.bdMidLoop], rfl, hHb, Or.inr rfl⟩
  | cons r rest ih =>
    intro H run hpre hHb
    have hpre' : a ≤ sumLen H + run.2 := by
      rcases hpre with h | h
      · exact h
      · exact absurd h (by simp)
    have hsumA : sumLen (H ++ [run]) = sumLen H + run.2 := by
      rw [sumLen_append, sumLen_cons, sumLen_nil]
      omega
    rw [DynamicRecord.bdMidLoop]
    by_cases hoff : sumLen H + run.2 < b
    · rw [if_pos hoff]
      have ha' : a ≤ sumLen (H ++ [run]) := by omega
      have hstep_eq : ((flatRanks ((H ++ [run]) ++ [r])).drop a).countP
            (fun x => x == outrank)
          = ((flatRanks (H ++ [run])).drop a).countP (fun x => x == outrank)
            + (if r.1 = outrank then r.2 else 0) := by
        rw [consume_step (fun x => x == outrank) (H ++ [run]) r a ha']
        by_cases hr : r.1 = outrank <;> simp [hr]
      have hstep_ro : ((flatRanks ((H ++ [run]) ++ [r])).drop a).countP
            (fun x => decide (x < rr))
          = ((flatRanks (H ++ [run])).drop a).countP (fun x => decide (x < rr))
            + (if r.1 < rr then r.2 else 0) := by
        rw [consume_step (fun x => decide (x < rr)) (H ++ [run]) r a ha']
        by_cases hr : r.1 < rr <;> simp [hr]
      obtain ⟨H', run', rem', heq, hlist, hHb', hex⟩ :=
        ih (H ++ [run]) r (Or.inl (by omega)) (by omega)
      refine ⟨H', run', rem', ?_, ?_, hHb', hex⟩
      · have harg : sumLen H + run.2 + r.2 = sumLen (H ++ [run]) + r.2 := by omega
        rw [harg, ← hstep_eq, ← hstep_ro]
        exact heq
      · rw [hlist]
        simp
    · rw [if_neg hoff]
      exact ⟨H, run, r :: rest, rfl, rfl, hHb, Or.inl (by omega)⟩

/-- Running the compressed `bdLF` loop from a straddle state keeps the
accumulator equal to the drop-slice count of the consumed history. -/
theorem bdLoop_run (outrank rr b a : Nat) (G : List run_type)
    (hbG : b ≤ sumLen G) :
    ∀ (fuel : Nat) (st : RIter) (H : List run_type),
    st.rem.length < fuel →
    H ++ st.run :: st.rem = G →
    st.off = sumLen H + st.run.2 →
    (st.isEnd = true → st.rem = []) →
    (a ≤ st.off ∨ st.rem = []) →
    sumLen H ≤ b →
    ∃ H',
      (CompressedRecord.bdLoop outrank rr b fuel st
          (((flatRanks (H ++ [st.run])).drop a).countP
            (fun x => decide (x < rr) && ! (x == outrank)))).2
        = ((flatRanks (H' ++
            [(CompressedRecord.bdLoop outrank rr b fuel st
              (((flatRanks (H ++ [st.run])).drop a).countP
                (fun x => decide (x < rr) && ! (x == outrank)))).1.run])).drop a).countP
            (fun x => decide (x < rr) && ! (x == outrank))
      ∧ H' ++ (CompressedRecord.bdLoop outrank rr b fuel st
            (((flatRanks (H ++ [st.run])).drop a).countP
              (fun x => decide (x < rr) && ! (x == outrank)))).1.run ::
          (CompressedRecord.bdLoop outrank rr b fuel st
            (((flatRanks (H ++ [st.run])).drop a).countP
              (fun x => decide (x < rr) && ! (x == outrank)))).1.rem = G
      ∧ (CompressedRecord.bdLoop outrank rr b fuel st
            (((flatRanks (H ++ [st.run])).drop a).countP
              (fun x => decide (x < rr) && ! (x == outrank)))).1.off
          = sumLen H' +
            (CompressedRecord.bdLoop outrank rr b fuel st
              (((flatRanks (H ++ [st.run])).drop a).countP
                (fun x => decide (x < rr) && ! (x == outrank)))).1.run.2
      ∧ sumLen H' ≤ b
      ∧ (b ≤ (CompressedRecord.bdLoop outrank rr b fuel st
              (((flatRanks (H ++ [st.run])).drop a).countP
                (fun x => decide (x < rr) && ! (x == outrank)))).1.off
          ∨ (CompressedRecord.bdLoop outrank rr b fuel st
              (((flatRanks (H ++ [st.run])).drop a).countP
                (fun x => decide (x < rr) && ! (x == outrank)))).1.rem = []) := by
  intro fuel
  induction fuel with
  | zero =>
    intro st H h0
    exact absurd h0 (Nat.not_lt_zero _)
  | succ n ih =>
    intro st H hfuel hG hoff hend hpre hHb
    rw [CompressedRecord.bdLoop]
    by_cases hc : ¬ st.isEnd = true ∧ st.off < b
    · rw [if_pos hc]
      obtain ⟨hcE, hcO⟩ := hc
      cases hrem : st.rem with
      | nil =>
        exfalso
        have hsum : sumLen G = sumLen H + st.run.2 := by
          rw [← hG, hrem, sumLen_append, sumLen_cons, sumLen_nil]
          omega
        omega
      | cons r rest =>
        have hnext : RIter.next outrank st =
            ⟨rest, r, st.off + r.2,
              st.result + (if r.1 = outrank then r.2 else 0), false⟩ := by
          rw [RIter.next, hrem]
        have ha' : a ≤ sumLen (H ++ [st.run]) := by
          rcases hpre with h | h
          · rw [sumLen_append, sumLen_cons, sumLen_nil]; omega
          · rw [hrem] at h; exact absurd h (by simp)
        have hstep : ((flatRanks ((H ++ [st.run]) ++ [r])).drop a).countP
              (fun x => decide (x < rr) && ! (x == outrank))
            = ((flatRanks (H ++ [st.run])).drop a).countP
                (fun x => decide (x < rr) && ! (x == outrank))
              + (if r.1 < rr ∧ r.1 ≠ outrank then r.2 else 0) := by
          rw [consume_step (fun x => decide (x < rr) && ! (x == outrank))
            (H ++ [st.run]) r a ha']
          by_cases h1 : r.1 < rr <;> by_cases h2 : r.1 = outrank <;>
            simp [h1, h2]
        rw [hnext]
        dsimp only
        have harg : st.off + r.2 = sumLen (H ++ [st.run]) + r.2 := by
          rw [sumLen_append, sumLen_cons, sumLen_nil]; omega
        have hfuel' : rest.length < n := by
          have : st.rem.length = rest.length + 1 := by rw [hrem]; rfl
          omega
        have hG' : (H ++ [st.run]) ++ r :: rest = G := by
          rw [← hG, hrem]
          simp
        have hpre2 : a ≤ st.off := by
          rcases hpre with h | h
          · exact h
          · rw [hrem] at h
            exact absurd h (by simp)
        obtain ⟨H', q1, q2, q3, q4, q5⟩ :=
          ih ⟨rest, r, st.off + r.2,
              st.result + (if r.1 = outrank then r.2 else 0), false⟩
            (H ++ [st.run]) hfuel' hG' (by dsimp only; exact harg)
            (fun hfalse => by simp at hfalse)
            (Or.inl (by dsimp only; omega))
            (by rw [sumLen_append, sumLen_cons, sumLen_nil]; omega)
        rw [← hstep]
        exact ⟨H', q1, q2, q3, q4, q5⟩
    · rw [if_neg hc]
      refine ⟨H, rfl, hG, hoff, hHb, ?_⟩
      dsimp only
      by_cases hb : st.off < b
      · have hendT : st.isEnd = true := by
          by_contra hcon
          exact hc ⟨hcon, hb⟩
        exact Or.inr (hend hendT)
      · exact Or.inl (by omega)


/-! ### Pointwise analysis of the `bdLF` reverse-rank predicate -/

/-- Case 1 of the `bdLF` comment: no edges to `Node::reverse(to)`; a
position counts exactly when its rank is below `outrank`. -/
theorem bd_rev_case_A (outgoing : List edge_type) (toNode : Nat)
    (hs : outgoing.Pairwise (fun a b => a.1 < b.1))
    (K : Nat) (hK : K < outgoing.length)
    (hKv : (outgoing.getD K (0, 0)).1 = toNode)
    (hmiss : ∀ e ∈ outgoing, e.1 ≠ Node.reverse toNode)
    (x : Nat) (hx : x < outgoing.length) :
    (Node.reverse ((outgoing.getD x (0, 0)).1) < Node.reverse toNode ↔
      (x < K ∧ x ≠ K)) := by
  have hmem : outgoing.getD x (0, 0) ∈ outgoing := by
    rw [List.getD_eq_getElem _ _ hx]
    exact List.getElem_mem _
  have h2 : (outgoing.getD x (0, 0)).1 ≠ Node.reverse toNode := hmiss _ hmem
  by_cases hxK : x = K
  · subst hxK
    rw [hKv]
    constructor
    · intro h
      exact absurd h (lt_irrefl _)
    · intro h
      exact absurd rfl h.2
  · have h1 : (outgoing.getD x (0, 0)).1 ≠ toNode := by
      intro hc
      exact hxK (successor_inj hs x K hx hK (by rw [hc, hKv]))
    rw [rev_lt_rev_iff _ _ h1 h2]
    have hiff := rank_lt_iff hs x K hx hK
    rw [hKv] at hiff
    constructor
    · intro h
      exact ⟨hiff.mpr h, hxK⟩
    · intro h
      exact hiff.mp h.1

/-- Case 2 of the `bdLF` comment: `to` is in forward orientation and its
reverse has rank `rr0`; a position counts exactly when its rank is at
most `rr0` and differs from `outrank`. -/
theorem bd_rev_case_B (outgoing : List edge_type) (toNode : Nat)
    (hs : outgoing.Pairwise (fun a b => a.1 < b.1))
    (K : Nat) (hK : K < outgoing.length)
    (hKv : (outgoing.getD K (0, 0)).1 = toNode)
    (rr0 : Nat) (hrr0 : rr0 < outgoing.length)
    (hrv : (outgoing.getD rr0 (0, 0)).1 = Node.reverse toNode)
    (heven : toNode % 2 = 0)
    (x : Nat) (hx : x < outgoing.length) :
    (Node.reverse ((outgoing.getD x (0, 0)).1) < Node.reverse toNode ↔
      (x < rr0 + 1 ∧ x ≠ K)) := by
  have hm : Node.reverse toNode = toNode + 1 := rev_even toNode heven
  have hKrr0 : K < rr0 := by
    apply (rank_lt_iff hs K rr0 hK hrr0).mpr
    rw [hKv, hrv, hm]
    omega
  by_cases hxK : x = K
  · subst hxK
    rw [hKv]
    constructor
    · intro h
      exact absurd h (lt_irrefl _)
    · intro h
      exact absurd rfl h.2
  · by_cases hxr : x = rr0
    · subst hxr
      rw [hrv, hm, rev_odd (toNode + 1) (by omega), Nat.add_sub_cancel]
      constructor
      · intro _
        exact ⟨by omega, hxK⟩
      · intro _
        exact Nat.lt_succ_self toNode
    · have h1 : (outgoing.getD x (0, 0)).1 ≠ toNode := by
        intro hc
        exact hxK (successor_inj hs x K hx hK (by rw [hc, hKv]))
      have h2 : (outgoing.getD x (0, 0)).1 ≠ Node.reverse toNode := by
        intro hc
        exact hxr (successor_inj hs x rr0 hx hrr0 (by rw [hc, hrv]))
      rw [rev_lt_rev_iff _ _ h1 h2]
      have hiffK := rank_lt_iff hs x K hx hK
      rw [hKv] at hiffK
      have hiffR := rank_lt_iff hs x rr0 hx hrr0
      rw [hrv, hm] at hiffR
      constructor
      · intro h
        have hxr0 : x < rr0 := hiffR.mpr (by omega)
        exact ⟨by omega, hxK⟩
      · intro h
        have hxlt : x < rr0 := by
          have := h.1
          omega
        have hnx : (outgoing.getD x (0, 0)).1 < toNode + 1 := hiffR.mp hxlt
        omega

/-- Case 3 of the `bdLF` comment: `to` is in reverse orientation and its
reverse has rank `rr0`; a position counts exactly when its rank is below
`rr0`. -/
theorem bd_rev_case_C (outgoing : List edge_type) (toNode : Nat)
    (hs : outgoing.Pairwise (fun a b => a.1 < b.1))
    (K : Nat) (hK : K < outgoing.length)
    (hKv : (outgoing.getD K (0, 0)).1 = toNode)
    (rr0 : Nat) (hrr0 : rr0 < outgoing.length)
    (hrv : (outgoing.getD rr0 (0, 0)).1 = Node.reverse toNode)
    (hodd : toNode % 2 = 1)
    (x : Nat) (hx : x < outgoing.length) :
    (Node.reverse ((outgoing.getD x (0, 0)).1) < Node.reverse toNode ↔
      (x < rr0 ∧ x ≠ K)) := by
  have hm : Node.reverse toNode = toNode - 1 := rev_odd toNode hodd
  have hrrK : rr0 < K := by
    apply (rank_lt_iff hs rr0 K hrr0 hK).mpr
    rw [hKv, hrv, hm]
    omega
  by_cases hxK : x = K
  · subst hxK
    rw [hKv]
    constructor
    · intro h
      exact absurd h (lt_irrefl _)
    · intro h
      exact absurd rfl h.2
  · by_cases hxr : x = rr0
    · subst hxr
      rw [hrv, hm, rev_even (toNode - 1) (by omega)]
      constructor
      · intro h
        have h2 : toNode - 1 + 1 < toNode - 1 := h
        exact absurd h2 (by omega)
      · intro h
        exact absurd h.1 (lt_irrefl _)
    · have h1 : (outgoing.getD x (0, 0)).1 ≠ toNode := by
        intro hc
        exact hxK (successor_inj hs x K hx hK (by rw [hc, hKv]))
      have h2 : (outgoing.getD x (0, 0)).1 ≠ Node.reverse toNode := by
        intro hc
        exact hxr (successor_inj hs x rr0 hx hrr0 (by rw [hc, hrv]))
      rw [rev_lt_rev_iff _ _ h1 h2]
      have hiffK := rank_lt_iff hs x K hx hK
      rw [hKv] at hiffK
      have hiffR := rank_lt_iff hs x rr0 hx hrr0
      rw [hrv, hm] at hiffR
      have h2m : (outgoing.getD x (0, 0)).1 ≠ toNode - 1 := by
        rw [hm] at h2
        exact h2
      constructor
      · intro h
        refine ⟨hiffR.mpr (by omega), hxK⟩
      · intro h
        have hnx : (outgoing.getD x (0, 0)).1 < toNode - 1 := hiffR.mp h.1
        omega


theorem bd_K_lt (outgoing : List edge_type) (toNode : Nat)
    (hs : outgoing.Pairwise (fun a b => a.1 < b.1))
    (K : Nat) (hK : K < outgoing.length)
    (hKv : (outgoing.getD K (0, 0)).1 = toNode)
    (rr0 : Nat) (hrr0 : rr0 < outgoing.length)
    (hrv : (outgoing.getD rr0 (0, 0)).1 = Node.reverse toNode)
    (heven : toNode % 2 = 0) : K < rr0 := by
  apply (rank_lt_iff hs K rr0 hK hrr0).mpr
  rw [hKv, hrv, rev_even toNode heven]
  omega

theorem bd_rr0_lt (outgoing : List edge_type) (toNode : Nat)
    (hs : outgoing.Pairwise (fun a b => a.1 < b.1))
    (K : Nat) (hK : K < outgoing.length)
    (hKv : (outgoing.getD K (0, 0)).1 = toNode)
    (rr0 : Nat) (hrr0 : rr0 < outgoing.length)
    (hrv : (outgoing.getD rr0 (0, 0)).1 = Node.reverse toNode)
    (hodd : toNode % 2 = 1) : rr0 < K := by
  apply (rank_lt_iff hs rr0 K hrr0 hK).mpr
  rw [hKv, hrv, rev_odd toNode hodd]
  omega

/-- `DynamicRecord::bdLF` on a valid target: the forward range carries
the two window counts, and the final `reverse_offset` counts the
window's ranks below the adjusted reverse rank and different from the
target rank. -/
theorem bdLF_val_dyn (r : DynamicRecord) (a b : Nat) (toNode : node_type) (ro : Nat)
    (hs : r.outgoing.Pairwise (fun x y => x.1 < y.1))
    (hne : Range.isEmpty (a, b) = false)
    (hK : edgeTo toNode r.outgoing < r.outdegree) :
    r.bdLF (a, b) toNode ro =
      ((r.offset (edgeTo toNode r.outgoing) +
          wcnt (fun x => x == edgeTo toNode r.outgoing) r.body a,
        sub64 (r.offset (edgeTo toNode r.outgoing) +
          wcnt (fun x => x == edgeTo toNode r.outgoing) r.body (b + 1)) 1),
       (((flatRanks r.body).drop a).take (b + 1 - a)).countP
         (fun x => decide (x <
             (if edgeTo (Node.reverse toNode) r.outgoing ≥ r.outdegree
              then edgeTo toNode r.outgoing
              else if ¬ Node.is_reverse toNode = true
              then edgeTo (Node.reverse toNode) r.outgoing + 1
              else edgeTo (Node.reverse toNode) r.outgoing))
           && ! (x == edgeTo toNode r.outgoing))) := by
  have hab : a ≤ b := by
    rw [Range.isEmpty] at hne
    simpa using hne
  rw [DynamicRecord.bdLF, if_neg (by simp [hne])]
  simp only [DynamicRecord.edgeToRec]
  rw [if_neg (Nat.not_le.mpr hK)]
  try dsimp only
  obtain ⟨hv1, hinv1, hexit1⟩ :=
    lfLoopT_run (edgeTo toNode r.outgoing) a (r.offset (edgeTo toNode r.outgoing))
      (((0, 0) : run_type) :: r.body)
      ⟨r.body, (0, 0), 0, r.offset (edgeTo toNode r.outgoing)⟩ (TStateInv_start _ _ _ _)
  try dsimp only at hv1 hinv1 hexit1
  obtain ⟨H, hoff, hres, hlist, hHle⟩ := hinv1
  rw [hoff]
  generalize hP : DynamicRecord.lfLoopT (edgeTo toNode r.outgoing) a r.body (0, 0) 0
      (r.offset (edgeTo toNode r.outgoing)) = P
  rw [hP] at hv1 hexit1 hoff hres hlist
  obtain ⟨sp, st1⟩ := P
  dsimp only at hv1 hexit1 hoff hres hlist ⊢
  generalize hRR : (if edgeTo (Node.reverse toNode) r.outgoing ≥ r.outdegree
      then edgeTo toNode r.outgoing
      else if ¬ Node.is_reverse toNode = true
      then edgeTo (Node.reverse toNode) r.outgoing + 1
      else edgeTo (Node.reverse toNode) r.outgoing) = RR
  have hstr_eq : (if st1.run.1 = edgeTo toNode r.outgoing
        then sumLen H + st1.run.2 - a else 0)
      = ((flatRanks (H ++ [st1.run])).drop a).countP
          (fun x => x == edgeTo toNode r.outgoing) := by
    rw [straddle_eq (fun x => x == edgeTo toNode r.outgoing) H st1.run a hHle]
    by_cases hc : st1.run.1 = edgeTo toNode r.outgoing <;> simp [hc]
  have hstr_ro : (if st1.run.1 < RR then sumLen H + st1.run.2 - a else 0)
      = ((flatRanks (H ++ [st1.run])).drop a).countP (fun x => decide (x < RR)) := by
    rw [straddle_eq (fun x => decide (x < RR)) H st1.run a hHle]
    by_cases hc : st1.run.1 < RR <;> simp [hc]
  rw [hstr_eq, hstr_ro]
  have hpre : a ≤ sumLen H + st1.run.2 ∨ st1.rem = [] := by
    rcases hexit1 with hx | hx
    · rw [hoff] at hx
      exact Or.inl hx
    · exact Or.inr hx
  obtain ⟨H', run', rem', hmid, hlist', hH'b, hexit'⟩ :=
    bdMidLoop_run (edgeTo toNode r.outgoing) RR (b + 1) a st1.rem H st1.run hpre
      (by omega)
  rw [hmid]
  dsimp only
  have hlist2 : H' ++ run' :: rem' = ((0, 0) : run_type) :: r.body := by
    rw [hlist', hlist]
  have hsl_eq : ((flatRanks (H' ++ [run'])).drop a).countP
        (fun x => x == edgeTo toNode r.outgoing)
      - (if run'.1 = edgeTo toNode r.outgoing then sumLen H' + run'.2 - (b + 1) else 0)
      = wslice (fun x => x == edgeTo toNode r.outgoing)
          (((0, 0) : run_type) :: r.body) a (b + 1) := by
    rw [show (if run'.1 = edgeTo toNode r.outgoing
          then sumLen H' + run'.2 - (b + 1) else 0)
        = (if ((fun x => x == edgeTo toNode r.outgoing) run'.1) = true
          then sumLen H' + run'.2 - (b + 1) else 0) from by
      by_cases hc : run'.1 = edgeTo toNode r.outgoing <;> simp [hc]]
    exact slice_correct _ _ H' run' rem' a (b + 1) hlist2 hH'b (by omega) hexit'
  have hsl_ro : ((flatRanks (H' ++ [run'])).drop a).countP (fun x => decide (x < RR))
      - (if run'.1 < RR then sumLen H' + run'.2 - (b + 1) else 0)
      = wslice (fun x => decide (x < RR)) (((0, 0) : run_type) :: r.body) a (b + 1) := by
    rw [show (if run'.1 < RR then sumLen H' + run'.2 - (b + 1) else 0)
        = (if ((fun x => decide (x < RR)) run'.1) = true
          then sumLen H' + run'.2 - (b + 1) else 0) from by
      by_cases hc : run'.1 < RR <;> simp [hc]]
    exact slice_correct _ _ H' run' rem' a (b + 1) hlist2 hH'b (by omega) hexit'
  rw [hsl_eq, hsl_ro]
  simp only [Prod.mk.injEq]
  refine ⟨⟨?_, ?_⟩, ?_⟩
  · rw [hv1, wcnt_cons_zero]
  · congr 1
    have hws := wcnt_split (fun x => x == edgeTo toNode r.outgoing)
      (((0, 0) : run_type) :: r.body) a (b + 1) (by omega)
    rw [wcnt_cons_zero, wcnt_cons_zero] at hws
    rw [hv1, wcnt_cons_zero]
    omega
  · simp only [wslice, flatRanks_cons_zero]
    by_cases hA : edgeTo (Node.reverse toNode) r.outgoing ≥ r.outdegree
    · rw [if_pos hA] at hRR
      subst hRR
      have hsub : decide (edgeTo (Node.reverse toNode) r.outgoing < r.outdegree
          ∧ ¬ Node.is_reverse toNode = true) = false := by
        simp only [decide_eq_false_iff_not]
        intro hc
        exact absurd hc.1 (Nat.not_lt.mpr hA)
      rw [hsub, if_neg Bool.false_ne_true]
      apply List.countP_congr
      intro x hx
      simp only [decide_eq_true_eq, Bool.and_eq_true, Bool.not_eq_true',
        beq_eq_false_iff_ne]
      constructor
      · intro h
        exact ⟨h, fun hc => absurd (hc ▸ h) (lt_irrefl _)⟩
      · intro h
        exact h.1
    · rw [if_neg hA] at hRR
      have hA2 : edgeTo (Node.reverse toNode) r.outgoing < r.outdegree :=
        Nat.lt_of_not_le hA
      have hkv : (r.outgoing.getD (edgeTo toNode r.outgoing) (0, 0)).1 = toNode :=
        edgeTo_lt_getD toNode r.outgoing hK
      have hrv : (r.outgoing.getD (edgeTo (Node.reverse toNode) r.outgoing) (0, 0)).1
          = Node.reverse toNode := edgeTo_lt_getD _ r.outgoing hA2
      by_cases hrev : Node.is_reverse toNode = true
      · rw [if_neg (not_not_intro hrev)] at hRR
        subst hRR
        have hodd : toNode % 2 = 1 := (is_reverse_iff toNode).mp hrev
        have hlt := bd_rr0_lt r.outgoing toNode hs _ hK hkv _ hA2 hrv hodd
        have hsub : decide (edgeTo (Node.reverse toNode) r.outgoing < r.outdegree
            ∧ ¬ Node.is_reverse toNode = true) = false := by
          simp only [decide_eq_false_iff_not]
          intro hc
          exact hc.2 hrev
        rw [hsub, if_neg Bool.false_ne_true]
        apply List.countP_congr
        intro x hx
        simp only [decide_eq_true_eq, Bool.and_eq_true, Bool.not_eq_true',
          beq_eq_false_iff_ne]
        constructor
        · intro h
          exact ⟨h, fun hc => absurd hlt (Nat.lt_asymm (hc ▸ h))⟩
        · intro h
          exact h.1
      · rw [if_pos hrev] at hRR
        subst hRR
        have heven : toNode % 2 = 0 := by
          rcases Nat.mod_two_eq_zero_or_one toNode with h | h
          · exact h
          · exact absurd ((is_reverse_iff toNode).mpr h) hrev
        have hlt := bd_K_lt r.outgoing toNode hs _ hK hkv _ hA2 hrv heven
        have hsub : decide (edgeTo (Node.reverse toNode) r.outgoing < r.outdegree
            ∧ ¬ Node.is_reverse toNode = true) = true := by
          simp only [decide_eq_true_eq]
          exact ⟨hA2, hrev⟩
        rw [hsub, if_pos rfl]
        have hcs2 : (((flatRanks r.body).drop a).take (b + 1 - a)).countP
              (fun x => decide (x < edgeTo (Node.reverse toNode) r.outgoing + 1))
            - (((flatRanks r.body).drop a).take (b + 1 - a)).countP
              (fun x => x == edgeTo toNode r.outgoing)
            = (((flatRanks r.body).drop a).take (b + 1 - a)).countP
              (fun x => decide (x < edgeTo (Node.reverse toNode) r.outgoing + 1)
                && ! (x == edgeTo toNode r.outgoing)) := by
          refine (countP_sub _ _ _ ?_).2
          intro x hxS hq
          have hxK : x = edgeTo toNode r.outgoing := by simpa using hq
          subst hxK
          simp only [decide_eq_true_eq]
          exact Nat.lt_succ_of_lt hlt
        rw [hcs2]


/-- `CompressedRecord::bdLF` on a valid target within bounds: the
forward range carries the two window counts of the shared iterator, and
`reverse_offset` counts the window ranks below the adjusted reverse rank
and different from the target rank. -/
theorem bdLF_val_comp (c : CompressedRecord) (a b : Nat) (toNode : node_type) (ro : Nat)
    (hs : c.outgoing.Pairwise (fun x y => x.1 < y.1))
    (hne : Range.isEmpty (a, b) = false)
    (hub : b < sumLen c.runsList)
    (hK : edgeTo toNode c.outgoing < c.outdegree) :
    c.bdLF (a, b) toNode ro =
      ((c.offset (edgeTo toNode c.outgoing) +
          wcnt (fun x => x == edgeTo toNode c.outgoing) c.runsList a,
        sub64 (c.offset (edgeTo toNode c.outgoing) +
          wcnt (fun x => x == edgeTo toNode c.outgoing) c.runsList (b + 1)) 1),
       (((flatRanks c.runsList).drop a).take (b + 1 - a)).countP
         (fun x => decide (x <
             (if edgeTo (Node.reverse toNode) c.outgoing ≥ c.outdegree
              then edgeTo toNode c.outgoing
              else if ¬ Node.is_reverse toNode = true
              then edgeTo (Node.reverse toNode) c.outgoing + 1
              else edgeTo (Node.reverse toNode) c.outgoing))
           && ! (x == edgeTo toNode c.outgoing))) := by
  have hab : a ≤ b := by
    rw [Range.isEmpty] at hne
    simpa using hne
  rw [CompressedRecord.bdLF, if_neg (by simp [hne])]
  rw [if_neg (Nat.not_le.mpr hK)]
  try dsimp only
  obtain ⟨hv1, hinv1, hexit1⟩ :=
    rankAt_run (edgeTo toNode c.outgoing) a (c.offset (edgeTo toNode c.outgoing))
      (((0, 0) : run_type) :: c.runsList)
      (RIter.init c.runsList (c.offset (edgeTo toNode c.outgoing))
        (edgeTo toNode c.outgoing))
      (RInv_init _ _ a c.runsList)
  have hinv2 := RInv_mono _ _ a (b + 1) _ _ hinv1 (by omega)
  obtain ⟨hv2, hinv2x, hexit2⟩ :=
    rankAt_run (edgeTo toNode c.outgoing) (b + 1) (c.offset (edgeTo toNode c.outgoing))
      (((0, 0) : run_type) :: c.runsList) _ hinv2
  generalize hP : RIter.rankAt (edgeTo toNode c.outgoing) a
      (RIter.init c.runsList (c.offset (edgeTo toNode c.outgoing))
        (edgeTo toNode c.outgoing)) = P
  rw [hP] at hv1 hinv1 hexit1 hv2 hexit2
  obtain ⟨sp, st1⟩ := P
  dsimp only at hv1 hinv1 hexit1 hv2 hexit2 ⊢
  have hend1 : st1.isEnd = true → st1.rem = [] := hinv1.1
  obtain ⟨H, hoff, hres, hlist, hHle⟩ := hinv1.2
  dsimp only at hoff hres hlist hHle
  rw [hoff]
  generalize hRR : (if edgeTo (Node.reverse toNode) c.outgoing ≥ c.outdegree
      then edgeTo toNode c.outgoing
      else if ¬ Node.is_reverse toNode = true
      then edgeTo (Node.reverse toNode) c.outgoing + 1
      else edgeTo (Node.reverse toNode) c.outgoing) = RR
  have hstr_ro : (if st1.run.1 < RR ∧ st1.run.1 ≠ edgeTo toNode c.outgoing
        then sumLen H + st1.run.2 - a else 0)
      = ((flatRanks (H ++ [st1.run])).drop a).countP
          (fun x => decide (x < RR) && ! (x == edgeTo toNode c.outgoing)) := by
    rw [straddle_eq (fun x => decide (x < RR) && ! (x == edgeTo toNode c.outgoing))
      H st1.run a hHle]
    by_cases h1 : st1.run.1 < RR <;>
      by_cases h2 : st1.run.1 = edgeTo toNode c.outgoing <;> simp [h1, h2]
  rw [hstr_ro]
  have hbG : b + 1 ≤ sumLen (((0, 0) : run_type) :: c.runsList) := by
    rw [sumLen_cons]
    omega
  have hfst := bdLoop_fst (edgeTo toNode c.outgoing) RR (b + 1)
    (st1.rem.length + 1) st1
    (((flatRanks (H ++ [st1.run])).drop a).countP
      (fun x => decide (x < RR) && ! (x == edgeTo toNode c.outgoing)))
  obtain ⟨H', q1, q2, q3, q4, q5⟩ :=
    bdLoop_run (edgeTo toNode c.outgoing) RR (b + 1) a
      (((0, 0) : run_type) :: c.runsList) hbG (st1.rem.length + 1) st1 H
      (Nat.lt_succ_self _) hlist hoff hend1 hexit1 (by omega)
  generalize hQ : CompressedRecord.bdLoop (edgeTo toNode c.outgoing) RR (b + 1)
      (st1.rem.length + 1) st1
      (((flatRanks (H ++ [st1.run])).drop a).countP
        (fun x => decide (x < RR) && ! (x == edgeTo toNode c.outgoing))) = Q
  rw [hQ] at q1 q2 q3 q5 hfst
  obtain ⟨st2, roV⟩ := Q
  dsimp only at q1 q2 q3 q5 hfst ⊢
  have hfin : (RIter.rankAt (edgeTo toNode c.outgoing) (b + 1) st1).2
      = RIter.rankAtLoop (edgeTo toNode c.outgoing) (b + 1) (st1.rem.length + 1) st1 := by
    rw [RIter.rankAt]
  have hst2 : st2 = (RIter.rankAt (edgeTo toNode c.outgoing) (b + 1) st1).2 := by
    rw [hfin, hfst]
  have hchain : (RIter.rankAt (edgeTo toNode c.outgoing) (b + 1) st2).1
      = (RIter.rankAt (edgeTo toNode c.outgoing) (b + 1) st1).1 := by
    rw [rankAt_stall (edgeTo toNode c.outgoing) (b + 1) st2 q5]
    conv_rhs => rw [RIter.rankAt]
    rw [← hfin, ← hst2]
  rw [hchain, hv2, q1, q3]
  have hq5 : b + 1 ≤ sumLen H' + st2.run.2 ∨ st2.rem = [] := by
    rcases q5 with h | h
    · rw [q3] at h
      exact Or.inl h
    · exact Or.inr h
  have hsl : ((flatRanks (H' ++ [st2.run])).drop a).countP
        (fun x => decide (x < RR) && ! (x == edgeTo toNode c.outgoing))
      - (if st2.run.1 < RR ∧ st2.run.1 ≠ edgeTo toNode c.outgoing
         then sumLen H' + st2.run.2 - (b + 1) else 0)
      = wslice (fun x => decide (x < RR) && ! (x == edgeTo toNode c.outgoing))
          (((0, 0) : run_type) :: c.runsList) a (b + 1) := by
    rw [show (if st2.run.1 < RR ∧ st2.run.1 ≠ edgeTo toNode c.outgoing
          then sumLen H' + st2.run.2 - (b + 1) else 0)
        = (if ((fun x => decide (x < RR) && ! (x == edgeTo toNode c.outgoing)) st2.run.1) = true
          then sumLen H' + st2.run.2 - (b + 1) else 0) from by
      by_cases h1 : st2.run.1 < RR <;>
        by_cases h2 : st2.run.1 = edgeTo toNode c.outgoing <;> simp [h1, h2]]
    exact slice_correct _ _ H' st2.run st2.rem a (b + 1) q2 q4 (by omega) hq5
  rw [hsl]
  simp only [Prod.mk.injEq]
  refine ⟨⟨?_, ?_⟩, ?_⟩
  · rw [hv1, wcnt_cons_zero]
  · rw [wcnt_cons_zero]
  · simp only [wslice, flatRanks_cons_zero]


/-- C4: for a well-formed record, a non-empty range within the record,
and a target `to` among the record's successors, `bdLF(range, to,
reverse_offset)` returns the same forward range as `LF(range, to)` and
sets `reverse_offset` to the number of positions `j` in the range with
`Node::reverse(r[j]) < Node::reverse(to)`; the same holds for
`CompressedRecord::bdLF`. -/
theorem claim_C4 :
    (∀ (r : DynamicRecord) (a b : Nat) (toNode : node_type) (ro : Nat), r.wf →
      Range.isEmpty (a, b) = false → b < r.size →
      toNode ∈ r.outgoing.map Prod.fst →
      r.bdLF (a, b) toNode ro =
        (r.LFRange (a, b) toNode,
         (List.range' a (b + 1 - a)).countP
           (fun j => decide (Node.reverse (r.getAt j) < Node.reverse toNode))))
  ∧ (∀ (c : CompressedRecord) (a b : Nat) (toNode : node_type) (ro : Nat), c.wf →
      Range.isEmpty (a, b) = false → b < c.size →
      toNode ∈ c.outgoing.map Prod.fst →
      c.bdLF (a, b) toNode ro =
        (c.LFRange (a, b) toNode,
         (List.range' a (b + 1 - a)).countP
           (fun j => decide (Node.reverse (c.getAt j) < Node.reverse toNode)))) := by
  constructor
  · intro r a b toNode ro hwf hne hub hm
    obtain ⟨hs, hrk, hsize, _, _⟩ := hwf
    obtain ⟨k, hk, hkv⟩ := mem_fst_index hm
    have hedge : edgeTo toNode r.outgoing = k := edgeTo_hit toNode r.outgoing hs k hk hkv
    have hK : edgeTo toNode r.outgoing < r.outdegree := by
      rw [hedge]
      exact hk
    have hab : a ≤ b := by
      rw [Range.isEmpty] at hne
      simpa using hne
    have hsz : r.size = sumLen r.body := by
      rw [DynamicRecord.size, hsize]
    rw [bdLF_val_dyn r a b toNode ro hs hne hK,
      DynamicRecord.LFRange_val r a b toNode hne hK]
    simp only [Prod.mk.injEq, true_and, and_true, eq_self_iff_true]
    have htrans : (List.range' a (b + 1 - a)).countP
        (fun j => decide (Node.reverse (r.getAt j) < Node.reverse toNode))
        = (((flatRanks r.body).drop a).take (b + 1 - a)).countP
            (fun x => decide (Node.reverse ((r.outgoing.getD x (0, 0)).1) <
              Node.reverse toNode)) := by
      rw [← count_slice_translate a (b + 1 - a) (flatRanks r.body)
        (by rw [length_flatRanks]; omega)
        (fun x => decide (Node.reverse ((r.outgoing.getD x (0, 0)).1) <
          Node.reverse toNode))]
      apply List.countP_congr
      intro j hj
      obtain ⟨hj1, hj2⟩ := List.mem_range'_1.mp hj
      rw [getAt_spec r hsize j (by omega)]
    rw [htrans]
    symm
    apply List.countP_congr
    intro x hxS
    have hxlt : x < r.outgoing.length := by
      have hx1 : x ∈ flatRanks r.body :=
        List.mem_of_mem_drop (List.mem_of_mem_take hxS)
      obtain ⟨run, hrun, hrx⟩ := mem_flatRanks r.body x hx1
      rw [← hrx]
      exact (hrk run hrun).1
    simp only [decide_eq_true_eq, Bool.and_eq_true, Bool.not_eq_true',
      beq_eq_false_iff_ne]
    by_cases hA : edgeTo (Node.reverse toNode) r.outgoing ≥ r.outdegree
    · rw [if_pos hA]
      have hmiss : ∀ e ∈ r.outgoing, e.1 ≠ Node.reverse toNode :=
        edgeTo_ge_not_mem _ _ hs hA
      exact bd_rev_case_A r.outgoing toNode hs (edgeTo toNode r.outgoing) hK
        (edgeTo_lt_getD toNode r.outgoing hK) hmiss x hxlt
    · have hA2 : edgeTo (Node.reverse toNode) r.outgoing < r.outdegree :=
        Nat.lt_of_not_le hA
      rw [if_neg hA]
      have hrv := edgeTo_lt_getD (Node.reverse toNode) r.outgoing hA2
      by_cases hrev : Node.is_reverse toNode = true
      · rw [if_neg (not_not_intro hrev)]
        have hodd := (is_reverse_iff toNode).mp hrev
        exact bd_rev_case_C r.outgoing toNode hs _ hK
          (edgeTo_lt_getD toNode r.outgoing hK) _ hA2 hrv hodd x hxlt
      · rw [if_pos hrev]
        have heven : toNode % 2 = 0 := by
          rcases Nat.mod_two_eq_zero_or_one toNode with h | h
          · exact h
          · exact absurd ((is_reverse_iff toNode).mpr h) hrev
        exact bd_rev_case_B r.outgoing toNode hs _ hK
          (edgeTo_lt_getD toNode r.outgoing hK) _ hA2 hrv heven x hxlt
  · intro c a b toNode ro hwf hne hub hm
    obtain ⟨hs, hrk⟩ := hwf
    obtain ⟨k, hk, hkv⟩ := mem_fst_index hm
    have hedge : edgeTo toNode c.outgoing = k := edgeTo_hit toNode c.outgoing hs k hk hkv
    have hK : edgeTo toNode c.outgoing < c.outdegree := by
      rw [hedge]
      exact hk
    have hdeg : 0 < c.outdegree := by
      rw [CompressedRecord.outdegree]
      omega
    have hab : a ≤ b := by
      rw [Range.isEmpty] at hne
      simpa using hne
    have hszeq : c.size = sumLen c.runsList := by
      rw [CompressedRecord.size, if_pos hdeg]
    rw [hszeq] at hub
    rw [bdLF_val_comp c a b toNode ro hs hne hub hK,
      CompressedRecord.LFRange_val_c c a b toNode hne hK]
    simp only [Prod.mk.injEq, true_and, and_true, eq_self_iff_true]
    have htrans : (List.range' a (b + 1 - a)).countP
        (fun j => decide (Node.reverse (c.getAt j) < Node.reverse toNode))
        = (((flatRanks c.runsList).drop a).take (b + 1 - a)).countP
            (fun x => decide (Node.reverse ((c.outgoing.getD x (0, 0)).1) <
              Node.reverse toNode)) := by
      rw [← count_slice_translate a (b + 1 - a) (flatRanks c.runsList)
        (by rw [length_flatRanks]; omega)
        (fun x => decide (Node.reverse ((c.outgoing.getD x (0, 0)).1) <
          Node.reverse toNode))]
      apply List.countP_congr
      intro j hj
      obtain ⟨hj1, hj2⟩ := List.mem_range'_1.mp hj
      rw [CompressedRecord.getAt_spec_c c hdeg j (by omega)]
    rw [htrans]
    symm
    apply List.countP_congr
    intro x hxS
    have hxlt : x < c.outgoing.length := by
      have hx1 : x ∈ flatRanks c.runsList :=
        List.mem_of_mem_drop (List.mem_of_mem_take hxS)
      obtain ⟨run, hrun, hrx⟩ := mem_flatRanks c.runsList x hx1
      rw [← hrx]
      exact (hrk run hrun).1
    simp only [decide_eq_true_eq, Bool.and_eq_true, Bool.not_eq_true',
      beq_eq_false_iff_ne]
    by_cases hA : edgeTo (Node.reverse toNode) c.outgoing ≥ c.outdegree
    · rw [if_pos hA]
      have hmiss : ∀ e ∈ c.outgoing, e.1 ≠ Node.reverse toNode :=
        edgeTo_ge_not_mem _ _ hs hA
      exact bd_rev_case_A c.outgoing toNode hs (edgeTo toNode c.outgoing) hK
        (edgeTo_lt_getD toNode c.outgoing hK) hmiss x hxlt
    · have hA2 : edgeTo (Node.reverse toNode) c.outgoing < c.outdegree :=
        Nat.lt_of_not_le hA
      rw [if_neg hA]
      have hrv := edgeTo_lt_getD (Node.reverse toNode) c.outgoing hA2
      by_cases hrev : Node.is_reverse toNode = true
      · rw [if_neg (not_not_intro hrev)]
        have hodd := (is_reverse_iff toNode).mp hrev
        exact bd_rev_case_C c.outgoing toNode hs _ hK
          (edgeTo_lt_getD toNode c.outgoing hK) _ hA2 hrv hodd x hxlt
      · rw [if_pos hrev]
        have heven : toNode % 2 = 0 := by
          rcases Nat.mod_two_eq_zero_or_one toNode with h | h
          · exact h
          · exact absurd ((is_reverse_iff toNode).mpr h) hrev
        exact bd_rev_case_B c.outgoing toNode hs _ hK
          (edgeTo_lt_getD toNode c.outgoing hK) _ hA2 hrv heven x hxlt


theorem claim_C4_witness :
    (DynamicRecord.wf exR ∧ Range.isEmpty (1, 3) = false ∧ 3 < exR.size ∧
      (4 : node_type) ∈ exR.outgoing.map Prod.fst ∧
      exR.bdLF (1, 3) 4 0 =
        (exR.LFRange (1, 3) 4,
         (List.range' 1 (3 + 1 - 1)).countP
           (fun j => decide (Node.reverse (exR.getAt j) < Node.reverse 4))))
  ∧ (CompressedRecord.wf exC ∧ Range.isEmpty (1, 3) = false ∧ 3 < exC.size ∧
      (4 : node_type) ∈ exC.outgoing.map Prod.fst ∧
      exC.bdLF (1, 3) 4 0 =
        (exC.LFRange (1, 3) 4,
         (List.range' 1 (3 + 1 - 1)).countP
           (fun j => decide (Node.reverse (exC.getAt j) < Node.reverse 4)))) :=
  ⟨⟨by decide, by decide, by decide, by decide,
    claim_C4.1 exR 1 3 4 0 (by decide) (by decide) (by decide) (by decide)⟩,
   ⟨by decide, by decide, by decide, by decide,
    claim_C4.2 exC 1 3 4 0 (by decide) (by decide) (by decide) (by decide)⟩⟩


/-! ### RecordArray and the merge of endmarker records (claim C5) -/

/-- `RecordArray`: record count, per-record starting offsets into the
byte data, and the byte data itself.  The `sd_vector` index is modelled
by the offset list (spec §6). -/
structure RecordArray where
  records : Nat
  offsets : List Nat
  data : List byte_type
deriving DecidableEq, Repr

namespace RecordArray

/-- `empty()`. Modelled from the spec (§6): an array with no records. -/
def emptyRA (ra : RecordArray) : Bool := decide (ra.records = 0)

/-- `start(comp)`. Modelled from the spec (§6): select on the offset
index. -/
def start (ra : RecordArray) (comp : Nat) : Nat := ra.offsets.getD comp 0

/-- `limit(comp)`. Modelled from the spec (§6): the next record's start,
or the end of the data. -/
def limit (ra : RecordArray) (comp : Nat) : Nat :=
  if comp + 1 < ra.records then ra.offsets.getD (comp + 1) 0 else ra.data.length

/-- The byte slice `data[start(ENDMARKER)..limit(ENDMARKER))`. -/
def emSlice (ra : RecordArray) : List byte_type :=
  (ra.data.take (ra.limit ENDMARKER)).drop (ra.start ENDMARKER)

/-- The endmarker record of a source, as parsed by the `CompressedRecord`
constructor (src/support.cpp:412-425); an unparseable slice yields the
empty record. -/
def emRecordOf (ra : RecordArray) : CompressedRecord :=
  match CompressedRecord.parse (emSlice ra) with
  | some c => c
  | none => ⟨[], []⟩

/-- `RecordArray(const std::vector<DynamicRecord>&)` (src/support.cpp:677-689)
applied to a single record. -/
def fromRecord (r : DynamicRecord) : RecordArray := ⟨1, [0], r.writeBWT⟩

/-- One source's contribution in the endmarker merge loop
(src/support.cpp:699-716): skip empty sources, shift the runs by the
accumulated outdegree, append them and the outgoing edges. -/
def mergeStep (acc : DynamicRecord) (ra : RecordArray) : DynamicRecord :=
  if ra.emptyRA then acc
  else
    let er := emRecordOf ra
    let shifted := er.runsList.map fun run => (run.1 + acc.outdegree, run.2)
    { acc with body := acc.body ++ shifted,
               body_size := acc.body_size + sumLen shifted,
               outgoing := acc.outgoing ++ er.outgoing }

/-- The endmarker part of the `RecordArray` merge constructor
(src/support.cpp:697-719): fold the sources and `recode` the result. -/
def mergeEndmarker (sources : List RecordArray) : DynamicRecord :=
  (sources.foldl mergeStep ⟨[], [], [], 0, []⟩).recode

end RecordArray

theorem sumLen_map_shift (f : Nat → Nat) (l : List run_type) :
    sumLen (l.map fun run => (f run.1, run.2)) = sumLen l := by
  rw [sumLen, sumLen, List.map_map]
  rfl

/-- A single-record array's endmarker parses back to the record. -/
theorem emRecordOf_fromRecord (r : DynamicRecord)
    (hs : r.outgoing.Pairwise (fun a b => a.1 < b.1))
    (hrk : ∀ run ∈ r.body, run.1 < r.outdegree ∧ 0 < run.2) :
    (RecordArray.emRecordOf (RecordArray.fromRecord r)).outgoing = r.outgoing ∧
    (RecordArray.emRecordOf (RecordArray.fromRecord r)).runsList = r.body := by
  have hsl : RecordArray.emSlice (RecordArray.fromRecord r) = r.writeBWT := by
    simp [RecordArray.emSlice, RecordArray.limit, RecordArray.start,
      RecordArray.fromRecord, ENDMARKER]
  rw [RecordArray.emRecordOf, hsl, parse_writeBWT r hs]
  dsimp only
  constructor
  · rfl
  · exact runsList_writeBWT r hrk


/-- The concrete endmarker records of the claim's merge scenario. -/
def exM0 : DynamicRecord := ⟨[], [(1, 0)], [(0, 3)], 3, []⟩

def exM1 : DynamicRecord := ⟨[], [(2, 0)], [(0, 2)], 2, []⟩

/-- C5 (corrected): the merge constructor concatenates the sources'
endmarker bodies with ranks shifted by the accumulated outdegree,
appends their outgoing edges unchanged, and recodes; on the claim's
concrete two sources the merged endmarker is
`outgoing = [(1,0),(2,0)]`, `body = [(0,3),(1,2)]`, `body_size = 5` —
the outgoing offsets are NOT recomputed, so `outgoing ≠ [(1,0),(2,3)]`. -/
theorem claim_C5 :
    (∀ (r0 r1 : DynamicRecord), r0.wf → r1.wf →
      RecordArray.mergeEndmarker [RecordArray.fromRecord r0, RecordArray.fromRecord r1] =
        DynamicRecord.recode
          ⟨[], r0.outgoing ++ r1.outgoing,
            r0.body ++ r1.body.map (fun run => (run.1 + r0.outdegree, run.2)),
            r0.body_size + r1.body_size, []⟩)
  ∧ RecordArray.mergeEndmarker [RecordArray.fromRecord exM0, RecordArray.fromRecord exM1] =
      ⟨[], [(1, 0), (2, 0)], [(0, 3), (1, 2)], 5, []⟩ := by
  constructor
  · intro r0 r1 hwf0 hwf1
    obtain ⟨hs0, hrk0, hsz0, _, _⟩ := hwf0
    obtain ⟨hs1, hrk1, hsz1, _, _⟩ := hwf1
    have h0 := emRecordOf_fromRecord r0 hs0 hrk0
    have h1 := emRecordOf_fromRecord r1 hs1 hrk1
    have hstep0 : RecordArray.mergeStep ⟨[], [], [], 0, []⟩ (RecordArray.fromRecord r0) =
        ⟨[], r0.outgoing, r0.body, sumLen r0.body, []⟩ := by
      rw [RecordArray.mergeStep,
        if_neg (by simp [RecordArray.emptyRA, RecordArray.fromRecord])]
      dsimp only
      rw [h0.1, h0.2]
      simp [DynamicRecord.outdegree, sumLen_map_shift]
    have hstep1 : RecordArray.mergeStep ⟨[], r0.outgoing, r0.body, sumLen r0.body, []⟩
        (RecordArray.fromRecord r1) =
        ⟨[], r0.outgoing ++ r1.outgoing,
          r0.body ++ r1.body.map (fun run => (run.1 + r0.outdegree, run.2)),
          sumLen r0.body + sumLen r1.body, []⟩ := by
      rw [RecordArray.mergeStep,
        if_neg (by simp [RecordArray.emptyRA, RecordArray.fromRecord])]
      dsimp only
      rw [h1.1, h1.2]
      simp only [DynamicRecord.outdegree]
      rw [sumLen_map_shift (fun x => x + r0.outgoing.length) r1.body]
    rw [RecordArray.mergeEndmarker]
    simp only [List.foldl]
    rw [hstep0, hstep1, ← hsz0, ← hsz1]
  · decide

theorem claim_C5_counterexample :
    (RecordArray.mergeEndmarker
      [RecordArray.fromRecord exM0, RecordArray.fromRecord exM1]).outgoing
      ≠ [(1, 0), (2, 3)] := by decide

theorem claim_C5_witness :
    DynamicRecord.wf exM0 ∧ DynamicRecord.wf exM1 ∧
    RecordArray.mergeEndmarker [RecordArray.fromRecord exM0, RecordArray.fromRecord exM1] =
      DynamicRecord.recode
        ⟨[], exM0.outgoing ++ exM1.outgoing,
          exM0.body ++ exM1.body.map (fun run => (run.1 + exM0.outdegree, run.2)),
          exM0.body_size + exM1.body_size, []⟩ :=
  ⟨by decide, by decide, claim_C5.1 exM0 exM1 (by decide) (by decide)⟩


/-! ### DASamples (claim C6) -/

theorem countP_or_disjoint (l : List Nat) (p q : Nat → Bool)
    (h : ∀ x ∈ l, ¬(p x = true ∧ q x = true)) :
    l.countP (fun x => p x || q x) = l.countP p + l.countP q := by
  induction l with
  | nil => simp
  | cons x tl ih =>
    have hx := h x (by simp)
    have ih2 := ih (fun y hy => h y (by simp [hy]))
    rw [List.countP_cons, List.countP_cons, List.countP_cons, ih2]
    by_cases hp : p x = true
    · have hq : ¬ q x = true := fun hq => hx ⟨hp, hq⟩
      simp [hp, hq]
      omega
    · by_cases hq : q x = true <;> simp [hp, hq] <;> omega

theorem countP_range_single (v n : Nat) :
    (List.range n).countP (fun j => decide (v = j)) = if v < n then 1 else 0 := by
  induction n with
  | zero => simp
  | succ m ih =>
    rw [List.range_succ, List.countP_append, ih]
    by_cases hv : v = m
    · rw [if_neg (by omega), if_pos (by omega)]
      simp [hv]
    · by_cases hvm : v < m
      · rw [if_pos hvm, if_pos (by omega)]
        simp [hv]
      · rw [if_neg hvm, if_neg (by omega)]
        simp [hv]

/-- Counting flagged positions below `m` equals counting samples with
offset below `m`, for samples with pairwise increasing offsets. -/
theorem countP_range_any (ids : List sample_type)
    (hs : ids.Pairwise (fun a b => a.1 < b.1)) (m : Nat) :
    (List.range m).countP (fun j => ids.any (fun s => s.1 = j)) =
      ids.countP (fun s => decide (s.1 < m)) := by
  induction ids with
  | nil => simp
  | cons s tl ih =>
    have hlt : ∀ t ∈ tl, s.1 < t.1 := (List.pairwise_cons.mp hs).1
    have ih2 := ih (List.pairwise_cons.mp hs).2
    have hdisj : ∀ j ∈ List.range m,
        ¬((decide (s.1 = j)) = true ∧ (tl.any (fun t => t.1 = j)) = true) := by
      intro j _ ⟨h1, h2⟩
      obtain ⟨t, ht, htj⟩ := List.any_eq_true.mp h2
      have h1v : s.1 = j := of_decide_eq_true h1
      have htv : t.1 = j := of_decide_eq_true htj
      have := hlt t ht
      omega
    have hstep : (List.range m).countP (fun j => (s :: tl).any (fun t => t.1 = j)) =
        (List.range m).countP (fun j => decide (s.1 = j) || tl.any (fun t => t.1 = j)) := by
      apply List.countP_congr
      intro j _
      simp [List.any_cons]
    rw [hstep, countP_or_disjoint _ _ _ hdisj, countP_range_single, ih2,
      List.countP_cons]
    by_cases hsm : s.1 < m <;> simp [hsm] <;> omega

/-- The per-record flag block of the `DASamples` offset bitvector:
position `j` is set when some sample sits at offset `j`
(src/support.cpp:880-884). -/
def blockFlags (r : DynamicRecord) : List Bool :=
  (List.range r.size).map (fun j => r.ids.any (fun s => s.1 = j))

theorem blockFlags_length (r : DynamicRecord) : (blockFlags r).length = r.size := by
  rw [blockFlags]
  simp

theorem blockFlags_getD (r : DynamicRecord) (j : Nat) (hj : j < r.size) :
    (blockFlags r).getD j false = r.ids.any (fun s => s.1 = j) := by
  rw [blockFlags, List.getD_eq_getElem _ _ (by simp [hj])]
  simp

theorem blockFlags_take_count (r : DynamicRecord) (off : Nat) (hoff : off ≤ r.size)
    (hs : r.ids.Pairwise (fun a b => a.1 < b.1)) :
    ((blockFlags r).take off).countP (fun b => b) =
      r.ids.countP (fun s => decide (s.1 < off)) := by
  rw [blockFlags, ← List.map_take, List.take_range,
    show min off r.size = off from Nat.min_eq_left hoff, List.countP_map]
  rw [← countP_range_any r.ids hs off]
  apply List.countP_congr
  intro j _
  simp [Function.comp]

theorem blockFlags_count (r : DynamicRecord) (hs : r.ids.Pairwise (fun a b => a.1 < b.1))
    (hin : ∀ s ∈ r.ids, s.1 < r.size) :
    (blockFlags r).countP (fun b => b) = r.ids.length := by
  have h := blockFlags_take_count r r.size le_rfl hs
  rw [List.take_of_length_le (by rw [blockFlags_length])] at h
  rw [h]
  rw [List.countP_eq_length]
  intro s hsmem
  simp [hin s hsmem]

/-- The sorted sample values: the sample at offset `off` sits at index
`#(samples with smaller offset)` of the value array. -/
theorem getD_map_snd_sorted (ids : List sample_type)
    (hs : ids.Pairwise (fun a b => a.1 < b.1)) (off v : Nat)
    (hmem : (off, v) ∈ ids) :
    (ids.map Prod.snd).getD (ids.countP (fun s => decide (s.1 < off))) 0 = v := by
  induction ids with
  | nil => simp at hmem
  | cons s tl ih =>
    have hlt : ∀ t ∈ tl, s.1 < t.1 := (List.pairwise_cons.mp hs).1
    rw [List.countP_cons]
    rcases List.mem_cons.mp hmem with hh | hh
    · have hs1 : s.1 = off := by rw [← hh]
      have htl0 : tl.countP (fun s => decide (s.1 < off)) = 0 := by
        rw [List.countP_eq_zero]
        intro t ht
        have := hlt t ht
        simp only [decide_eq_true_eq]
        omega
      rw [htl0]
      rw [if_neg (by simp only [decide_eq_true_eq]; omega)]
      rw [← hh]
      simp
    · have hoffgt : s.1 < off := by
        have : s.1 < (off, v).1 := hlt _ hh
        simpa using this
      rw [if_pos (by simp only [decide_eq_true_eq]; exact hoffgt)]
      have hih := ih (List.pairwise_cons.mp hs).2 hh
      rw [List.map_cons, List.getD_cons_succ]
      exact hih


/-- The offset bitvector of `DASamples` (src/support.cpp:872-888):
concatenation of the sampled records' flag blocks. -/
def buildFlags : List DynamicRecord → List Bool
  | [] => []
  | r :: rest => (if 0 < r.samples then blockFlags r else []) ++ buildFlags rest

/-- The set positions of `bwt_ranges` (src/support.cpp:876-887): one
block start per sampled record, accumulating the sampled sizes. -/
def buildStarts : List DynamicRecord → Nat → List Nat
  | [], _ => []
  | r :: rest, off =>
    if 0 < r.samples then off :: buildStarts rest (off + r.size)
    else buildStarts rest off

/-- The sample value array (src/support.cpp:895-903). -/
def buildArray : List DynamicRecord → List Nat
  | [] => []
  | r :: rest => (if 0 < r.samples then r.ids.map Prod.snd else []) ++ buildArray rest

/-- `DASamples`: the sampled-record bitvector, the block starts of the
ranges bitvector, the sampled-offset bitvector and the value array. -/
structure DASamples where
  sampled_records : List Bool
  bwt_ranges : List Nat
  sampled_offsets : List Bool
  array : List Nat
deriving DecidableEq, Repr

namespace DASamples

/-- `DASamples(const std::vector<DynamicRecord>&)` (src/support.cpp:857-904). -/
def build (bwt : List DynamicRecord) : DASamples :=
  ⟨bwt.map (fun r => decide (0 < r.samples)), buildStarts bwt 0,
   buildFlags bwt, buildArray bwt⟩

/-- `isSampled(record)`.  Modelled from the spec (§6): the bitvector
lookup. -/
def isSampled (d : DASamples) (record : Nat) : Bool :=
  d.sampled_records.getD record false

/-- `record_rank(record)`.  Modelled from the spec (§6): rank over the
sampled-record bitvector. -/
def record_rank (d : DASamples) (record : Nat) : Nat :=
  (d.sampled_records.take record).countP (fun b => b)

/-- `start(record)`.  Modelled from the spec (§6): select of the
`record_rank(record) + 1`-st set bit of `bwt_ranges`. -/
def startDA (d : DASamples) (record : Nat) : Nat :=
  d.bwt_ranges.getD (d.record_rank record) 0

/-- `sample_rank(pos)`.  Modelled from the spec (§6): rank over the
sampled-offset bitvector. -/
def sample_rank (d : DASamples) (pos : Nat) : Nat :=
  (d.sampled_offsets.take pos).countP (fun b => b)

/-- `tryLocate(record, offset)` (src/support.cpp:1111-1122). -/
def tryLocate (d : DASamples) (record offset : Nat) : size_type :=
  if ¬ d.isSampled record then invalid_sequence
  else if d.sampled_offsets.getD (d.startDA record + offset) false
  then d.array.getD (d.sample_rank (d.startDA record + offset)) 0
  else invalid_sequence

end DASamples

theorem buildStarts_shift (l : List DynamicRecord) :
    ∀ a, buildStarts l a = (buildStarts l 0).map (a + .) := by
  induction l with
  | nil => intro a; rfl
  | cons r rest ih =>
    intro a
    rw [buildStarts, buildStarts]
    by_cases hr : 0 < r.samples
    · rw [if_pos hr, if_pos hr, List.map_cons, ih (a + r.size), ih (0 + r.size),
        List.map_map]
      refine congrArg (fun t => _ :: t) ?_
      apply List.map_congr_left
      intro x _
      simp [Function.comp]
      omega
    · rw [if_neg hr, if_neg hr, ih a]

/-- A set bit inside the prefix keeps the prefix rank below the total
count. -/
theorem countP_take_lt_of_flag (l : List Bool) (i : Nat) (hi : i < l.length)
    (hflag : l.getD i false = true) :
    (l.take i).countP (fun b => b) < l.countP (fun b => b) := by
  conv_rhs => rw [← List.take_append_drop i l]
  rw [List.countP_append]
  have hdrop : 0 < (l.drop i).countP (fun b => b) := by
    have hcons : l.drop i = l[i] :: l.drop (i + 1) := (List.drop_eq_getElem_cons hi).symm ▸ rfl
    rw [List.getD_eq_getElem _ _ hi] at hflag
    rw [hcons, List.countP_cons]
    simp [hflag]
  omega


theorem getD_map_nat (f : Nat → Nat) (l : List Nat) (k : Nat) (hk : k < l.length) :
    (l.map f).getD k 0 = f (l.getD k 0) := by
  rw [List.getD_eq_getElem _ _ (by simpa using hk), List.getD_eq_getElem _ _ hk,
    List.getElem_map]

theorem buildStarts_length : ∀ (l : List DynamicRecord) (off : Nat),
    (buildStarts l off).length =
      (l.map fun r => decide (0 < r.samples)).countP (fun b => b) := by
  intro l
  induction l with
  | nil => intro off; rfl
  | cons r rest ih =>
    intro off
    rw [buildStarts, List.map_cons, List.countP_cons]
    by_cases hr : 0 < r.samples
    · rw [if_pos hr, List.length_cons, ih (off + r.size)]
      simp [hr]
    · rw [if_neg hr, ih off]
      simp [hr]

/-- Locating inside the tail of the record list ignores the head
record. -/
theorem tryLocate_cons (r : DynamicRecord) (rest : List DynamicRecord)
    (hs : r.ids.Pairwise (fun a b => a.1 < b.1))
    (hin : ∀ s ∈ r.ids, s.1 < r.size) (i off : Nat) :
    (DASamples.build (r :: rest)).tryLocate (i + 1) off =
      (DASamples.build rest).tryLocate i off := by
  have hisamp : (DASamples.build (r :: rest)).isSampled (i + 1) =
      (DASamples.build rest).isSampled i := by
    rw [DASamples.isSampled, DASamples.isSampled]
    dsimp only [DASamples.build]
    rw [List.map_cons, List.getD_cons_succ]
  rw [DASamples.tryLocate, DASamples.tryLocate, hisamp]
  by_cases hsam : (DASamples.build rest).isSampled i = true
  · rw [if_neg (not_not_intro hsam), if_neg (not_not_intro hsam)]
    have hi : i < rest.length := by
      by_contra hcon
      have hfalse : (DASamples.build rest).isSampled i = false := by
        rw [DASamples.isSampled]
        dsimp only [DASamples.build]
        rw [List.getD_eq_default]
        simpa using Nat.le_of_not_lt hcon
      rw [hfalse] at hsam
      exact absurd hsam (by simp)
    have hrank1 : (DASamples.build (r :: rest)).record_rank (i + 1) =
        (if 0 < r.samples then 1 else 0) + (DASamples.build rest).record_rank i := by
      rw [DASamples.record_rank, DASamples.record_rank]
      dsimp only [DASamples.build]
      rw [List.map_cons, List.take_succ_cons, List.countP_cons]
      by_cases hr : 0 < r.samples <;> simp [hr] <;> omega
    have hso2 : (DASamples.build rest).sampled_offsets = buildFlags rest := rfl
    have har2 : (DASamples.build rest).array = buildArray rest := rfl
    have hbr2 : (DASamples.build rest).bwt_ranges = buildStarts rest 0 := rfl
    by_cases hr : 0 < r.samples
    · have hrankb : (DASamples.build rest).record_rank i <
          (buildStarts rest 0).length := by
        rw [buildStarts_length]
        apply countP_take_lt_of_flag _ i (by simpa [DASamples.build] using hi)
        simpa [DASamples.isSampled, DASamples.build] using hsam
      have hbr : (DASamples.build (r :: rest)).bwt_ranges =
          0 :: (buildStarts rest 0).map (r.size + .) := by
        dsimp only [DASamples.build]
        rw [buildStarts, if_pos hr, Nat.zero_add, buildStarts_shift rest r.size]
      have hso : (DASamples.build (r :: rest)).sampled_offsets =
          blockFlags r ++ buildFlags rest := by
        dsimp only [DASamples.build]
        rw [buildFlags, if_pos hr]
      have har : (DASamples.build (r :: rest)).array =
          r.ids.map Prod.snd ++ buildArray rest := by
        dsimp only [DASamples.build]
        rw [buildArray, if_pos hr]
      have hsz : (blockFlags r).length = r.size := blockFlags_length r
      have hstart : (DASamples.build (r :: rest)).startDA (i + 1) =
          r.size + (DASamples.build rest).startDA i := by
        rw [DASamples.startDA, DASamples.startDA, hrank1, if_pos hr, hbr, hbr2]
        rw [Nat.add_comm 1 _, List.getD_cons_succ]
        rw [getD_map_nat _ _ _ hrankb]
      have hflag : ∀ pos, (DASamples.build (r :: rest)).sampled_offsets.getD
          (r.size + pos) false =
          (DASamples.build rest).sampled_offsets.getD pos false := by
        intro pos
        rw [hso, hso2]
        rw [List.getD_append_right _ _ _ _ (by rw [hsz]; omega)]
        congr 1
        rw [hsz]
        omega
      have hsrank : ∀ pos, (DASamples.build (r :: rest)).sample_rank (r.size + pos) =
          r.ids.length + (DASamples.build rest).sample_rank pos := by
        intro pos
        rw [DASamples.sample_rank, DASamples.sample_rank, hso, hso2]
        rw [List.take_append_eq_append_take, List.countP_append]
        rw [List.take_of_length_le (by rw [hsz]; omega)]
        rw [blockFlags_count r hs hin]
        have harg : r.size + pos - (blockFlags r).length = pos := by
          rw [hsz]
          omega
        rw [harg]
      have harr : ∀ k, (DASamples.build (r :: rest)).array.getD (r.ids.length + k) 0 =
          (DASamples.build rest).array.getD k 0 := by
        intro k
        rw [har, har2]
        rw [List.getD_append_right _ _ _ _ (by simp)]
        congr 1
        simp
      rw [hstart, Nat.add_assoc r.size ((DASamples.build rest).startDA i) off]
      rw [hflag, hsrank, harr]
    · have hstart : (DASamples.build (r :: rest)).startDA (i + 1) =
          (DASamples.build rest).startDA i := by
        rw [DASamples.startDA, DASamples.startDA, hrank1, if_neg hr, Nat.zero_add]
        have hbr : (DASamples.build (r :: rest)).bwt_ranges = buildStarts rest 0 := by
          dsimp only [DASamples.build]
          rw [buildStarts, if_neg hr]
        rw [hbr, hbr2]
      have hflag : (DASamples.build (r :: rest)).sampled_offsets =
          (DASamples.build rest).sampled_offsets := by
        dsimp only [DASamples.build]
        rw [buildFlags, if_neg hr, List.nil_append]
      have harr : (DASamples.build (r :: rest)).array =
          (DASamples.build rest).array := by
        dsimp only [DASamples.build]
        rw [buildArray, if_neg hr, List.nil_append]
      rw [hstart, DASamples.sample_rank, DASamples.sample_rank, hflag, harr]
  · rw [if_pos hsam, if_pos hsam]


/-- Locating in the head record: a sampled offset returns its stored
sequence, an unsampled offset or an unsampled record returns
`invalid_sequence()`. -/
theorem tryLocate_zero (r : DynamicRecord) (rest : List DynamicRecord)
    (hs : r.ids.Pairwise (fun a b => a.1 < b.1))
    (hin : ∀ s ∈ r.ids, s.1 < r.size) :
    (∀ off v, (off, v) ∈ r.ids →
      (DASamples.build (r :: rest)).tryLocate 0 off = v) ∧
    (∀ off, off < r.size → (∀ s ∈ r.ids, s.1 ≠ off) →
      (DASamples.build (r :: rest)).tryLocate 0 off = invalid_sequence) ∧
    (r.samples = 0 → ∀ off,
      (DASamples.build (r :: rest)).tryLocate 0 off = invalid_sequence) := by
  have hisamp : (DASamples.build (r :: rest)).isSampled 0 =
      decide (0 < r.samples) := by
    rw [DASamples.isSampled]
    dsimp only [DASamples.build]
    rw [List.map_cons, List.getD_cons_zero]
  by_cases hr : 0 < r.samples
  case neg =>
    have hids : r.ids = [] := by
      rw [DynamicRecord.samples] at hr
      cases hlist : r.ids with
      | nil => rfl
      | cons x tl => rw [hlist] at hr; simp at hr
    refine ⟨?_, ?_, ?_⟩
    · intro off v hmem
      rw [hids] at hmem
      simp at hmem
    · intro off _ _
      rw [DASamples.tryLocate, if_pos (by rw [hisamp]; simp [hr])]
    · intro _ off
      rw [DASamples.tryLocate, if_pos (by rw [hisamp]; simp [hr])]
  case pos =>
    have hso : (DASamples.build (r :: rest)).sampled_offsets =
        blockFlags r ++ buildFlags rest := by
      dsimp only [DASamples.build]
      rw [buildFlags, if_pos hr]
    have har : (DASamples.build (r :: rest)).array =
        r.ids.map Prod.snd ++ buildArray rest := by
      dsimp only [DASamples.build]
      rw [buildArray, if_pos hr]
    have hsz : (blockFlags r).length = r.size := blockFlags_length r
    have hstart : (DASamples.build (r :: rest)).startDA 0 = 0 := by
      rw [DASamples.startDA]
      have hrk : (DASamples.build (r :: rest)).record_rank 0 = 0 := by
        rw [DASamples.record_rank]
        simp
      rw [hrk]
      dsimp only [DASamples.build]
      rw [buildStarts, if_pos hr, List.getD_cons_zero]
    have hflag : ∀ off, off < r.size →
        (DASamples.build (r :: rest)).sampled_offsets.getD off false =
          r.ids.any (fun s => s.1 = off) := by
      intro off hoff
      rw [hso, List.getD_append _ _ _ _ (by rw [hsz]; omega)]
      exact blockFlags_getD r off hoff
    have hsrank : ∀ off, off ≤ r.size →
        (DASamples.build (r :: rest)).sample_rank off =
          r.ids.countP (fun s => decide (s.1 < off)) := by
      intro off hoff
      rw [DASamples.sample_rank, hso, List.take_append_of_le_length (by rw [hsz]; omega),
        blockFlags_take_count r off hoff hs]
    refine ⟨?_, ?_, ?_⟩
    · intro off v hmem
      have hoff : off < r.size := by
        have := hin (off, v) hmem
        simpa using this
      rw [DASamples.tryLocate, if_neg (by rw [hisamp]; simp [hr]), hstart, Nat.zero_add]
      rw [hflag off hoff]
      rw [if_pos (by rw [List.any_eq_true]; exact ⟨(off, v), hmem, by simp⟩)]
      rw [hsrank off (by omega), har]
      have hcnt : r.ids.countP (fun s => decide (s.1 < off)) < r.ids.length := by
        rcases Nat.lt_or_ge (r.ids.countP (fun s => decide (s.1 < off))) r.ids.length
          with h | h
        · exact h
        · have heq : r.ids.countP (fun s => decide (s.1 < off)) = r.ids.length := by
            have := List.countP_le_length (p := fun s => decide (s.1 < off)) (l := r.ids)
            omega
          have hall := List.countP_eq_length.mp heq (off, v) hmem
          simp at hall
      rw [List.getD_append _ _ _ _ (by simpa using hcnt)]
      exact getD_map_snd_sorted r.ids hs off v hmem
    · intro off hoff hno
      rw [DASamples.tryLocate, if_neg (by rw [hisamp]; simp [hr]), hstart, Nat.zero_add]
      rw [hflag off hoff]
      rw [if_neg ?hne]
      case hne =>
        rw [List.any_eq_true]
        rintro ⟨s, hsm, hsv⟩
        exact hno s hsm (by simpa using hsv)
    · intro hzero
      exfalso
      rw [DynamicRecord.samples] at hzero hr
      omega


/-- C6: samples built from a record list are located exactly: a sampled
(record, offset) returns its sequence id, an in-range unsampled offset
returns `invalid_sequence()`, and an unsampled record always returns
`invalid_sequence()`. -/
theorem claim_C6 : ∀ (bwt : List DynamicRecord), (∀ r ∈ bwt, r.wf) →
    ∀ i, i < bwt.length →
      (∀ s ∈ (bwt.getD i ⟨[], [], [], 0, []⟩).ids,
        (DASamples.build bwt).tryLocate i s.1 = s.2) ∧
      (∀ off, off < (bwt.getD i ⟨[], [], [], 0, []⟩).size →
        (∀ s ∈ (bwt.getD i ⟨[], [], [], 0, []⟩).ids, s.1 ≠ off) →
        (DASamples.build bwt).tryLocate i off = invalid_sequence) ∧
      ((bwt.getD i ⟨[], [], [], 0, []⟩).samples = 0 →
        ∀ off, (DASamples.build bwt).tryLocate i off = invalid_sequence) := by
  intro bwt
  induction bwt with
  | nil =>
    intro _ i hi
    simp at hi
  | cons r rest ih =>
    intro hwf i hi
    obtain ⟨_, _, hbsz, hids, hbound⟩ := hwf r (by simp)
    have hin : ∀ s ∈ r.ids, s.1 < r.size := by
      intro s hsm
      rw [DynamicRecord.size]
      exact hbound s hsm
    cases i with
    | zero =>
      obtain ⟨h1, h2, h3⟩ := tryLocate_zero r rest hids hin
      rw [List.getD_cons_zero]
      refine ⟨?_, ?_, ?_⟩
      · intro s hsm
        exact h1 s.1 s.2 hsm
      · intro off hoff hno
        exact h2 off hoff hno
      · intro hz off
        exact h3 hz off
    | succ j =>
      have hj : j < rest.length := by
        rw [List.length_cons] at hi
        omega
      obtain ⟨h1, h2, h3⟩ := ih (fun t ht => hwf t (by simp [ht])) j hj
      rw [List.getD_cons_succ]
      refine ⟨?_, ?_, ?_⟩
      · intro s hsm
        rw [tryLocate_cons r rest hids hin j s.1]
        exact h1 s hsm
      · intro off hoff hno
        rw [tryLocate_cons r rest hids hin j off]
        exact h2 off hoff hno
      · intro hz off
        rw [tryLocate_cons r rest hids hin j off]
        exact h3 hz off

/-- Concrete sampled records for the C6 scenario. -/
def exD0 : DynamicRecord := ⟨[], [(1, 0)], [(0, 2)], 2, [(0, 7)]⟩

def exD1 : DynamicRecord := ⟨[], [(2, 0)], [(0, 3)], 3, [(1, 9)]⟩

theorem claim_C6_witness :
    DynamicRecord.wf exD0 ∧ DynamicRecord.wf exD1 ∧
    (DASamples.build [exD0, exD1]).tryLocate 1 1 = 9 ∧
    (DASamples.build [exD0, exD1]).tryLocate 1 0 = invalid_sequence ∧
    (DASamples.build [exD0, exD1]).tryLocate 0 0 = 7 :=
  ⟨by decide, by decide,
   (claim_C6 [exD0, exD1] (by decide) 1 (by decide)).1 (1, 9) (by decide),
   (claim_C6 [exD0, exD1] (by decide) 1 (by decide)).2.1 0 (by decide) (by decide),
   (claim_C6 [exD0, exD1] (by decide) 0 (by decide)).1 (0, 7) (by decide)⟩


/-! ### Dictionary (claim C7) -/

/-- `stringCompare` (src/support.cpp:1377-1387): lexicographic strict
comparison of two byte strings. -/
def stringCompare : List Nat → List Nat → Bool
  | [], [] => false
  | [], _ :: _ => true
  | _ :: _, [] => false
  | x :: xs, y :: ys => if x ≠ y then decide (x < y) else stringCompare xs ys

/-- A keyed string table: starting offsets into the flat byte data, and
a permutation ordering the strings. -/
structure Dictionary where
  offsets : List Nat
  sorted_ids : List Nat
  data : List Nat
deriving DecidableEq, Repr

/-- Write `v` at position `i`. -/
def setAt (l : List Nat) (i v : Nat) : List Nat :=
  l.mapIdx fun j x => if j = i then v else x

/-- Insertion of one element under a strict order. -/
def insertBy (lt : Nat → Nat → Bool) (x : Nat) : List Nat → List Nat
  | [] => [x]
  | y :: ys => if lt x y then x :: y :: ys else y :: insertBy lt x ys

/-- `sequentialSort` on ids, modelled as insertion sort. -/
def insertSortBy (lt : Nat → Nat → Bool) : List Nat → List Nat
  | [] => []
  | x :: xs => insertBy lt x (insertSortBy lt xs)

namespace Dictionary

/-- `size()`.  Modelled from the spec (§4.8, §5): `offsets` stores the
`size() + 1` string boundaries. -/
def sizeD (d : Dictionary) : Nat := d.offsets.length - 1

/-- `empty()`.  Modelled from the spec (§4.8). -/
def emptyD (d : Dictionary) : Bool := decide (d.sizeD = 0)

/-- The string with identifier `i`: `data[offsets[i]..offsets[i+1])`. -/
def str (d : Dictionary) (i : Nat) : List Nat :=
  (d.data.take (d.offsets.getD (i + 1) 0)).drop (d.offsets.getD i 0)

/-- `smaller(a, b)` (src/support.cpp:1389-1396). -/
def smallerII (d : Dictionary) (a b : Nat) : Bool :=
  stringCompare (d.str (d.sorted_ids.getD a 0)) (d.str (d.sorted_ids.getD b 0))

/-- `smaller(s, b)` (src/support.cpp:1406-1414). -/
def smallerSI (d : Dictionary) (s : List Nat) (b : Nat) : Bool :=
  stringCompare s (d.str (d.sorted_ids.getD b 0))

/-- `smaller(a, s)` (src/support.cpp:1398-1404). -/
def smallerIS (d : Dictionary) (a : Nat) (s : List Nat) : Bool :=
  stringCompare (d.str (d.sorted_ids.getD a 0)) s

/-- The binary-search loop of `find` (src/support.cpp:1319-1331); the
fuel bounds the iteration count. -/
def findAux (d : Dictionary) (s : List Nat) : Nat → Nat → Nat → Nat
  | 0, _, _ => d.sizeD
  | fuel + 1, start, limit =>
    if start < limit then
      let mid := start + (limit - start) / 2
      if d.smallerSI s mid then findAux d s fuel start mid
      else if d.smallerIS mid s then findAux d s fuel (mid + 1) limit
      else d.sorted_ids.getD mid 0
    else d.sizeD

/-- `find(s)` (src/support.cpp:1319-1331). -/
def find (d : Dictionary) (s : List Nat) : Nat :=
  findAux d s (d.sizeD + 1) 0 d.sizeD

/-- `append(source)` (src/support.cpp:1333-1375), transcribed exactly:
the offset-copying loop at src/support.cpp:1354 writes every source
offset to the single slot `old_size + 1`.  `std::sort` with the
self-referential comparator is modelled as insertion sort of the ids by
their strings (spec §4.8: `sorted_ids` orders the strings
lexicographically). -/
def append (d source : Dictionary) : Dictionary :=
  if source.emptyD then d
  else
    let old_data_size := d.data.length
    let old_size := d.sizeD
    let new_size := d.sizeD + source.sizeD
    let new_data := d.data ++ source.data
    let of0 := List.replicate (old_size + source.sizeD + 1) 0
    let of1 := (List.range old_size).foldl
      (fun acc i => setAt acc i (d.offsets.getD i 0)) of0
    let of2 := (List.range (source.sizeD + 1)).foldl
      (fun acc i => setAt acc (old_size + 1) (old_data_size + source.offsets.getD i 0)) of1
    let pre : Dictionary := ⟨of2, [], new_data⟩
    let ids := insertSortBy (fun a b => stringCompare (pre.str a) (pre.str b))
      (List.range new_size)
    ⟨of2, ids, new_data⟩

end Dictionary

/-- The two singleton dictionaries of the failing input: A = ["a"],
B = ["b"]. -/
def exA : Dictionary := ⟨[0, 1], [0], [97]⟩

def exB : Dictionary := ⟨[0, 1], [0], [98]⟩

/-- C7: the claimed concatenation property fails.  The offset loop at
src/support.cpp:1354 writes every source offset to slot `old_size + 1`,
leaving slot `old_size` zero, so after `A.append(B)` with A = ["a"],
B = ["b"] the table holds `offsets = [0, 0, 2]`: string 0 is empty,
string 1 is "ab", and `find` no longer locates A's original string. -/
theorem claim_C7 :
    (Dictionary.append exA exB).sizeD = 2 ∧
    (Dictionary.append exA exB).offsets = [0, 0, 2] ∧
    Dictionary.str (Dictionary.append exA exB) 0 = [] ∧
    Dictionary.str (Dictionary.append exA exB) 1 = [97, 98] ∧
    Dictionary.find (Dictionary.append exA exB) [97] = 2 ∧
    ¬ (Dictionary.str (Dictionary.append exA exB) 0 = Dictionary.str exA 0 ∧
       Dictionary.str (Dictionary.append exA exB) 1 = Dictionary.str exB 0) := by
  decide


/-! ### Compaction properties (claim C8) -/

theorem compact_cons (e : edge_type) (l : List edge_type) (used : Nat → Bool) :
    DynamicRecord.compact (e :: l) used =
      (if used 0 then [e] else []) ++
        DynamicRecord.compact l (fun i => used (i + 1)) := by
  rw [DynamicRecord.compact, DynamicRecord.compact, List.length_cons,
    List.range_succ_eq_map, List.filterMap_cons, List.filterMap_map]
  by_cases h0 : used 0 = true
  · rw [if_pos h0]
    simp only [List.getD_cons_zero, if_pos h0]
    congr 1
  · rw [if_neg h0]
    simp only [List.getD_cons_zero, if_neg h0]
    apply List.filterMap_congr
    intro i _
    simp [Function.comp, Nat.succ_eq_add_one]

theorem compact_sublist (l : List edge_type) :
    ∀ (used : Nat → Bool), (DynamicRecord.compact l used).Sublist l := by
  induction l with
  | nil => intro used; rw [DynamicRecord.compact]; simp
  | cons e tl ih =>
    intro used
    rw [compact_cons]
    by_cases h0 : used 0 = true
    · rw [if_pos h0]
      exact (ih _).cons₂ e
    · rw [if_neg h0]
      exact (ih _).cons e

theorem compact_all (l : List edge_type) :
    ∀ (used : Nat → Bool), (∀ i, i < l.length → used i = true) →
      DynamicRecord.compact l used = l := by
  induction l with
  | nil => intro used _; rw [DynamicRecord.compact]; simp
  | cons e tl ih =>
    intro used hall
    rw [compact_cons, if_pos (hall 0 (by simp))]
    rw [ih _ (fun i hi => hall (i + 1) (by simp; omega))]
    simp

theorem mem_compact (l : List edge_type) :
    ∀ (used : Nat → Bool) (i : Nat), i < l.length → used i = true →
      l.getD i (0, 0) ∈ DynamicRecord.compact l used := by
  induction l with
  | nil => intro used i hi; simp at hi
  | cons e tl ih =>
    intro used i hi hused
    rw [compact_cons]
    cases i with
    | zero =>
      rw [if_pos hused]
      simp
    | succ j =>
      rw [List.getD_cons_succ]
      have hmem := ih (fun k => used (k + 1)) j (by simp at hi; omega) hused
      exact List.mem_append_right _ hmem

theorem compact_mem_of_mem (l : List edge_type) :
    ∀ (used : Nat → Bool) (e : edge_type), e ∈ DynamicRecord.compact l used →
      e ∈ l := by
  intro used e he
  exact (compact_sublist l used).mem he

/-- Walking the body with rewritten ranks returns the same successors
when the rewriting preserves the successor value. -/
theorem bodyAt_congr (outgoing outgoing2 : List edge_type) (f : Nat → Nat) :
    ∀ (body : List run_type) (i off : Nat),
    (∀ run ∈ body, (outgoing2.getD (f run.1) (0, 0)).1 = (outgoing.getD run.1 (0, 0)).1) →
    DynamicRecord.bodyAt outgoing2 i (body.map fun run => (f run.1, run.2)) off =
      DynamicRecord.bodyAt outgoing i body off := by
  intro body
  induction body with
  | nil => intro i off _; rfl
  | cons run rest ih =>
    intro i off hpres
    rw [List.map_cons, DynamicRecord.bodyAt, DynamicRecord.bodyAt]
    dsimp only
    by_cases hhit : off + run.2 > i
    · rw [if_pos hhit, if_pos hhit]
      exact hpres run (by simp)
    · rw [if_neg hhit, if_neg hhit]
      exact ih i (off + run.2) (fun t ht => hpres t (by simp [ht]))


theorem compact_mem_used (l : List edge_type) :
    ∀ (used : Nat → Bool) (e : edge_type), e ∈ DynamicRecord.compact l used →
      ∃ i, i < l.length ∧ used i = true ∧ l.getD i (0, 0) = e := by
  induction l with
  | nil =>
    intro used e he
    rw [DynamicRecord.compact] at he
    simp at he
  | cons x tl ih =>
    intro used e he
    rw [compact_cons] at he
    rcases List.mem_append.mp he with h | h
    · by_cases h0 : used 0 = true
      · rw [if_pos h0] at h
        simp at h
        exact ⟨0, by simp, h0, by simp [h]⟩
      · rw [if_neg h0] at h
        simp at h
    · obtain ⟨i, hi, hui, hgd⟩ := ih _ e h
      exact ⟨i + 1, by simp; omega, hui, by rw [List.getD_cons_succ]; exact hgd⟩

theorem usedIn_iff (body : List run_type) (i : Nat) :
    DynamicRecord.usedIn body i = true ↔ ∃ run ∈ body, run.1 = i := by
  rw [DynamicRecord.usedIn, List.any_eq_true]
  constructor
  · rintro ⟨run, hr, hv⟩
    exact ⟨run, hr, by simpa using hv⟩
  · rintro ⟨run, hr, hv⟩
    exact ⟨run, hr, by simpa using hv⟩

theorem rue_outgoing (r : DynamicRecord) :
    r.removeUnusedEdges.outgoing =
      DynamicRecord.compact r.outgoing (DynamicRecord.usedIn r.body) := rfl

theorem rue_body (r : DynamicRecord) :
    r.removeUnusedEdges.body =
      r.body.map fun run =>
        (edgeTo (r.successor run.1) r.removeUnusedEdges.outgoing, run.2) := by
  rw [DynamicRecord.removeUnusedEdges]
  dsimp only
  rw [List.map_map]
  rfl

/-- The new rank of a used old rank after `removeUnusedEdges`: it is in
range and still points at the same successor. -/
theorem rue_rank_spec (r : DynamicRecord)
    (hs : r.outgoing.Pairwise (fun a b => a.1 < b.1))
    (i : Nat) (hi : i < r.outgoing.length)
    (hused : DynamicRecord.usedIn r.body i = true) :
    edgeTo (r.successor i) r.removeUnusedEdges.outgoing <
      r.removeUnusedEdges.outgoing.length ∧
    (r.removeUnusedEdges.outgoing.getD
      (edgeTo (r.successor i) r.removeUnusedEdges.outgoing) (0, 0)).1 =
      r.successor i := by
  have hsorted : r.removeUnusedEdges.outgoing.Pairwise (fun a b => a.1 < b.1) := by
    rw [rue_outgoing]
    exact hs.sublist (compact_sublist r.outgoing _)
  have hmem : r.outgoing.getD i (0, 0) ∈ r.removeUnusedEdges.outgoing := by
    rw [rue_outgoing]
    exact mem_compact r.outgoing _ i hi hused
  have hmf : r.successor i ∈ r.removeUnusedEdges.outgoing.map Prod.fst := by
    rw [DynamicRecord.successor]
    exact List.mem_map.mpr ⟨_, hmem, rfl⟩
  obtain ⟨k, hk, hkv⟩ := mem_fst_index hmf
  have hedge := edgeTo_hit _ _ hsorted k hk hkv
  rw [hedge]
  exact ⟨hk, hkv⟩

/-- `recode` is the identity on a record whose outgoing edges are
already sorted. -/
theorem recode_self (r : DynamicRecord)
    (hs : r.outgoing.Pairwise (fun a b => a.1 < b.1)) : r.recode = r := by
  rw [DynamicRecord.recode]
  by_cases hemp : r.emptyRec = true
  · rw [if_pos hemp]
  · rw [if_neg hemp]
    have hsort : ((List.range r.outdegree).all fun outrank =>
        decide (outrank = 0) ||
          ! decide (r.successor outrank < r.successor (outrank - 1))) = true := by
      rw [List.all_eq_true]
      intro k hk
      have hk2 := List.mem_range.mp hk
      by_cases h0 : k = 0
      · simp [h0]
      · have hlt := sorted_fst_lt hs (k - 1) k (by omega) hk2
        simp only [Bool.or_eq_true, decide_eq_true_eq, Bool.not_eq_true',
          decide_eq_false_iff_not]
        right
        intro hcon
        rw [DynamicRecord.successor, DynamicRecord.successor] at hcon
        have hcon2 : (r.outgoing.getD k (0, 0)).1 < (r.outgoing.getD (k - 1) (0, 0)).1 :=
          hcon
        omega
    rw [if_pos hsort]

theorem dynrec_ext (a b : DynamicRecord) (h1 : a.incoming = b.incoming)
    (h2 : a.outgoing = b.outgoing) (h3 : a.body = b.body)
    (h4 : a.body_size = b.body_size) (h5 : a.ids = b.ids) : a = b := by
  cases a
  cases b
  dsimp only at h1 h2 h3 h4 h5
  rw [h1, h2, h3, h4, h5]


/-- `removeUnusedEdges` preserves the node sequence. -/
theorem rue_getAt (r : DynamicRecord)
    (hs : r.outgoing.Pairwise (fun a b => a.1 < b.1))
    (hrk : ∀ run ∈ r.body, run.1 < r.outdegree)
    (i : Nat) (hi : i < r.size) :
    r.removeUnusedEdges.getAt i = r.getAt i := by
  have hsz : r.removeUnusedEdges.size = r.size := rfl
  rw [DynamicRecord.getAt, DynamicRecord.getAt, hsz,
    if_neg (by omega), if_neg (by omega)]
  rw [show r.removeUnusedEdges.body =
      r.body.map fun run =>
        ((fun k => edgeTo (r.successor k) r.removeUnusedEdges.outgoing) run.1, run.2)
    from rue_body r]
  have hpres : ∀ run ∈ r.body,
      (r.removeUnusedEdges.outgoing.getD
        ((fun k => edgeTo (r.successor k) r.removeUnusedEdges.outgoing) run.1)
          (0, 0)).1 = (r.outgoing.getD run.1 (0, 0)).1 := by
    intro run hrun
    have hused : DynamicRecord.usedIn r.body run.1 = true :=
      (usedIn_iff r.body run.1).mpr ⟨run, hrun, rfl⟩
    have hspec := rue_rank_spec r hs run.1 (hrk run hrun) hused
    rw [hspec.2]
    rfl
  exact bodyAt_congr r.outgoing r.removeUnusedEdges.outgoing
    (fun k => edgeTo (r.successor k) r.removeUnusedEdges.outgoing) r.body i 0 hpres

/-- `removeUnusedEdges` is idempotent. -/
theorem rue_rue (r : DynamicRecord)
    (hs : r.outgoing.Pairwise (fun a b => a.1 < b.1))
    (hrk : ∀ run ∈ r.body, run.1 < r.outdegree) :
    r.removeUnusedEdges.removeUnusedEdges = r.removeUnusedEdges := by
  have hsorted : r.removeUnusedEdges.outgoing.Pairwise (fun a b => a.1 < b.1) := by
    rw [rue_outgoing]
    exact hs.sublist (compact_sublist r.outgoing _)
  have hO : r.removeUnusedEdges.removeUnusedEdges.outgoing =
      r.removeUnusedEdges.outgoing := by
    rw [rue_outgoing r.removeUnusedEdges]
    apply compact_all
    intro k hk
    rw [usedIn_iff]
    have hmem : r.removeUnusedEdges.outgoing.getD k (0, 0) ∈
        r.removeUnusedEdges.outgoing := by
      rw [List.getD_eq_getElem _ _ hk]
      exact List.getElem_mem _
    rw [rue_outgoing] at hmem
    obtain ⟨i, hi, hui, hgd⟩ := compact_mem_used r.outgoing _ _ hmem
    obtain ⟨run, hrun, hrv⟩ := (usedIn_iff _ _).mp hui
    refine ⟨(edgeTo (r.successor run.1) r.removeUnusedEdges.outgoing, run.2), ?_, ?_⟩
    · rw [rue_body]
      exact List.mem_map.mpr ⟨run, hrun, rfl⟩
    · apply edgeTo_hit _ _ hsorted k hk
      rw [hrv, DynamicRecord.successor, rue_outgoing]
      exact (congrArg Prod.fst hgd).symm
  have hB : r.removeUnusedEdges.removeUnusedEdges.body =
      r.removeUnusedEdges.body := by
    rw [rue_body r.removeUnusedEdges, hO]
    have hpt : ∀ run1 ∈ r.removeUnusedEdges.body,
        ((fun run => (edgeTo (r.removeUnusedEdges.successor run.1)
            r.removeUnusedEdges.outgoing, run.2)) run1) = id run1 := by
      intro run1 hrun1
      rw [rue_body r] at hrun1
      obtain ⟨run, hrun, hmap⟩ := List.mem_map.mp hrun1
      have hused : DynamicRecord.usedIn r.body run.1 = true :=
        (usedIn_iff r.body run.1).mpr ⟨run, hrun, rfl⟩
      have hspec := rue_rank_spec r hs run.1 (hrk run hrun) hused
      dsimp only [id]
      rw [← hmap]
      dsimp only
      have hsucc : r.removeUnusedEdges.successor
          (edgeTo (r.successor run.1) r.removeUnusedEdges.outgoing) =
          r.successor run.1 := by
        rw [DynamicRecord.successor]
        exact hspec.2
      rw [hsucc]
    rw [List.map_congr_left hpt, List.map_id]
  exact dynrec_ext _ _ rfl hO hB rfl rfl


/-- C8: under the record invariants, `removeUnusedEdges` is idempotent,
`recode` is idempotent after a first application, and both operations
preserve the node sequence `r[i]`. -/
theorem claim_C8 (r : DynamicRecord) (hwf : r.wf) :
    r.removeUnusedEdges.removeUnusedEdges = r.removeUnusedEdges ∧
    r.recode.recode = r.recode ∧
    (∀ i, i < r.size → r.removeUnusedEdges.getAt i = r.getAt i) ∧
    (∀ i, i < r.size → r.recode.getAt i = r.getAt i) := by
  obtain ⟨hs, hrk, _, _, _⟩ := hwf
  have hrk2 : ∀ run ∈ r.body, run.1 < r.outdegree := fun run h => (hrk run h).1
  refine ⟨rue_rue r hs hrk2, ?_, ?_, ?_⟩
  · rw [recode_self r hs, recode_self r hs]
  · intro i hi
    exact rue_getAt r hs hrk2 i hi
  · intro i hi
    rw [recode_self r hs]

theorem claim_C8_witness :
    DynamicRecord.wf exR ∧
    exR.removeUnusedEdges.removeUnusedEdges = exR.removeUnusedEdges ∧
    exR.recode.recode = exR.recode ∧
    (2 < exR.size ∧ exR.removeUnusedEdges.getAt 2 = exR.getAt 2) ∧
    exR.recode.getAt 2 = exR.getAt 2 :=
  ⟨by decide, (claim_C8 exR (by decide)).1, (claim_C8 exR (by decide)).2.1,
   ⟨by decide, (claim_C8 exR (by decide)).2.2.1 2 (by decide)⟩,
   (claim_C8 exR (by decide)).2.2.2 2 (by decide)⟩


/-! ### Recode on an empty record (claim C9) -/

/-- The sortedness test of `recode` (src/support.cpp:102-107): adjacent
successors never decrease. -/
def sortedCheck (r : DynamicRecord) : Bool :=
  (List.range r.outdegree).all fun outrank =>
    decide (outrank = 0) ||
      ! decide (r.successor outrank < r.successor (outrank - 1))

/-- C9: on a record with an empty body, `recode()` returns immediately
and modifies nothing; in particular an unsorted outgoing list stays
unsorted, so `recode` does not establish the sortedness invariant on
empty records. -/
theorem claim_C9 (r : DynamicRecord) (h : r.body_size = 0) :
    r.recode = r ∧
    (sortedCheck r = false → sortedCheck r.recode = false) := by
  have hrec : r.recode = r := by
    rw [DynamicRecord.recode, if_pos ?hemp]
    case hemp =>
      rw [DynamicRecord.emptyRec, DynamicRecord.size, h]
      decide
  exact ⟨hrec, fun hun => by rw [hrec]; exact hun⟩

/-- An empty-bodied record with outgoing edges out of order. -/
def exU : DynamicRecord := ⟨[], [(6, 0), (4, 3)], [], 0, []⟩

theorem claim_C9_witness :
    exU.body_size = 0 ∧ exU.recode = exU ∧
    (sortedCheck exU = false ∧ sortedCheck exU.recode = false) :=
  ⟨by decide, (claim_C9 exU (by decide)).1,
   by decide, (claim_C9 exU (by decide)).2 (by decide)⟩


/-! ### Metadata merge (claim C10) -/

/-- A path name record (spec §4.9): sample, contig, phase and count
fields. -/
structure PathName where
  sample : Nat
  contig : Nat
  phase : Nat
  count : Nat
deriving DecidableEq, Repr

/-- `Metadata`: counts, the three optional-section flag bits
(`FLAG_PATH_NAMES`, `FLAG_SAMPLE_NAMES`, `FLAG_CONTIG_NAMES`, modelled
as booleans; spec §5), and the optional sections. -/
structure Metadata where
  sample_count : Nat
  haplotype_count : Nat
  contig_count : Nat
  flag_path_names : Bool
  flag_sample_names : Bool
  flag_contig_names : Bool
  path_names : List PathName
  sample_names : Dictionary
  contig_names : Dictionary
deriving DecidableEq, Repr

namespace Metadata

/-- The sample/haplotype part of `merge` (src/support.cpp:1656-1692).
In the `same_samples` branch the source dictionary is copied without
setting the flag, exactly as in the source. -/
def mergeSamples (m source : Metadata) (same_samples : Bool) : Metadata :=
  if same_samples then
    if ¬ m.flag_sample_names = true ∧ source.flag_sample_names = true then
      { m with sample_names := source.sample_names }
    else m
  else
    if m.flag_sample_names then
      if source.flag_sample_names then
        { m with sample_count := m.sample_count + source.sample_count,
                 haplotype_count := m.haplotype_count + source.haplotype_count,
                 sample_names := Dictionary.append m.sample_names source.sample_names }
      else
        { m with sample_count := m.sample_count + source.sample_count,
                 haplotype_count := m.haplotype_count + source.haplotype_count,
                 flag_sample_names := false, sample_names := ⟨[], [], []⟩ }
    else
      { m with sample_count := m.sample_count + source.sample_count,
               haplotype_count := m.haplotype_count + source.haplotype_count }

/-- The contig part of `merge` (src/support.cpp:1694-1730). -/
def mergeContigs (m source : Metadata) (same_contigs : Bool) : Metadata :=
  if same_contigs then
    if ¬ m.flag_contig_names = true ∧ source.flag_contig_names = true then
      { m with contig_names := source.contig_names }
    else m
  else
    if m.flag_contig_names then
      if source.flag_contig_names then
        { m with contig_count := m.contig_count + source.contig_count,
                 contig_names := Dictionary.append m.contig_names source.contig_names }
      else
        { m with contig_count := m.contig_count + source.contig_count,
                 flag_contig_names := false, contig_names := ⟨[], [], []⟩ }
    else
      { m with contig_count := m.contig_count + source.contig_count }

/-- The path part of `merge` (src/support.cpp:1732-1752): appended
source paths are shifted by the pre-merge sample and contig counts. -/
def mergePaths (m source : Metadata) (sso sco : Nat) : Metadata :=
  if m.flag_path_names then
    if source.flag_path_names then
      { m with path_names := m.path_names ++
          source.path_names.map (fun p =>
            { p with sample := p.sample + sso, contig := p.contig + sco }) }
    else
      { m with flag_path_names := false, path_names := [] }
  else m

/-- `merge(source, same_samples, same_contigs)` (src/support.cpp:1651-1753). -/
def merge (m source : Metadata) (same_samples same_contigs : Bool) : Metadata :=
  mergePaths (mergeContigs (mergeSamples m source same_samples) source same_contigs)
    source (if same_samples then 0 else m.sample_count)
    (if same_contigs then 0 else m.contig_count)

end Metadata

theorem mergeSamples_contig_frame (m s : Metadata) (b : Bool) :
    (Metadata.mergeSamples m s b).contig_count = m.contig_count ∧
    (Metadata.mergeSamples m s b).flag_contig_names = m.flag_contig_names ∧
    (Metadata.mergeSamples m s b).contig_names = m.contig_names := by
  rw [Metadata.mergeSamples]
  split_ifs <;> simp

theorem mergeContigs_sample_frame (m s : Metadata) (b : Bool) :
    (Metadata.mergeContigs m s b).sample_count = m.sample_count ∧
    (Metadata.mergeContigs m s b).haplotype_count = m.haplotype_count ∧
    (Metadata.mergeContigs m s b).flag_sample_names = m.flag_sample_names ∧
    (Metadata.mergeContigs m s b).sample_names = m.sample_names := by
  rw [Metadata.mergeContigs]
  split_ifs <;> simp

theorem mergePaths_frame (m s : Metadata) (sso sco : Nat) :
    (Metadata.mergePaths m s sso sco).sample_count = m.sample_count ∧
    (Metadata.mergePaths m s sso sco).haplotype_count = m.haplotype_count ∧
    (Metadata.mergePaths m s sso sco).flag_sample_names = m.flag_sample_names ∧
    (Metadata.mergePaths m s sso sco).sample_names = m.sample_names ∧
    (Metadata.mergePaths m s sso sco).contig_count = m.contig_count ∧
    (Metadata.mergePaths m s sso sco).flag_contig_names = m.flag_contig_names ∧
    (Metadata.mergePaths m s sso sco).contig_names = m.contig_names := by
  rw [Metadata.mergePaths]
  split_ifs <;> simp

theorem mergeSamples_clear (m s : Metadata)
    (hm : m.flag_sample_names = true) (hs : s.flag_sample_names = false) :
    Metadata.mergeSamples m s false =
      { m with sample_count := m.sample_count + s.sample_count,
               haplotype_count := m.haplotype_count + s.haplotype_count,
               flag_sample_names := false, sample_names := ⟨[], [], []⟩ } := by
  rw [Metadata.mergeSamples]
  simp [hm, hs]

theorem mergeContigs_clear (m s : Metadata)
    (hm : m.flag_contig_names = true) (hs : s.flag_contig_names = false) :
    Metadata.mergeContigs m s false =
      { m with contig_count := m.contig_count + s.contig_count,
               flag_contig_names := false, contig_names := ⟨[], [], []⟩ } := by
  rw [Metadata.mergeContigs]
  simp [hm, hs]

/-- C10: merging `s` into `m` with `same_samples = false` when `m` has
sample names and `s` does not unsets the sample-names flag and empties
the sample-names dictionary, while the sample and haplotype counts are
still added; analogously, with `same_contigs = false`, when `m` has
contig names and `s` does not, the contig-names flag is unset, the
contig-names dictionary emptied, and the contig counts added
(src/support.cpp:1672-1692 and 1710-1729). -/
theorem claim_C10 :
    (∀ (m s : Metadata) (b : Bool),
      m.flag_sample_names = true → s.flag_sample_names = false →
      (Metadata.merge m s false b).flag_sample_names = false ∧
      (Metadata.merge m s false b).sample_names = ⟨[], [], []⟩ ∧
      (Metadata.merge m s false b).sample_count = m.sample_count + s.sample_count ∧
      (Metadata.merge m s false b).haplotype_count = m.haplotype_count + s.haplotype_count) ∧
    (∀ (m s : Metadata) (b : Bool),
      m.flag_contig_names = true → s.flag_contig_names = false →
      (Metadata.merge m s b false).flag_contig_names = false ∧
      (Metadata.merge m s b false).contig_names = ⟨[], [], []⟩ ∧
      (Metadata.merge m s b false).contig_count = m.contig_count + s.contig_count) := by
  constructor
  · intro m s b hm hs
    rw [Metadata.merge]
    obtain ⟨p1, p2, p3, p4, _, _, _⟩ :=
      mergePaths_frame (Metadata.mergeContigs (Metadata.mergeSamples m s false) s b) s
        (if (false : Bool) = true then 0 else m.sample_count)
        (if b = true then 0 else m.contig_count)
    obtain ⟨c1, c2, c3, c4⟩ :=
      mergeContigs_sample_frame (Metadata.mergeSamples m s false) s b
    rw [p1, p2, p3, p4, c1, c2, c3, c4, mergeSamples_clear m s hm hs]
    exact ⟨rfl, rfl, rfl, rfl⟩
  · intro m s b hm hs
    rw [Metadata.merge]
    obtain ⟨_, _, _, _, p5, p6, p7⟩ :=
      mergePaths_frame (Metadata.mergeContigs (Metadata.mergeSamples m s b) s false) s
        (if b = true then 0 else m.sample_count)
        (if (false : Bool) = true then 0 else m.contig_count)
    obtain ⟨s1, s2, s3⟩ := mergeSamples_contig_frame m s b
    rw [p5, p6, p7, mergeContigs_clear (Metadata.mergeSamples m s b) s (s2.trans hm) hs, s1]
    exact ⟨rfl, rfl, rfl⟩

def exMetaM : Metadata :=
  ⟨2, 4, 1, false, true, true, [], ⟨[0, 1], [0], [97]⟩, ⟨[0, 1], [0], [99]⟩⟩

def exMetaS : Metadata :=
  ⟨3, 6, 5, false, false, false, [], ⟨[], [], []⟩, ⟨[], [], []⟩⟩

theorem claim_C10_witness :
    (Metadata.merge exMetaM exMetaS false true).flag_sample_names = false ∧
    (Metadata.merge exMetaM exMetaS false true).sample_names = ⟨[], [], []⟩ ∧
    (Metadata.merge exMetaM exMetaS false true).sample_count = 5 ∧
    (Metadata.merge exMetaM exMetaS false true).haplotype_count = 10 ∧
    (Metadata.merge exMetaM exMetaS true false).flag_contig_names = false ∧
    (Metadata.merge exMetaM exMetaS true false).contig_names = ⟨[], [], []⟩ ∧
    (Metadata.merge exMetaM exMetaS true false).contig_count = 6 := by
  obtain ⟨h1, h2⟩ := claim_C10
  obtain ⟨a1, a2, a3, a4⟩ := h1 exMetaM exMetaS true (by decide) (by decide)
  obtain ⟨b1, b2, b3⟩ := h2 exMetaM exMetaS true (by decide) (by decide)
  exact ⟨a1, a2, a3, a4, b1, b2, b3⟩

end Gbwt
